import Mathlib

/-!
# NOVA scheduling contexts (`src/sc.cpp`) and ACPI register access (`src/acpi.cpp`)

A shallow embedding of the per-CPU run queue, the scheduler decision loop and
the cross-CPU mailbox of the NOVA microhypervisor, and of the two functions of
the ACPI driver that access a register through its descriptor, followed by
theorems about them.

Pointers are natural numbers, `0` is the null pointer.  The heap of `Sc`
objects is a total function from addresses to records; the CPU-local
variables (`Sc::list`, `Sc::prio_top`, `Sc::current`, `Sc::rq`, `Cpu::hazard`,
the local APIC timer) are gathered in one record per CPU.  An operation runs on
the CPU whose number is passed as `id` (`Cpu::id`).  Assertion failures and
null dereferences are results of type `Fault`.
-/

namespace Nova

/-- Constants that the source takes from headers: `Sc::priorities`, the bit
number of `HZD_SCHED`, the width of `unsigned long` and the width of
`Cpu::hazard`. -/
structure Config where
  priorities : Nat
  hzd_sched_bit : Nat
  long_bits : Nat
  hazard_bits : Nat

/-- The mask `HZD_SCHED`. Modelled from the spec: the constant is declared in a
header outside the source files; the spec calls it a per-CPU flag, one bit of the
hazard word. -/
def HZD_SCHED (cfg : Config) : Nat := 2 ^ cfg.hzd_sched_bit

/-- The vector `VEC_IPI_RRQ` is declared in a header outside the source files; the
interrupt log records the handler it names. -/
inductive Vector where
  | VEC_IPI_RRQ
  | VEC_IPI_RKE
  deriving DecidableEq, Repr

/-- A scheduling context (`class Sc`). `prev` and `next` are the intrusive links. -/
structure Sc where
  owner : Nat
  cpu : Nat
  prio : Nat
  full : Nat
  left : Nat
  tsc : Nat
  prev : Nat
  next : Nat
  deriving DecidableEq, Repr

/-- The CPU-local variables the scheduler uses. `list` is `Sc::list`, `rq_queue`
is `Sc::rq.queue`, `timer` the current-count register of the local APIC timer,
`active` the execution context handed to `Ec::activate` last. -/
structure Cpu where
  list : Nat → Nat
  prio_top : Nat
  current : Nat
  ctr_loop : Nat
  hazard : Nat
  rq_queue : Nat
  timer : Nat
  active : Nat
  counter_schedule : Nat

/-- The machine: the heap of scheduling contexts, the CPU-local variables of every
CPU, the time offset of every execution context and the inter-processor
interrupts sent so far (newest first). -/
structure World where
  sc : Nat → Sc
  cpu : Nat → Cpu
  tsc_offset : Nat → Nat
  ipi : List (Nat × Vector)

/-- How an operation can stop short: a failed `assert`, a dereferenced null
pointer, or (for the model of an unbounded loop) exhausted fuel. -/
inductive Fault where
  | assert_prio
  | assert_cpu
  | assert_this
  | assert_linked
  | assert_current
  | assert_unlinked
  | assert_sc
  | null_deref
  | fuel
  deriving DecidableEq, Repr

/-- Pointwise update of a table. -/
def upd {α : Type} (f : Nat → α) (a : Nat) (v : α) : Nat → α :=
  fun x => if x = a then v else f x

/-- The heap after `p->prev = v`. -/
def setPrev (sc : Nat → Sc) (p v : Nat) : Nat → Sc :=
  upd sc p { sc p with prev := v }

/-- The heap after `p->next = v`. -/
def setNext (sc : Nat → Sc) (p v : Nat) : Nat → Sc :=
  upd sc p { sc p with next := v }

/-- The heap after `p->left = v`. -/
def setLeft (sc : Nat → Sc) (p v : Nat) : Nat → Sc :=
  upd sc p { sc p with left := v }

/-- The heap after `p->tsc = v`. -/
def setTsc (sc : Nat → Sc) (p v : Nat) : Nat → Sc :=
  upd sc p { sc p with tsc := v }

/-- The world with the CPU-local variables of CPU `id` replaced. -/
def World.setCpu (w : World) (id : Nat) (c : Cpu) : World :=
  { w with cpu := upd w.cpu id c }

/-- `Ec::add_tsc_offset`. Modelled from the spec: the execution context is an
external collaborator of the source files; the spec says the call is an additive
offset, never overwritten. The offset is a 64-bit unsigned quantity. -/
def add_tsc_offset (off : Nat → Nat) (owner v : Nat) : Nat → Nat :=
  upd off owner ((off owner + v) % 2 ^ 64)

/-- Subtraction of 64-bit unsigned values, `a - b` modulo `2 ^ 64`. -/
def sub64 (a b : Nat) : Nat := (a + 2 ^ 64 - b % 2 ^ 64) % 2 ^ 64

/-- `Lapic::get_timer`. Modelled from the spec: a read of the 32-bit current-count
register of the timer. -/
def get_timer (c : Cpu) : Nat := c.timer % 2 ^ 32

/-- `Lapic::set_timer`. Modelled from the spec: programs the timer register. -/
def set_timer (c : Cpu) (v : Nat) : Cpu := { c with timer := v }

/-- `Sc::ready_enqueue`, run on CPU `id` for the unit at address `this`; `now` is
the value `rdtsc()` returns. -/
def ready_enqueue (cfg : Config) (id this now : Nat) (w : World) : Except Fault World :=
  if this = 0 then .error .null_deref
  else if ¬ (w.sc this).prio < cfg.priorities then .error .assert_prio
  else if ¬ (w.sc this).cpu = id then .error .assert_cpu
  else if this = 2 ^ cfg.long_bits - 1 then .error .assert_this
  else
    let c := w.cpu id
    let prio := (w.sc this).prio
    -- if (prio > prio_top) prio_top = prio;
    let top := if prio > c.prio_top then prio else c.prio_top
    let head := c.list prio
    let linked : Except Fault ((Nat → Sc) × (Nat → Nat)) :=
      if head = 0 then
        -- list[prio] = prev = next = this;
        .ok (setPrev (setNext w.sc this this) this this, upd c.list prio this)
      else
        -- next = list[prio];
        let sc1 := setNext w.sc this head
        -- prev = list[prio]->prev;
        let sc2 := setPrev sc1 this (sc1 head).prev
        if (sc2 this).prev = 0 then .error .null_deref
        else
          -- next->prev = prev->next = this;
          let sc3 := setNext sc2 (sc2 this).prev this
          let sc4 := setPrev sc3 (sc3 this).next this
          -- if (left) list[prio] = this;
          .ok (sc4, if (sc4 this).left ≠ 0 then upd c.list prio this else c.list)
    match linked with
    | .error e => .error e
    | .ok (sc1, list1) =>
      if c.current = 0 then .error .null_deref
      else
        -- if (prio > current->prio || (this != current && prio == current->prio && left))
        --     Cpu::hazard |= HZD_SCHED;
        let hazard :=
          if prio > (sc1 c.current).prio ∨
              (this ≠ c.current ∧ prio = (sc1 c.current).prio ∧ (sc1 this).left ≠ 0)
          then c.hazard ||| HZD_SCHED cfg else c.hazard
        -- if (!left) left = full;
        let sc2 := if (sc1 this).left = 0 then setLeft sc1 this (sc1 this).full else sc1
        -- tsc = rdtsc();
        let sc3 := setTsc sc2 this now
        .ok { (w.setCpu id { c with list := list1, prio_top := top, hazard := hazard })
              with sc := sc3 }

/-- The loop `while (!list[prio_top] && prio_top) prio_top--;`, by recursion on
`prio_top`. -/
def scan_top (list : Nat → Nat) : Nat → Nat
  | 0 => 0
  | t + 1 => if list (t + 1) = 0 then scan_top list t else t + 1

/-- `Sc::ready_dequeue`, run on CPU `id` for the unit at address `this`; `now` is
the value `rdtsc()` returns. -/
def ready_dequeue (cfg : Config) (id this now : Nat) (w : World) : Except Fault World :=
  if this = 0 then .error .null_deref
  else if ¬ (w.sc this).prio < cfg.priorities then .error .assert_prio
  else if ¬ (w.sc this).cpu = id then .error .assert_cpu
  else if (w.sc this).prev = 0 ∨ (w.sc this).next = 0 then .error .assert_linked
  else
    let c := w.cpu id
    let prio := (w.sc this).prio
    -- if (list[prio] == this) list[prio] = next == this ? 0 : next;
    let list1 := if c.list prio = this
      then upd c.list prio (if (w.sc this).next = this then 0 else (w.sc this).next)
      else c.list
    -- next->prev = prev;
    let sc1 := setPrev w.sc (w.sc this).next (w.sc this).prev
    -- prev->next = next;
    let sc2 := setNext sc1 (sc1 this).prev (sc1 this).next
    -- prev = 0;
    let sc3 := setPrev sc2 this 0
    let top := scan_top list1 c.prio_top
    -- owner->add_tsc_offset (tsc - rdtsc());
    let off := add_tsc_offset w.tsc_offset (sc3 this).owner (sub64 (sc3 this).tsc now)
    .ok { (w.setCpu id { c with list := list1, prio_top := top })
          with sc := sc3, tsc_offset := off }

/-- `Sc::schedule`, run on CPU `id`; `now_enq` and `now_deq` are the values
`rdtsc()` returns in the re-enqueue of the outgoing unit and in the dequeue of
the selected one. -/
def schedule (cfg : Config) (id : Nat) (suspend : Bool) (now_enq now_deq : Nat) (w : World) :
    Except Fault World :=
  let c0 := w.cpu id
  let c := { c0 with counter_schedule := c0.counter_schedule + 1 }
  if c.current = 0 then .error .assert_current
  else if ¬ (suspend = true ∨ (w.sc c.current).prev = 0) then .error .assert_unlinked
  else
    -- current->left = Lapic::get_timer();
    let sc1 := setLeft w.sc c.current (get_timer c)
    -- Cpu::hazard &= ~HZD_SCHED;
    let c1 := { c with hazard := c.hazard &&& (2 ^ cfg.hazard_bits - 1 - HZD_SCHED cfg) }
    let w1 : World := { (w.setCpu id c1) with sc := sc1 }
    (if suspend then .ok w1 else ready_enqueue cfg id c.current now_enq w1) >>= fun w2 =>
      let c2 := w2.cpu id
      let sc := c2.list c2.prio_top
      if sc = 0 then .error .assert_sc
      else
        -- Lapic::set_timer (static_cast<uint32>(sc->left));
        let c3 := set_timer c2 ((w2.sc sc).left % 2 ^ 32)
        let c4 := { c3 with current := sc }
        ready_dequeue cfg id sc now_deq (w2.setCpu id c4) >>= fun w3 =>
          let c5 := w3.cpu id
          .ok (w3.setCpu id { c5 with ctr_loop := 0, active := (w3.sc sc).owner })

/-- `Sc::remote_enqueue`, run on CPU `id` for the unit at address `this`. The lock
of the target mailbox serialises the pushes; one push is one step here. -/
def remote_enqueue (cfg : Config) (id this now : Nat) (w : World) : Except Fault World :=
  if this = 0 then .error .null_deref
  else if id = (w.sc this).cpu then ready_enqueue cfg id this now w
  else
    let t := (w.sc this).cpu
    let r := w.cpu t
    if r.rq_queue ≠ 0 then
      -- next = r->queue; prev = r->queue->prev;
      let sc1 := setPrev (setNext w.sc this r.rq_queue) this
        (setNext w.sc this r.rq_queue r.rq_queue).prev
      let prv := (sc1 this).prev
      let nxt := (sc1 this).next
      if prv = 0 then .error .null_deref
      else
        -- next->prev = prev->next = this;
        .ok { w with sc := setPrev (setNext sc1 prv this) nxt this }
    else
      -- r->queue = prev = next = this; Lapic::send_ipi (cpu, ...);
      .ok { (w.setCpu t { r with rq_queue := this })
            with sc := setPrev (setNext w.sc this this) this this,
                 ipi := (t, Vector.VEC_IPI_RRQ) :: w.ipi }

/-- The loop of `Sc::rrq_handler` from the pointer `ptr` on; the `k`-th call of
`ready_enqueue` reads the time stamp `nows k`. The loop has no bound in the source:
`fuel` bounds the number of iterations of the model. -/
def rrq_loop (cfg : Config) (id : Nat) : Nat → Nat → (Nat → Nat) → World → Except Fault World
  | 0, ptr, _, w => if ptr = 0 then .ok w else .error .fuel
  | fuel + 1, ptr, nows, w =>
    if ptr = 0 then .ok w
    else if (w.sc ptr).next = 0 then .error .null_deref
    else
      -- ptr->next->prev = ptr->prev;
      let sc1 := setPrev w.sc (w.sc ptr).next (w.sc ptr).prev
      if (sc1 ptr).prev = 0 then .error .null_deref
      else
        -- ptr->prev->next = ptr->next;
        let sc2 := setNext sc1 (sc1 ptr).prev (sc1 ptr).next
        -- ptr = ptr->next == ptr ? 0 : ptr->next;
        let ptr1 := if (sc2 ptr).next = ptr then 0 else (sc2 ptr).next
        ready_enqueue cfg id ptr (nows 0) { w with sc := sc2 } >>= fun w1 =>
          rrq_loop cfg id fuel ptr1 (fun k => nows (k + 1)) w1

/-- `Sc::rrq_handler`, run on CPU `id`. -/
def rrq_handler (cfg : Config) (id fuel : Nat) (nows : Nat → Nat) (w : World) :
    Except Fault World :=
  rrq_loop cfg id fuel (w.cpu id).rq_queue nows w >>= fun w1 =>
    .ok (w1.setCpu id { w1.cpu id with rq_queue := 0 })

/-- `Sc::rke_handler`, run on CPU `id`; `stale` is the result of the two
translation-buffer checks, which belong to the protection domain. -/
def rke_handler (cfg : Config) (id : Nat) (stale : Bool) (w : World) : World :=
  if stale then w.setCpu id { w.cpu id with hazard := (w.cpu id).hazard ||| HZD_SCHED cfg }
  else w

/-! ## Rings -/

/-- The units of `l`, in this order, form one circular doubly-linked ring in the
heap `sc`: they are distinct and not null, the `next` link of each is the unit
after it (the first one after the last), and the `prev` link of each is the unit
before it. The empty list is the empty ring. -/
def Cyc (sc : Nat → Sc) (l : List Nat) : Prop :=
  l.Nodup ∧ 0 ∉ l ∧ l.map (fun x => (sc x).next) = l.rotate 1 ∧
    (l.rotate 1).map (fun x => (sc x).prev) = l

instance (sc : Nat → Sc) (l : List Nat) : Decidable (Cyc sc l) := by
  unfold Cyc; infer_instance

/-- The head pointer `h` designates the ring whose units, from the head on, are
`l`; a null head pointer designates the empty ring. -/
def Ring (sc : Nat → Sc) (h : Nat) (l : List Nat) : Prop :=
  Cyc sc l ∧ l.head?.getD 0 = h

instance (sc : Nat → Sc) (h : Nat) (l : List Nat) : Decidable (Ring sc h l) := by
  unfold Ring; infer_instance

/-! ## The run queue of one CPU -/

/-- The run-queue invariant of CPU `id`: `prio_top` is a level of the array, and
at every level `p` the head pointer `list[p]` designates a ring with the units
`q p`, each of priority `p` and with home CPU `id`. -/
def RqInv (cfg : Config) (id : Nat) (w : World) (q : Nat → List Nat) : Prop :=
  (w.cpu id).prio_top < cfg.priorities ∧
  ∀ p, p < cfg.priorities →
    Ring w.sc ((w.cpu id).list p) (q p) ∧ ∀ x ∈ q p, (w.sc x).prio = p ∧ (w.sc x).cpu = id

instance (cfg : Config) (id : Nat) (w : World) (q : Nat → List Nat) :
    Decidable (RqInv cfg id w q) := by
  unfold RqInv; infer_instance

/-- No level above `prio_top` holds a unit. -/
def TopBound (cfg : Config) (id : Nat) (w : World) (q : Nat → List Nat) : Prop :=
  ∀ p, p < cfg.priorities → (w.cpu id).prio_top < p → q p = []

instance (cfg : Config) (id : Nat) (w : World) (q : Nat → List Nat) :
    Decidable (TopBound cfg id w q) := by
  unfold TopBound; infer_instance

/-- The level `prio_top` holds a unit, or `prio_top` is 0. -/
def TopTight (id : Nat) (w : World) (q : Nat → List Nat) : Prop :=
  q (w.cpu id).prio_top ≠ [] ∨ (w.cpu id).prio_top = 0

instance (id : Nat) (w : World) (q : Nat → List Nat) : Decidable (TopTight id w q) := by
  unfold TopTight; infer_instance

/-- A unit that `ready_enqueue` accepts on CPU `id`: not null, not the address
`~0ul`, home CPU `id`, priority below `priorities`. -/
def ValidUnit (cfg : Config) (id : Nat) (w : World) (u : Nat) : Prop :=
  u ≠ 0 ∧ u ≠ 2 ^ cfg.long_bits - 1 ∧ (w.sc u).cpu = id ∧ (w.sc u).prio < cfg.priorities

instance (cfg : Config) (id : Nat) (w : World) (u : Nat) : Decidable (ValidUnit cfg id w u) := by
  unfold ValidUnit; infer_instance

/-- The queue of a level after `ready_enqueue` of `u`: at the tail when the quantum
is exhausted, at the head otherwise. -/
def insertUnit (left u : Nat) (l : List Nat) : List Nat :=
  if left = 0 then l ++ [u] else u :: l

/-- What `ready_enqueue` of `u` on CPU `id` leaves behind, in terms of the world `w`
before the call, the queues `q` of the levels before the call and the world `w'`
after it. -/
structure EnqPost (cfg : Config) (id u now : Nat) (w : World) (q : Nat → List Nat)
    (w' : World) : Prop where
  rq : RqInv cfg id w' (upd q (w.sc u).prio (insertUnit (w.sc u).left u (q (w.sc u).prio)))
  list_other : ∀ p, p ≠ (w.sc u).prio → (w'.cpu id).list p = (w.cpu id).list p
  list_keep : q (w.sc u).prio ≠ [] → (w.sc u).left = 0 →
    (w'.cpu id).list (w.sc u).prio = (w.cpu id).list (w.sc u).prio
  list_head : q (w.sc u).prio = [] ∨ (w.sc u).left ≠ 0 → (w'.cpu id).list (w.sc u).prio = u
  top : (w'.cpu id).prio_top = max (w.cpu id).prio_top (w.sc u).prio
  hazard : (w'.cpu id).hazard =
    if (w.sc u).prio > (w.sc (w.cpu id).current).prio ∨
        (u ≠ (w.cpu id).current ∧ (w.sc u).prio = (w.sc (w.cpu id).current).prio ∧
          (w.sc u).left ≠ 0)
    then (w.cpu id).hazard ||| HZD_SCHED cfg else (w.cpu id).hazard
  current : (w'.cpu id).current = (w.cpu id).current
  ctr_loop : (w'.cpu id).ctr_loop = (w.cpu id).ctr_loop
  rq_queue : (w'.cpu id).rq_queue = (w.cpu id).rq_queue
  timer : (w'.cpu id).timer = (w.cpu id).timer
  active : (w'.cpu id).active = (w.cpu id).active
  counter : (w'.cpu id).counter_schedule = (w.cpu id).counter_schedule
  cpu_other : ∀ j, j ≠ id → w'.cpu j = w.cpu j
  tsc_offset : w'.tsc_offset = w.tsc_offset
  ipi : w'.ipi = w.ipi
  left : (w'.sc u).left = if (w.sc u).left = 0 then (w.sc u).full else (w.sc u).left
  tsc : (w'.sc u).tsc = now
  heap_other : ∀ x, x ≠ u → x ∉ q (w.sc u).prio → w'.sc x = w.sc x
  owner_eq : ∀ x, (w'.sc x).owner = (w.sc x).owner
  cpu_eq : ∀ x, (w'.sc x).cpu = (w.sc x).cpu
  prio_eq : ∀ x, (w'.sc x).prio = (w.sc x).prio
  full_eq : ∀ x, (w'.sc x).full = (w.sc x).full
  left_other : ∀ x, x ≠ u → (w'.sc x).left = (w.sc x).left
  tsc_other : ∀ x, x ≠ u → (w'.sc x).tsc = (w.sc x).tsc

/-- What `ready_dequeue` of `u` on CPU `id` leaves behind, in terms of the world `w`
before the call, the queues `q` of the levels before the call and the world `w'`
after it. -/
structure DeqPost (cfg : Config) (id u now : Nat) (w : World) (q : Nat → List Nat)
    (w' : World) : Prop where
  rq : RqInv cfg id w' (upd q (w.sc u).prio ((q (w.sc u).prio).erase u))
  list_other : ∀ p, p ≠ (w.sc u).prio → (w'.cpu id).list p = (w.cpu id).list p
  list_head : (w.cpu id).list (w.sc u).prio = u →
    (w'.cpu id).list (w.sc u).prio = if (w.sc u).next = u then 0 else (w.sc u).next
  list_keep : (w.cpu id).list (w.sc u).prio ≠ u →
    (w'.cpu id).list (w.sc u).prio = (w.cpu id).list (w.sc u).prio
  top : (w'.cpu id).prio_top = scan_top (w'.cpu id).list (w.cpu id).prio_top
  hazard : (w'.cpu id).hazard = (w.cpu id).hazard
  current : (w'.cpu id).current = (w.cpu id).current
  ctr_loop : (w'.cpu id).ctr_loop = (w.cpu id).ctr_loop
  rq_queue : (w'.cpu id).rq_queue = (w.cpu id).rq_queue
  timer : (w'.cpu id).timer = (w.cpu id).timer
  active : (w'.cpu id).active = (w.cpu id).active
  counter : (w'.cpu id).counter_schedule = (w.cpu id).counter_schedule
  cpu_other : ∀ j, j ≠ id → w'.cpu j = w.cpu j
  tsc_offset : w'.tsc_offset =
    add_tsc_offset w.tsc_offset (w.sc u).owner (sub64 (w.sc u).tsc now)
  ipi : w'.ipi = w.ipi
  prev_null : (w'.sc u).prev = 0
  next_kept : (w'.sc u).next = (w.sc u).next
  next_ne : (w.sc u).next ≠ 0
  heap_other : ∀ x, x ≠ u → x ∉ q (w.sc u).prio → w'.sc x = w.sc x
  owner_eq : ∀ x, (w'.sc x).owner = (w.sc x).owner
  cpu_eq : ∀ x, (w'.sc x).cpu = (w.sc x).cpu
  prio_eq : ∀ x, (w'.sc x).prio = (w.sc x).prio
  full_eq : ∀ x, (w'.sc x).full = (w.sc x).full
  left_eq : ∀ x, (w'.sc x).left = (w.sc x).left
  tsc_eq : ∀ x, (w'.sc x).tsc = (w.sc x).tsc

/-! ## A concrete machine for the examples -/

/-- Eight priority levels, `HZD_SCHED` is bit 0, 64-bit `unsigned long`, 32-bit
hazard word. -/
def cfgX : Config := ⟨8, 0, 64, 32⟩

/-- The example heap: units 1 to 4 on CPU 0. Units 2 and 3 are linked in a ring
(priority 5, full quantum 10); unit 1 (priority 5) and unit 4 (priority 7, full
quantum 5) are not linked. -/
def scX : Nat → Sc := fun x =>
  if x = 2 then ⟨102, 0, 5, 10, 10, 5, 3, 3⟩
  else if x = 3 then ⟨103, 0, 5, 10, 10, 6, 2, 2⟩
  else if x = 4 then ⟨104, 0, 7, 5, 0, 0, 0, 0⟩
  else ⟨100 + x, 0, 5, 10, 0, 0, 0, 0⟩

/-- The CPU-local variables of a CPU with no ready unit and no current unit. -/
def cpuIdle : Cpu :=
  { list := fun _ => 0, prio_top := 0, current := 0, ctr_loop := 0, hazard := 0,
    rq_queue := 0, timer := 0, active := 0, counter_schedule := 0 }

/-- CPU 0 of the example: unit 1 is current, level 5 holds the ring of units 2
and 3, `prio_top` is 5. -/
def cpuX : Cpu :=
  { cpuIdle with list := fun p => if p = 5 then 2 else 0, prio_top := 5, current := 1 }

/-- The example machine. -/
def worldX : World :=
  { sc := scX, cpu := fun j => if j = 0 then cpuX else cpuIdle, tsc_offset := fun _ => 0,
    ipi := [] }

/-- The queues of CPU 0 in the example machine. -/
def qX : Nat → List Nat := fun p => if p = 5 then [2, 3] else []

/-! ## The queues of one CPU under the operations -/

/-- The queues after `ready_enqueue` of the unit `u` of priority `prio` that holds
`left` ticks. -/
def q_enq (q : Nat → List Nat) (prio left u : Nat) : Nat → List Nat :=
  upd q prio (insertUnit left u (q prio))

/-- The queues after `ready_dequeue` of the unit `u` of priority `prio`. -/
def q_deq (q : Nat → List Nat) (prio u : Nat) : Nat → List Nat :=
  upd q prio ((q prio).erase u)

/-- The queues from which `schedule` selects: the queues `q` before the call, with
the outgoing unit enqueued unless it suspends. `L` is the timer reading. -/
def sched_q1 (id : Nat) (suspend : Bool) (w : World) (q : Nat → List Nat) : Nat → List Nat :=
  if suspend then q
  else q_enq q (w.sc (w.cpu id).current).prio (get_timer (w.cpu id)) (w.cpu id).current

/-- The value of `prio_top` when `schedule` selects. -/
def sched_top1 (id : Nat) (suspend : Bool) (w : World) : Nat :=
  if suspend then (w.cpu id).prio_top
  else max (w.cpu id).prio_top (w.sc (w.cpu id).current).prio

/-- The unit that `schedule` selects: the first unit of the level `prio_top`. -/
def sched_sel (id : Nat) (suspend : Bool) (w : World) (q : Nat → List Nat) : Nat :=
  (sched_q1 id suspend w q (sched_top1 id suspend w)).head?.getD 0

/-- The queues after `schedule`. -/
def sched_q (id : Nat) (suspend : Bool) (w : World) (q : Nat → List Nat) : Nat → List Nat :=
  q_deq (sched_q1 id suspend w q) (sched_top1 id suspend w) (sched_sel id suspend w q)

/-- What `schedule` on CPU `id` leaves behind, in terms of the world `w` before the
call, the queues `q` before the call and the world `w'` after it. -/
structure SchedPost (cfg : Config) (id : Nat) (suspend : Bool) (now_enq now_deq : Nat)
    (w : World) (q : Nat → List Nat) (w' : World) : Prop where
  sel_mem : sched_sel id suspend w q ∈ sched_q1 id suspend w q (sched_top1 id suspend w)
  sel_prio : (w.sc (sched_sel id suspend w q)).prio = sched_top1 id suspend w
  bound1 : ∀ p, p < cfg.priorities → sched_top1 id suspend w < p →
    sched_q1 id suspend w q p = []
  current : (w'.cpu id).current = sched_sel id suspend w q
  rq : RqInv cfg id w' (sched_q id suspend w q)
  bound : TopBound cfg id w' (sched_q id suspend w q)
  tight : TopTight id w' (sched_q id suspend w q)
  timer : (w'.cpu id).timer = (w'.sc (sched_sel id suspend w q)).left % 2 ^ 32
  left_cur : (w'.sc (w.cpu id).current).left =
    if suspend = false ∧ get_timer (w.cpu id) = 0 then (w.sc (w.cpu id).current).full
    else get_timer (w.cpu id)
  left_other : ∀ x, x ≠ (w.cpu id).current → (w'.sc x).left = (w.sc x).left
  hazard : (w'.cpu id).hazard =
    (w.cpu id).hazard &&& (2 ^ cfg.hazard_bits - 1 - HZD_SCHED cfg)
  ctr_loop : (w'.cpu id).ctr_loop = 0
  rq_queue : (w'.cpu id).rq_queue = (w.cpu id).rq_queue
  active : (w'.cpu id).active = (w.sc (sched_sel id suspend w q)).owner
  counter : (w'.cpu id).counter_schedule = (w.cpu id).counter_schedule + 1
  cpu_other : ∀ j, j ≠ id → w'.cpu j = w.cpu j
  tsc_offset : w'.tsc_offset = add_tsc_offset w.tsc_offset
    (w.sc (sched_sel id suspend w q)).owner
    (sub64 (if suspend = false ∧ sched_sel id suspend w q = (w.cpu id).current then now_enq
      else (w.sc (sched_sel id suspend w q)).tsc) now_deq)
  ipi : w'.ipi = w.ipi
  prev_sel : (w'.sc (sched_sel id suspend w q)).prev = 0
  next_sel : (w'.sc (sched_sel id suspend w q)).next ≠ 0
  heap_other : ∀ x, x ≠ (w.cpu id).current → (∀ p, p < cfg.priorities → x ∉ q p) →
    w'.sc x = w.sc x
  links_cur : suspend = true → (∀ p, p < cfg.priorities → (w.cpu id).current ∉ q p) →
    (w'.sc (w.cpu id).current).prev = (w.sc (w.cpu id).current).prev ∧
    (w'.sc (w.cpu id).current).next = (w.sc (w.cpu id).current).next
  owner_eq : ∀ x, (w'.sc x).owner = (w.sc x).owner
  cpu_eq : ∀ x, (w'.sc x).cpu = (w.sc x).cpu
  prio_eq : ∀ x, (w'.sc x).prio = (w.sc x).prio
  full_eq : ∀ x, (w'.sc x).full = (w.sc x).full
  tsc_cur : suspend = false → (w'.sc (w.cpu id).current).tsc = now_enq
  tsc_other : ∀ x, (suspend = true ∨ x ≠ (w.cpu id).current) → (w'.sc x).tsc = (w.sc x).tsc

/-- The first statements of `schedule`: the world after the counter is incremented,
the timer reading is stored in `current->left` and `HZD_SCHED` is cleared. -/
def sched_begin (cfg : Config) (id : Nat) (w : World) : World :=
  let c0 := w.cpu id
  let c := { c0 with counter_schedule := c0.counter_schedule + 1 }
  let sc1 := setLeft w.sc c.current (get_timer c)
  let c1 := { c with hazard := c.hazard &&& (2 ^ cfg.hazard_bits - 1 - HZD_SCHED cfg) }
  { (w.setCpu id c1) with sc := sc1 }

/-- The last statements of `schedule`, from `Sc *sc = list[prio_top]` on. -/
def sched_select (cfg : Config) (id now_deq : Nat) (w2 : World) : Except Fault World :=
  let c2 := w2.cpu id
  let sc := c2.list c2.prio_top
  if sc = 0 then .error .assert_sc
  else
    let c3 := set_timer c2 ((w2.sc sc).left % 2 ^ 32)
    let c4 := { c3 with current := sc }
    ready_dequeue cfg id sc now_deq (w2.setCpu id c4) >>= fun w3 =>
      let c5 := w3.cpu id
      .ok (w3.setCpu id { c5 with ctr_loop := 0, active := (w3.sc sc).owner })

/-- What the last statements of `schedule` leave behind, in terms of the world `w`
and the queues `q` at the selection and the world `w'` at the end. -/
structure SelPost (cfg : Config) (id now_deq : Nat) (w : World) (q : Nat → List Nat)
    (sel : Nat) (w' : World) : Prop where
  sel_eq : sel = (q (w.cpu id).prio_top).head?.getD 0
  sel_mem : sel ∈ q (w.cpu id).prio_top
  current : (w'.cpu id).current = sel
  rq : RqInv cfg id w' (q_deq q (w.cpu id).prio_top sel)
  bound : TopBound cfg id w' (q_deq q (w.cpu id).prio_top sel)
  tight : TopTight id w' (q_deq q (w.cpu id).prio_top sel)
  timer : (w'.cpu id).timer = (w.sc sel).left % 2 ^ 32
  hazard : (w'.cpu id).hazard = (w.cpu id).hazard
  ctr_loop : (w'.cpu id).ctr_loop = 0
  rq_queue : (w'.cpu id).rq_queue = (w.cpu id).rq_queue
  active : (w'.cpu id).active = (w.sc sel).owner
  counter : (w'.cpu id).counter_schedule = (w.cpu id).counter_schedule
  cpu_other : ∀ j, j ≠ id → w'.cpu j = w.cpu j
  tsc_offset : w'.tsc_offset = add_tsc_offset w.tsc_offset (w.sc sel).owner
    (sub64 (w.sc sel).tsc now_deq)
  ipi : w'.ipi = w.ipi
  prev_sel : (w'.sc sel).prev = 0
  next_sel : (w'.sc sel).next ≠ 0
  heap_other : ∀ x, x ∉ q (w.cpu id).prio_top → w'.sc x = w.sc x
  owner_eq : ∀ x, (w'.sc x).owner = (w.sc x).owner
  cpu_eq : ∀ x, (w'.sc x).cpu = (w.sc x).cpu
  prio_eq : ∀ x, (w'.sc x).prio = (w.sc x).prio
  full_eq : ∀ x, (w'.sc x).full = (w.sc x).full
  left_eq : ∀ x, (w'.sc x).left = (w.sc x).left
  tsc_eq : ∀ x, (w'.sc x).tsc = (w.sc x).tsc

/-! ## The mailbox -/

/-- What `remote_enqueue` of `u` leaves behind when it runs on a CPU other than the
home CPU of `u`, in terms of the world `w` before the call, the units `m` in the
mailbox of the home CPU before the call and the world `w'` after it. -/
structure PushPost (u : Nat) (w : World) (m : List Nat) (w' : World) : Prop where
  ring : Ring w'.sc (w'.cpu (w.sc u).cpu).rq_queue (m ++ [u])
  ipi : w'.ipi = if m = [] then ((w.sc u).cpu, Vector.VEC_IPI_RRQ) :: w.ipi else w.ipi
  cpu_home : w'.cpu (w.sc u).cpu =
    { w.cpu (w.sc u).cpu with
      rq_queue := if m = [] then u else (w.cpu (w.sc u).cpu).rq_queue }
  cpu_other : ∀ j, j ≠ (w.sc u).cpu → w'.cpu j = w.cpu j
  tsc_offset : w'.tsc_offset = w.tsc_offset
  heap_other : ∀ x, x ≠ u → x ∉ m → w'.sc x = w.sc x
  owner_eq : ∀ x, (w'.sc x).owner = (w.sc x).owner
  cpu_eq : ∀ x, (w'.sc x).cpu = (w.sc x).cpu
  prio_eq : ∀ x, (w'.sc x).prio = (w.sc x).prio
  full_eq : ∀ x, (w'.sc x).full = (w.sc x).full
  left_eq : ∀ x, (w'.sc x).left = (w.sc x).left
  tsc_eq : ∀ x, (w'.sc x).tsc = (w.sc x).tsc

/-- The queues after the units of `r` were enqueued one after the other; priority
and remaining quantum of a unit are read in the heap `sc`. -/
def q_drain (sc : Nat → Sc) (q : Nat → List Nat) : List Nat → Nat → List Nat
  | [] => q
  | u :: r => q_drain sc (q_enq q (sc u).prio (sc u).left u) r

/-- What the loop of `rrq_handler` leaves behind when it starts at the head of the
ring with the units `r`, in terms of the world `w` and the queues `q` before the
loop and the world `w'` after it. -/
structure DrainPost (cfg : Config) (id : Nat) (w : World) (q : Nat → List Nat)
    (r : List Nat) (w' : World) : Prop where
  rq : RqInv cfg id w' (q_drain w.sc q r)
  bound : TopBound cfg id w q → TopBound cfg id w' (q_drain w.sc q r)
  tight : TopTight id w q → TopTight id w' (q_drain w.sc q r)
  current : (w'.cpu id).current = (w.cpu id).current
  ctr_loop : (w'.cpu id).ctr_loop = (w.cpu id).ctr_loop
  rq_queue : (w'.cpu id).rq_queue = (w.cpu id).rq_queue
  timer : (w'.cpu id).timer = (w.cpu id).timer
  active : (w'.cpu id).active = (w.cpu id).active
  counter : (w'.cpu id).counter_schedule = (w.cpu id).counter_schedule
  cpu_other : ∀ j, j ≠ id → w'.cpu j = w.cpu j
  tsc_offset : w'.tsc_offset = w.tsc_offset
  ipi : w'.ipi = w.ipi
  heap_other : ∀ x, x ∉ r → (∀ p, p < cfg.priorities → x ∉ q p) → w'.sc x = w.sc x
  owner_eq : ∀ x, (w'.sc x).owner = (w.sc x).owner
  cpu_eq : ∀ x, (w'.sc x).cpu = (w.sc x).cpu
  prio_eq : ∀ x, (w'.sc x).prio = (w.sc x).prio
  full_eq : ∀ x, (w'.sc x).full = (w.sc x).full
  left : ∀ x, x ∈ r →
    (w'.sc x).left = if (w.sc x).left = 0 then (w.sc x).full else (w.sc x).left
  left_other : ∀ x, x ∉ r → (w'.sc x).left = (w.sc x).left
  tsc_other : ∀ x, x ∉ r → (w'.sc x).tsc = (w.sc x).tsc

/-- A sequence of pushes: `remote_enqueue` for each entry `(id, u, now)` in turn,
where `id` is the CPU that pushes, `u` the unit and `now` its time stamp reading.
The lock of the mailbox serialises the pushes. -/
def push_all (cfg : Config) : List (Nat × Nat × Nat) → World → Except Fault World
  | [], w => .ok w
  | p :: r, w => remote_enqueue cfg p.1 p.2.1 p.2.2 w >>= push_all cfg r

/-- The world after the two unlink assignments that the loop of `rrq_handler` makes
for the unit `ptr`. -/
def rrq_unlink (w : World) (ptr : Nat) : World :=
  { w with sc := setNext (setPrev w.sc (w.sc ptr).next (w.sc ptr).prev) (w.sc ptr).prev (w.sc ptr).next }

/-- The value of `ptr` after `ptr = ptr->next == ptr ? 0 : ptr->next`. -/
def rrq_next (w : World) (ptr : Nat) : Nat :=
  if (w.sc ptr).next = ptr then 0 else (w.sc ptr).next

/-! ## The machine as a whole -/

/-- The operations that change the state of the machine: the entry points of
`sc.cpp`, each with the CPU `id` on which it runs and the hardware readings it
takes, and the countdown of the timer of a CPU to the value `v`. -/
inductive Op where
  | enqueue (id u now : Nat)
  | dequeue (id u now : Nat)
  | sched (id : Nat) (suspend : Bool) (now_enq now_deq : Nat)
  | remote (id u now : Nat)
  | rrq (id fuel : Nat) (nows : Nat → Nat)
  | rke (id : Nat) (stale : Bool)
  | tick (id v : Nat)

/-- One operation on the machine. -/
def exec (cfg : Config) : Op → World → Except Fault World
  | .enqueue id u now, w => ready_enqueue cfg id u now w
  | .dequeue id u now, w => ready_dequeue cfg id u now w
  | .sched id suspend now_enq now_deq, w => schedule cfg id suspend now_enq now_deq w
  | .remote id u now, w => remote_enqueue cfg id u now w
  | .rrq id fuel nows, w => rrq_handler cfg id fuel nows w
  | .rke id stale, w => .ok (rke_handler cfg id stale w)
  | .tick id v, w => .ok (w.setCpu id (set_timer (w.cpu id) v))

/-- The ready queues of all CPUs (by CPU and level) and the mailboxes of all CPUs. -/
structure Queues where
  q : Nat → Nat → List Nat
  m : Nat → List Nat

/-- The unit `u` is queued: it is in a ready list or in a mailbox. -/
def Queued (cfg : Config) (a : Queues) (u : Nat) : Prop :=
  (∃ id p, p < cfg.priorities ∧ u ∈ a.q id p) ∨ ∃ id, u ∈ a.m id

/-- The preconditions of an operation that the code does not assert: a unit
handed to `ready_enqueue` or `remote_enqueue` is not linked (its `prev` is null), a
unit handed to `ready_dequeue` is in the ready list of its level. -/
def Legal (w : World) (a : Queues) : Op → Prop
  | .enqueue _ u _ => (w.sc u).prev = 0
  | .remote _ u _ => (w.sc u).prev = 0
  | .dequeue id u _ => u ∈ a.q id (w.sc u).prio
  | _ => True

/-- The queues after an operation that returned. -/
def Queues.after (a : Queues) (w : World) : Op → Queues
  | .enqueue id u _ =>
    { a with q := upd a.q id (q_enq (a.q id) (w.sc u).prio (w.sc u).left u) }
  | .dequeue id u _ => { a with q := upd a.q id (q_deq (a.q id) (w.sc u).prio u) }
  | .sched id suspend _ _ => { a with q := upd a.q id (sched_q id suspend w (a.q id)) }
  | .remote id u _ =>
    if id = (w.sc u).cpu then
      { a with q := upd a.q id (q_enq (a.q id) (w.sc u).prio (w.sc u).left u) }
    else { a with m := upd a.m (w.sc u).cpu (a.m (w.sc u).cpu ++ [u]) }
  | .rrq id _ _ => { q := upd a.q id (q_drain w.sc (a.q id) (a.m id)), m := upd a.m id [] }
  | .rke _ _ => a
  | .tick _ _ => a

/-- The invariant of the machine: on every CPU the run-queue invariant holds with
`prio_top` the highest occupied level, the mailbox is a ring of units whose home
is that CPU and that are in no ready list, and the `prev` link of a unit is null
exactly when the unit is not queued. -/
structure GInv (cfg : Config) (w : World) (a : Queues) : Prop where
  rq : ∀ id, RqInv cfg id w (a.q id)
  bound : ∀ id, TopBound cfg id w (a.q id)
  tight : ∀ id, TopTight id w (a.q id)
  mbox : ∀ id, Ring w.sc (w.cpu id).rq_queue (a.m id)
  mbox_cpu : ∀ id, ∀ x ∈ a.m id, (w.sc x).cpu = id
  disj : ∀ id, ∀ x ∈ a.m id, ∀ p, p < cfg.priorities → x ∉ a.q id p
  links : ∀ u, u ≠ 0 → ((w.sc u).prev = 0 ↔ ¬ Queued cfg a u)

/-- The states that the machine reaches from `(w0, a0)` by operations that meet
their preconditions and return, as long as every state reached satisfies `I`. -/
inductive Reach (cfg : Config) (I : World → Queues → Prop) (w0 : World) (a0 : Queues) :
    World → Queues → Prop where
  | start : Reach cfg I w0 a0 w0 a0
  | step {w w' : World} {a : Queues} (op : Op) : Reach cfg I w0 a0 w a → Legal w a op →
      exec cfg op w = .ok w' → I w' (a.after w op) → Reach cfg I w0 a0 w' (a.after w op)

/-- The queues of the example machine: CPU 0 holds units 2 and 3 at level 5, all
other ready lists and all mailboxes are empty. -/
def queuesX : Queues :=
  { q := fun id => if id = 0 then qX else fun _ => [], m := fun _ => [] }

/-- The example machine with the timer of CPU 0 reading 7. -/
def worldT : World := worldX.setCpu 0 (set_timer cpuX 7)

/-- In the list `l` the unit `u` stands before the unit `v`. -/
def Before (u v : Nat) (l : List Nat) : Prop :=
  ∃ x y z, l = x ++ u :: (y ++ v :: z)

/-! ## Round robin -/

/-- The timer of CPU `id` has counted down to 0. -/
def timer_expired (id : Nat) (w : World) : World :=
  w.setCpu id (set_timer (w.cpu id) 0)

/-- `n` invocations of `schedule(false)` on CPU `id`, each with the timer reading 0
and nothing else in between; the result lists, for every invocation, the unit it
selected and the `left` of that unit at the end of the invocation. The `k`-th
invocation reads the time stamps `nows k`. -/
def rr_run (cfg : Config) (id : Nat) :
    Nat → (Nat → Nat × Nat) → World → Except Fault (List (Nat × Nat) × World)
  | 0, _, w => .ok ([], w)
  | n + 1, nows, w =>
    schedule cfg id false (nows 0).1 (nows 0).2 (timer_expired id w) >>= fun w1 =>
      rr_run cfg id n (fun k => nows (k + 1)) w1 >>= fun r =>
        .ok (((w1.cpu id).current, (w1.sc (w1.cpu id).current).left) :: r.1, r.2)

/-- The state in which the round robin starts: the run-queue invariant holds with
`prio_top` the highest occupied level, the current unit is valid and unlinked, no
unit is ready above its level, and the units ready at its level are valid. -/
structure RrInv (cfg : Config) (id : Nat) (w : World) (q : Nat → List Nat) : Prop where
  rq : RqInv cfg id w q
  bound : TopBound cfg id w q
  tight : TopTight id w q
  valid : ValidUnit cfg id w (w.cpu id).current
  unlinked : (w.sc (w.cpu id).current).prev = 0
  above : ∀ p, p < cfg.priorities → (w.sc (w.cpu id).current).prio < p → q p = []
  level : ∀ x ∈ q (w.sc (w.cpu id).current).prio, x ≠ 2 ^ cfg.long_bits - 1

/-- The example machine with `left = 3` for the queued unit 2, whose full quantum
is 10. -/
def worldR : World := { worldX with sc := setLeft worldX.sc 2 3 }

/-! ## More machines for the examples -/

/-- The heap of the two-CPU example: besides the units of `scX` on CPU 0 it holds
three units with home CPU 1: unit 7 (priority 0, the unit that runs on CPU 1),
unit 8 (priority 3, full quantum 10, 3 ticks left) and unit 9 (priority 3, full
quantum 10, quantum exhausted). None of them is linked. -/
def scW : Nat → Sc := fun x =>
  if x = 7 then ⟨107, 1, 0, 10, 10, 0, 0, 0⟩
  else if x = 8 then ⟨108, 1, 3, 10, 3, 0, 0, 0⟩
  else if x = 9 then ⟨109, 1, 3, 10, 0, 0, 0, 0⟩
  else scX x

/-- The two-CPU example machine: CPU 0 as in `worldX`, CPU 1 runs unit 7 and has
empty ready lists and an empty mailbox. -/
def worldW : World :=
  { sc := scW,
    cpu := fun j => if j = 0 then cpuX else if j = 1 then { cpuIdle with current := 7 }
      else cpuIdle,
    tsc_offset := fun _ => 0, ipi := [] }

/-- The example machine with the linked unit 2 as the current unit of CPU 0. -/
def worldD : World := worldX.setCpu 0 { cpuX with current := 2 }

/-- The example machine with units 6 and 7 (priority 5, quantum exhausted) in the
mailbox of CPU 0, pushed in this order. -/
def worldM : World :=
  { worldX with
    sc := fun x =>
      if x = 6 then { scX 6 with prev := 7, next := 7 }
      else if x = 7 then { scX 7 with prev := 6, next := 6 }
      else scX x,
    cpu := fun j => if j = 0 then { cpuX with rq_queue := 6 } else cpuIdle }

/-- The example machine after `ready_enqueue` of unit 4 (priority 7) on CPU 0, read
at time stamp 77. -/
def worldE : World :=
  match ready_enqueue cfgX 0 4 77 worldX with
  | .ok w => w
  | .error _ => worldX

/-- The machine `worldE` after `schedule(false)` on CPU 0, with the time stamps 60
and 61. -/
def worldF : World :=
  match schedule cfgX 0 false 60 61 worldE with
  | .ok w => w
  | .error _ => worldE

/-! ## Strict priorities -/

/-- The timer of CPU `id` reads `L`. -/
def timer_reads (id L : Nat) (w : World) : World :=
  w.setCpu id (set_timer (w.cpu id) L)

/-- The unit that invocation number `k` (from 0) of a round robin selects when the
units of the level stand in the cycle `l`, the next one to run first. -/
def rr_nth (l : List Nat) (k : Nat) : Nat := (l.rotate k).head?.getD 0

/-- The state of CPU `id` in which all units of the scenario are ready: the
run-queue invariant holds with `prio_top` the highest occupied level; the current
unit is valid, unlinked and of a priority below `P`; the unit `H`, of a priority
above `P`, is alone in the list of its level and holds its full quantum; the level
`P` is occupied by units that hold their full quantum; no other level above `P` is
occupied. -/
structure AllReady (cfg : Config) (id : Nat) (w : World) (q : Nat → List Nat) (H P : Nat) :
    Prop where
  rq : RqInv cfg id w q
  bound : TopBound cfg id w q
  tight : TopTight id w q
  valid : ValidUnit cfg id w (w.cpu id).current
  unlinked : (w.sc (w.cpu id).current).prev = 0
  low : (w.sc (w.cpu id).current).prio < P
  hi : P < (w.sc H).prio
  top : q (w.sc H).prio = [H]
  hi_lt : (w.sc H).prio < cfg.priorities
  hi_ok : H ≠ 2 ^ cfg.long_bits - 1
  hi_fresh : (w.sc H).left = (w.sc H).full
  ne : q P ≠ []
  above : ∀ p, p < cfg.priorities → P < p → p ≠ (w.sc H).prio → q p = []
  level : ∀ x ∈ q P, x ≠ 2 ^ cfg.long_bits - 1
  fresh : ∀ x ∈ q P, (w.sc x).left = (w.sc x).full

/-- The state of CPU `id` in which a unit runs above the ready level `P`: the
round-robin invariant holds, the current unit is alone at its level, which lies
above `P`; the level `P` is occupied by units that hold their full quantum, and no
level above `P` is occupied. -/
structure HighRun (cfg : Config) (id : Nat) (w : World) (q : Nat → List Nat) (P : Nat) :
    Prop where
  rr : RrInv cfg id w q
  sole : q (w.sc (w.cpu id).current).prio = []
  hi : P < (w.sc (w.cpu id).current).prio
  ne : q P ≠ []
  above : ∀ p, p < cfg.priorities → P < p → q p = []
  level : ∀ x ∈ q P, x ≠ 2 ^ cfg.long_bits - 1
  fresh : ∀ x ∈ q P, (w.sc x).left = (w.sc x).full

/-- The heap of the mixed-priority scenario: units 1, 2 and 3 (priority 5, quantum
10 ticks, all of it left) form one ring, unit 4 (priority 7, quantum 5 ticks, all
of it left) is a ring of its own; every other unit has priority 0 and is not
linked. -/
def scS : Nat → Sc := fun x =>
  if x = 1 then ⟨101, 0, 5, 10, 10, 0, 3, 2⟩
  else if x = 2 then ⟨102, 0, 5, 10, 10, 0, 1, 3⟩
  else if x = 3 then ⟨103, 0, 5, 10, 10, 0, 2, 1⟩
  else if x = 4 then ⟨104, 0, 7, 5, 5, 0, 4, 4⟩
  else ⟨100 + x, 0, 0, 10, 0, 0, 0, 0⟩

/-- The mixed-priority scenario: on CPU 0 the units 1, 2, 3 are ready at level 5
and unit 4 at level 7, while unit 5 (priority 0) is current. -/
def worldS : World :=
  { sc := scS,
    cpu := fun j => if j = 0 then
        { cpuIdle with list := fun p => if p = 5 then 1 else if p = 7 then 4 else 0,
                       prio_top := 7, current := 5 }
      else cpuIdle,
    tsc_offset := fun _ => 0, ipi := [] }

/-- The queues of CPU 0 in the mixed-priority scenario. -/
def qS : Nat → List Nat := fun p => if p = 5 then [1, 2, 3] else if p = 7 then [4] else []

/-! ## The drain of the mailbox, with a log -/

/-- The loop of `Sc::rrq_handler` with a log: it runs as `rrq_loop` does, and the
result also lists the units for which it called `ready_enqueue`, in the order of the
calls, one entry per iteration. -/
def rrq_loop_log (cfg : Config) (id : Nat) :
    Nat → Nat → (Nat → Nat) → World → Except Fault (List Nat × World)
  | 0, ptr, _, w => if ptr = 0 then .ok ([], w) else .error .fuel
  | fuel + 1, ptr, nows, w =>
    if ptr = 0 then .ok ([], w)
    else if (w.sc ptr).next = 0 then .error .null_deref
    else
      let sc1 := setPrev w.sc (w.sc ptr).next (w.sc ptr).prev
      if (sc1 ptr).prev = 0 then .error .null_deref
      else
        let sc2 := setNext sc1 (sc1 ptr).prev (sc1 ptr).next
        let ptr1 := if (sc2 ptr).next = ptr then 0 else (sc2 ptr).next
        ready_enqueue cfg id ptr (nows 0) { w with sc := sc2 } >>= fun w1 =>
          rrq_loop_log cfg id fuel ptr1 (fun k => nows (k + 1)) w1 >>= fun r =>
            .ok (ptr :: r.1, r.2)

/-! ## The reschedule flag and priority inversion -/

/-- A unit in the ready lists of CPU `id` has a priority above that of the current
unit of the CPU. -/
def Inversion (cfg : Config) (id : Nat) (w : World) (a : Queues) : Prop :=
  ∃ p, p < cfg.priorities ∧ ∃ x ∈ a.q id p, (w.sc (w.cpu id).current).prio < (w.sc x).prio

/-- The bit `HZD_SCHED` of the hazard word of CPU `id` is set whenever a unit in the
ready lists of the CPU has a priority above that of the current unit. -/
def HazInv (cfg : Config) (id : Nat) (w : World) (a : Queues) : Prop :=
  Inversion cfg id w a → (w.cpu id).hazard.testBit cfg.hzd_sched_bit = true

instance (cfg : Config) (id : Nat) (w : World) (a : Queues) :
    Decidable (Inversion cfg id w a) := by
  unfold Inversion; infer_instance

instance (cfg : Config) (id : Nat) (w : World) (a : Queues) :
    Decidable (HazInv cfg id w a) := by
  unfold HazInv; infer_instance

/-! ## The cached highest level -/

/-- `prio_top` of CPU `id` is the highest occupied level: the list of every level
above `prio_top` is empty (its head pointer is null), and the list at `prio_top` is
not empty unless `prio_top` is 0. -/
def TopPtr (cfg : Config) (id : Nat) (w : World) : Prop :=
  (∀ p, p < cfg.priorities → (w.cpu id).prio_top < p → (w.cpu id).list p = 0) ∧
    ((w.cpu id).list (w.cpu id).prio_top ≠ 0 ∨ (w.cpu id).prio_top = 0)

instance (cfg : Config) (id : Nat) (w : World) : Decidable (TopPtr cfg id w) := by
  unfold TopPtr; infer_instance

/-- The states that the machine reaches from `w0` through calls of `ready_enqueue`
and `ready_dequeue` that return, on any CPU and for any unit. -/
inductive ReachRq (cfg : Config) (w0 : World) : World → Prop where
  | start : ReachRq cfg w0 w0
  | enqueue {w w' : World} (id u now : Nat) : ReachRq cfg w0 w →
      ready_enqueue cfg id u now w = .ok w' → ReachRq cfg w0 w'
  | dequeue {w w' : World} (id u now : Nat) : ReachRq cfg w0 w →
      ready_dequeue cfg id u now w = .ok w' → ReachRq cfg w0 w'

/-! ## ACPI register access (`src/acpi.cpp`) -/

/-- The fields of `Acpi_gas` (a generic address structure) that `hw_read` and
`hw_write` use: the address space `asid` (8 bits), the register width `bits` (8
bits) and the address `addr` (64 bits). The structure is declared in a header
outside the source files. -/
structure Acpi_gas where
  asid : Nat
  bits : Nat
  addr : Nat
  deriving DecidableEq, Repr

/-- One access to an I/O port: `Io::in<T>` or `Io::out` with a value of type `T`,
where `width` is the number of bits of `T`. -/
inductive PortOp where
  | inp (width port : Nat)
  | out (width port val : Nat)
  deriving DecidableEq, Repr

/-- How a register access halts the machine: `panic ("Unimplemented ASID %u\n",
gas->asid)`. -/
inductive Halt where
  | panic (asid : Nat)
  deriving DecidableEq, Repr

/-- `Acpi::hw_read`. `asid_io` is the enumerator `Acpi_gas::IO`, declared in a header
outside the source files; `port_in width port` is what `Io::in` reads at the port.
The result is the value returned and the port accesses made. -/
def Acpi.hw_read (asid_io : Nat) (port_in : Nat → Nat → Nat) (gas : Acpi_gas) :
    Except Halt (Nat × List PortOp) :=
  -- if (!gas->bits) return 0;     (register not implemented)
  if gas.bits = 0 then .ok (0, [])
  else if gas.asid = asid_io then
    match gas.bits with
    | 8 => .ok (port_in 8 (gas.addr % 2 ^ 32) % 2 ^ 8, [.inp 8 (gas.addr % 2 ^ 32)])
    | 16 => .ok (port_in 16 (gas.addr % 2 ^ 32) % 2 ^ 16, [.inp 16 (gas.addr % 2 ^ 32)])
    | 32 => .ok (port_in 32 (gas.addr % 2 ^ 32) % 2 ^ 32, [.inp 32 (gas.addr % 2 ^ 32)])
    | _ => .error (.panic gas.asid)
  else .error (.panic gas.asid)

/-- `Acpi::hw_write`. The result is the list of port accesses made. -/
def Acpi.hw_write (asid_io : Nat) (gas : Acpi_gas) (val : Nat) : Except Halt (List PortOp) :=
  -- if (!gas->bits) return;     (register not implemented)
  if gas.bits = 0 then .ok []
  else if gas.asid = asid_io then
    match gas.bits with
    | 8 => .ok [.out 8 (gas.addr % 2 ^ 32) (val % 2 ^ 8)]
    | 16 => .ok [.out 16 (gas.addr % 2 ^ 32) (val % 2 ^ 16)]
    | 32 => .ok [.out 32 (gas.addr % 2 ^ 32) (val % 2 ^ 32)]
    | _ => .error (.panic gas.asid)
  else .error (.panic gas.asid)

/-- A supported register descriptor: address space I/O and a width of 8, 16 or 32
bits. -/
def Acpi.supported (asid_io : Nat) (gas : Acpi_gas) : Prop :=
  gas.asid = asid_io ∧ (gas.bits = 8 ∨ gas.bits = 16 ∨ gas.bits = 32)

instance (asid_io : Nat) (gas : Acpi_gas) : Decidable (Acpi.supported asid_io gas) := by
  unfold Acpi.supported; infer_instance

/-! ## Rings, in terms of the links -/

/-- The unit reached from `x` by `k` steps along the `next` links. -/
def walk (sc : Nat → Sc) : Nat → Nat → Nat
  | 0, x => x
  | k + 1, x => (sc (walk sc k x)).next

/-- The level `p` of CPU `id` is a well-formed circular doubly-linked ring with the
members `l`: the head pointer is null exactly when there is no member, and for
every member `x` the unit after it and the unit before it are members,
`x.next.prev` and `x.prev.next` are `x`, `x` is reached from the head along the
`next` links, and the priority of `x` is the level index. -/
def WellFormed (w : World) (id p : Nat) (l : List Nat) : Prop :=
  ((w.cpu id).list p = 0 ↔ l = []) ∧
    ∀ x ∈ l, (w.sc x).next ∈ l ∧ (w.sc x).prev ∈ l ∧
      (w.sc (w.sc x).next).prev = x ∧ (w.sc (w.sc x).prev).next = x ∧
      (∃ k, k < l.length ∧ walk w.sc k ((w.cpu id).list p) = x) ∧ (w.sc x).prio = p

/-! ## Reading the heap after an assignment -/

@[simp] theorem upd_same {α : Type} (f : Nat → α) (a : Nat) (v : α) : upd f a v a = v := by
  simp [upd]

@[simp] theorem upd_other {α : Type} (f : Nat → α) (a : Nat) (v : α) (x : Nat) (h : x ≠ a) :
    upd f a v x = f x := by
  simp [upd, h]

theorem upd_apply {α : Type} (f : Nat → α) (a : Nat) (v : α) (x : Nat) :
    upd f a v x = if x = a then v else f x := rfl

@[simp] theorem setPrev_owner (sc : Nat → Sc) (p v x : Nat) :
    (setPrev sc p v x).owner = (sc x).owner := by
  unfold setPrev upd; split <;> simp_all

@[simp] theorem setPrev_cpu (sc : Nat → Sc) (p v x : Nat) :
    (setPrev sc p v x).cpu = (sc x).cpu := by
  unfold setPrev upd; split <;> simp_all

@[simp] theorem setPrev_prio (sc : Nat → Sc) (p v x : Nat) :
    (setPrev sc p v x).prio = (sc x).prio := by
  unfold setPrev upd; split <;> simp_all

@[simp] theorem setPrev_full (sc : Nat → Sc) (p v x : Nat) :
    (setPrev sc p v x).full = (sc x).full := by
  unfold setPrev upd; split <;> simp_all

@[simp] theorem setPrev_left (sc : Nat → Sc) (p v x : Nat) :
    (setPrev sc p v x).left = (sc x).left := by
  unfold setPrev upd; split <;> simp_all

@[simp] theorem setPrev_tsc (sc : Nat → Sc) (p v x : Nat) :
    (setPrev sc p v x).tsc = (sc x).tsc := by
  unfold setPrev upd; split <;> simp_all

@[simp] theorem setPrev_prev (sc : Nat → Sc) (p v x : Nat) :
    (setPrev sc p v x).prev = if x = p then v else (sc x).prev := by
  unfold setPrev upd; split <;> rfl

@[simp] theorem setPrev_next (sc : Nat → Sc) (p v x : Nat) :
    (setPrev sc p v x).next = (sc x).next := by
  unfold setPrev upd; split <;> simp_all

@[simp] theorem setNext_owner (sc : Nat → Sc) (p v x : Nat) :
    (setNext sc p v x).owner = (sc x).owner := by
  unfold setNext upd; split <;> simp_all

@[simp] theorem setNext_cpu (sc : Nat → Sc) (p v x : Nat) :
    (setNext sc p v x).cpu = (sc x).cpu := by
  unfold setNext upd; split <;> simp_all

@[simp] theorem setNext_prio (sc : Nat → Sc) (p v x : Nat) :
    (setNext sc p v x).prio = (sc x).prio := by
  unfold setNext upd; split <;> simp_all

@[simp] theorem setNext_full (sc : Nat → Sc) (p v x : Nat) :
    (setNext sc p v x).full = (sc x).full := by
  unfold setNext upd; split <;> simp_all

@[simp] theorem setNext_left (sc : Nat → Sc) (p v x : Nat) :
    (setNext sc p v x).left = (sc x).left := by
  unfold setNext upd; split <;> simp_all

@[simp] theorem setNext_tsc (sc : Nat → Sc) (p v x : Nat) :
    (setNext sc p v x).tsc = (sc x).tsc := by
  unfold setNext upd; split <;> simp_all

@[simp] theorem setNext_prev (sc : Nat → Sc) (p v x : Nat) :
    (setNext sc p v x).prev = (sc x).prev := by
  unfold setNext upd; split <;> simp_all

@[simp] theorem setNext_next (sc : Nat → Sc) (p v x : Nat) :
    (setNext sc p v x).next = if x = p then v else (sc x).next := by
  unfold setNext upd; split <;> rfl

@[simp] theorem setLeft_owner (sc : Nat → Sc) (p v x : Nat) :
    (setLeft sc p v x).owner = (sc x).owner := by
  unfold setLeft upd; split <;> simp_all

@[simp] theorem setLeft_cpu (sc : Nat → Sc) (p v x : Nat) :
    (setLeft sc p v x).cpu = (sc x).cpu := by
  unfold setLeft upd; split <;> simp_all

@[simp] theorem setLeft_prio (sc : Nat → Sc) (p v x : Nat) :
    (setLeft sc p v x).prio = (sc x).prio := by
  unfold setLeft upd; split <;> simp_all

@[simp] theorem setLeft_full (sc : Nat → Sc) (p v x : Nat) :
    (setLeft sc p v x).full = (sc x).full := by
  unfold setLeft upd; split <;> simp_all

@[simp] theorem setLeft_left (sc : Nat → Sc) (p v x : Nat) :
    (setLeft sc p v x).left = if x = p then v else (sc x).left := by
  unfold setLeft upd; split <;> rfl

@[simp] theorem setLeft_tsc (sc : Nat → Sc) (p v x : Nat) :
    (setLeft sc p v x).tsc = (sc x).tsc := by
  unfold setLeft upd; split <;> simp_all

@[simp] theorem setLeft_prev (sc : Nat → Sc) (p v x : Nat) :
    (setLeft sc p v x).prev = (sc x).prev := by
  unfold setLeft upd; split <;> simp_all

@[simp] theorem setLeft_next (sc : Nat → Sc) (p v x : Nat) :
    (setLeft sc p v x).next = (sc x).next := by
  unfold setLeft upd; split <;> simp_all

@[simp] theorem setTsc_owner (sc : Nat → Sc) (p v x : Nat) :
    (setTsc sc p v x).owner = (sc x).owner := by
  unfold setTsc upd; split <;> simp_all

@[simp] theorem setTsc_cpu (sc : Nat → Sc) (p v x : Nat) :
    (setTsc sc p v x).cpu = (sc x).cpu := by
  unfold setTsc upd; split <;> simp_all

@[simp] theorem setTsc_prio (sc : Nat → Sc) (p v x : Nat) :
    (setTsc sc p v x).prio = (sc x).prio := by
  unfold setTsc upd; split <;> simp_all

@[simp] theorem setTsc_full (sc : Nat → Sc) (p v x : Nat) :
    (setTsc sc p v x).full = (sc x).full := by
  unfold setTsc upd; split <;> simp_all

@[simp] theorem setTsc_left (sc : Nat → Sc) (p v x : Nat) :
    (setTsc sc p v x).left = (sc x).left := by
  unfold setTsc upd; split <;> simp_all

@[simp] theorem setTsc_tsc (sc : Nat → Sc) (p v x : Nat) :
    (setTsc sc p v x).tsc = if x = p then v else (sc x).tsc := by
  unfold setTsc upd; split <;> rfl

@[simp] theorem setTsc_prev (sc : Nat → Sc) (p v x : Nat) :
    (setTsc sc p v x).prev = (sc x).prev := by
  unfold setTsc upd; split <;> simp_all

@[simp] theorem setTsc_next (sc : Nat → Sc) (p v x : Nat) :
    (setTsc sc p v x).next = (sc x).next := by
  unfold setTsc upd; split <;> simp_all

@[simp] theorem setCpu_sc (w : World) (id : Nat) (c : Cpu) : (w.setCpu id c).sc = w.sc := rfl

@[simp] theorem setCpu_tsc_offset (w : World) (id : Nat) (c : Cpu) :
    (w.setCpu id c).tsc_offset = w.tsc_offset := rfl

@[simp] theorem setCpu_ipi (w : World) (id : Nat) (c : Cpu) : (w.setCpu id c).ipi = w.ipi := rfl

@[simp] theorem setCpu_cpu_same (w : World) (id : Nat) (c : Cpu) : (w.setCpu id c).cpu id = c := by
  simp [World.setCpu]

@[simp] theorem setCpu_cpu_other (w : World) (id : Nat) (c : Cpu) (j : Nat) (h : j ≠ id) :
    (w.setCpu id c).cpu j = w.cpu j := by
  simp [World.setCpu, h]

/-! ## Rings in the heap -/

theorem Cyc.nil (sc : Nat → Sc) : Cyc sc [] := by
  simp [Cyc]

theorem Cyc.frame {sc sc' : Nat → Sc} {l : List Nat} (hc : Cyc sc l)
    (h : ∀ x ∈ l, (sc' x).next = (sc x).next ∧ (sc' x).prev = (sc x).prev) : Cyc sc' l := by
  obtain ⟨hnd, h0, hn, hp⟩ := hc
  refine ⟨hnd, h0, ?_, ?_⟩
  · rw [← hn]
    exact List.map_congr_left fun x hx => (h x hx).1
  · refine Eq.trans (List.map_congr_left fun x hx => ?_) hp
    exact (h x (List.mem_rotate.mp hx)).2

theorem Cyc.rotate {sc : Nat → Sc} {l : List Nat} (hc : Cyc sc l) (k : Nat) :
    Cyc sc (l.rotate k) := by
  obtain ⟨hnd, h0, hn, hp⟩ := hc
  refine ⟨List.nodup_rotate.mpr hnd, by simpa [List.mem_rotate] using h0, ?_, ?_⟩
  · rw [List.map_rotate, hn, List.rotate_rotate, List.rotate_rotate, Nat.add_comm]
  · rw [List.rotate_rotate, Nat.add_comm, ← List.rotate_rotate, List.map_rotate, hp]

theorem Cyc.singleton {sc : Nat → Sc} {u : Nat} (hu : u ≠ 0) (hn : (sc u).next = u)
    (hp : (sc u).prev = u) : Cyc sc [u] := by
  simp [Cyc, hn, hp, Ne.symm hu]

theorem Cyc.cons_iff (sc : Nat → Sc) (h : Nat) (t : List Nat) :
    Cyc sc (h :: t) ↔ (h :: t).Nodup ∧ 0 ∉ h :: t ∧
      (h :: t).map (fun x => (sc x).next) = t ++ [h] ∧
      (t ++ [h]).map (fun x => (sc x).prev) = h :: t := by
  simp [Cyc, List.rotate_cons_succ]

theorem Cyc.links {sc : Nat → Sc} {h z : Nat} {t init : List Nat}
    (hc : Cyc sc (h :: t)) (hl : h :: t = init ++ [z]) :
    (sc h).prev = z ∧ (sc z).next = h ∧ init.map (fun x => (sc x).next) = t ∧
      t.map (fun x => (sc x).prev) = init := by
  obtain ⟨-, -, hn, hp⟩ := (Cyc.cons_iff sc h t).mp hc
  rw [hl, List.map_append] at hn
  rw [hl, List.map_append] at hp
  have h1 := List.append_inj' hn (by simp)
  have h2 := List.append_inj' hp (by simp)
  simp at h1 h2
  exact ⟨h2.2, h1.2, h1.1, h2.1⟩

theorem Cyc.snoc {sc sc' : Nat → Sc} {h z u : Nat} {t init : List Nat}
    (hc : Cyc sc (h :: t)) (hl : h :: t = init ++ [z]) (hu : u ∉ h :: t) (hu0 : u ≠ 0)
    (hnu : (sc' u).next = h) (hpu : (sc' u).prev = z)
    (hnz : (sc' z).next = u) (hph : (sc' h).prev = u)
    (hn : ∀ x ∈ h :: t, x ≠ z → (sc' x).next = (sc x).next)
    (hp : ∀ x ∈ h :: t, x ≠ h → (sc' x).prev = (sc x).prev) :
    Cyc sc' (h :: (t ++ [u])) := by
  obtain ⟨-, -, hni, hpt⟩ := Cyc.links hc hl
  obtain ⟨hnd, h0, -, -⟩ := (Cyc.cons_iff sc h t).mp hc
  rw [Cyc.cons_iff]
  have hnd' : (init ++ [z]).Nodup := hl ▸ hnd
  have hzi : z ∉ init := by
    intro hz
    have := List.nodup_append.mp hnd'
    exact this.2.2 hz (by simp)
  refine ⟨?_, ?_, ?_, ?_⟩
  · have : (h :: (t ++ [u])) = (h :: t) ++ [u] := by simp
    rw [this]
    refine List.nodup_append.mpr ⟨hnd, by simp, ?_⟩
    intro a ha hau
    simp at hau
    exact hu (hau ▸ ha)
  · intro hmem
    have : (0 : Nat) ∈ (h :: t) ++ [u] := by simpa using hmem
    rcases List.mem_append.mp this with h1 | h1
    · exact h0 h1
    · simp at h1; exact hu0 h1.symm
  · have e : (h :: (t ++ [u])) = init ++ [z] ++ [u] := by rw [← hl]; simp
    rw [e]
    simp only [List.map_append, List.map_cons, List.map_nil, hnz, hnu]
    have : init.map (fun x => (sc' x).next) = init.map (fun x => (sc x).next) := by
      apply List.map_congr_left
      intro x hx
      exact hn x (by rw [hl]; simp [hx]) (fun e => hzi (e ▸ hx))
    rw [this, hni]
  · have hht : h ∉ t := (List.nodup_cons.mp hnd).1
    simp only [List.map_append, List.map_cons, List.map_nil, hpu, hph]
    have : t.map (fun x => (sc' x).prev) = t.map (fun x => (sc x).prev) := by
      apply List.map_congr_left
      intro x hx
      exact hp x (by simp [hx]) (fun e => hht (e ▸ hx))
    rw [this, hpt]
    have : init ++ [z] ++ [u] = h :: (t ++ [u]) := by rw [← hl]; simp
    simpa using this

theorem Cyc.tail {sc sc' : Nat → Sc} {u n p : Nat} {r init : List Nat}
    (hc : Cyc sc (u :: n :: r)) (hl : n :: r = init ++ [p])
    (hnp : (sc' p).next = n) (hpn : (sc' n).prev = p)
    (hn : ∀ x ∈ n :: r, x ≠ p → (sc' x).next = (sc x).next)
    (hp : ∀ x ∈ n :: r, x ≠ n → (sc' x).prev = (sc x).prev) :
    Cyc sc' (n :: r) := by
  obtain ⟨hnd, h0, hnx, hpv⟩ := (Cyc.cons_iff sc u (n :: r)).mp hc
  have hnd1 : (n :: r).Nodup := (List.nodup_cons.mp hnd).2
  have hnd' : (init ++ [p]).Nodup := hl ▸ hnd1
  have hpi : p ∉ init := by
    intro hz
    exact (List.nodup_append.mp hnd').2.2 hz (by simp)
  have hnr : n ∉ r := (List.nodup_cons.mp hnd1).1
  rw [Cyc.cons_iff]
  refine ⟨hnd1, fun h => h0 (List.mem_cons_of_mem _ h), ?_, ?_⟩
  · -- next links
    simp only [List.map_cons] at hnx
    have hnx2 : (n :: r).map (fun x => (sc x).next) = r ++ [u] := by
      have := List.cons.inj hnx
      simpa using this.2
    rw [hl, List.map_append] at hnx2 ⊢
    have h1 := List.append_inj' hnx2 (by simp)
    have : init.map (fun x => (sc' x).next) = init.map (fun x => (sc x).next) := by
      apply List.map_congr_left
      intro x hx
      exact hn x (by rw [hl]; simp [hx]) (fun e => hpi (e ▸ hx))
    rw [this, h1.1]
    simp [hnp]
  · -- prev links
    have hpv2 : (r ++ [u]).map (fun x => (sc x).prev) = n :: r := by
      simp only [List.cons_append, List.map_cons] at hpv
      have := List.cons.inj hpv
      simpa using this.2
    rw [hl, List.map_append] at hpv2
    have h1 := List.append_inj' hpv2 (by simp)
    have : r.map (fun x => (sc' x).prev) = r.map (fun x => (sc x).prev) := by
      apply List.map_congr_left
      intro x hx
      exact hp x (by simp [hx]) (fun e => hnr (e ▸ hx))
    rw [List.map_append, this, h1.1, hl]
    simp [hpn]

theorem Cyc.head_links {sc : Nat → Sc} {u n p : Nat} {r init : List Nat}
    (hc : Cyc sc (u :: n :: r)) (hl : n :: r = init ++ [p]) :
    (sc u).next = n ∧ (sc u).prev = p := by
  obtain ⟨hnd, h0, hnx, hpv⟩ := (Cyc.cons_iff sc u (n :: r)).mp hc
  constructor
  · simp only [List.map_cons, List.cons_append] at hnx
    exact (List.cons.inj hnx).1
  · have e : u :: n :: r = (u :: init) ++ [p] := by rw [hl]; simp
    exact (Cyc.links hc e).1

@[simp] theorem setPrev_other (sc : Nat → Sc) (p v x : Nat) (h : x ≠ p) : setPrev sc p v x = sc x := by
  simp [setPrev, h]
@[simp] theorem setNext_other (sc : Nat → Sc) (p v x : Nat) (h : x ≠ p) : setNext sc p v x = sc x := by
  simp [setNext, h]
@[simp] theorem setLeft_other (sc : Nat → Sc) (p v x : Nat) (h : x ≠ p) : setLeft sc p v x = sc x := by
  simp [setLeft, h]
@[simp] theorem setTsc_other (sc : Nat → Sc) (p v x : Nat) (h : x ≠ p) : setTsc sc p v x = sc x := by
  simp [setTsc, h]

theorem Ring.nil_iff {sc : Nat → Sc} {h : Nat} {l : List Nat} (hr : Ring sc h l) :
    h = 0 ↔ l = [] := by
  obtain ⟨⟨-, h0, -, -⟩, hh⟩ := hr
  cases l with
  | nil => simp at hh; simp [hh]
  | cons a t =>
    simp at hh h0
    subst hh
    simp; exact fun e => h0.1 e.symm

theorem Ring.head_eq {sc : Nat → Sc} {h a : Nat} {t : List Nat} (hr : Ring sc h (a :: t)) :
    h = a := by
  have := hr.2; simp at this; exact this.symm

theorem insertUnit_nil (left u : Nat) : insertUnit left u [] = [u] := by
  unfold insertUnit; split <;> simp

theorem ite_setLeft (c : Prop) [Decidable c] (sc : Nat → Sc) (u v : Nat) :
    (if c then setLeft sc u v else sc) = setLeft sc u (if c then v else (sc u).left) := by
  split
  · rfl
  · funext x
    unfold setLeft upd
    split
    · next h => subst h; rfl
    · rfl

theorem ready_enqueue_spec (cfg : Config) (id u now : Nat) (w : World) (q : Nat → List Nat)
    (hinv : RqInv cfg id w q) (hv : ValidUnit cfg id w u) (hnl : u ∉ q (w.sc u).prio)
    (hcur : (w.cpu id).current ≠ 0) :
    ∃ w', ready_enqueue cfg id u now w = .ok w' ∧ EnqPost cfg id u now w q w' := by
  obtain ⟨hu0, hus, hcpu, hprio⟩ := hv
  obtain ⟨htop, hlev⟩ := hinv
  obtain ⟨hring, hmem⟩ := hlev _ hprio
  have hother : ∀ p, p < cfg.priorities → p ≠ (w.sc u).prio → ∀ x ∈ q p, x ≠ u := by
    intro p hp hne x hx e
    exact hne (e ▸ (hlev p hp).2 x hx).1.symm
  have hmax : (if (w.sc u).prio > (w.cpu id).prio_top then (w.sc u).prio else (w.cpu id).prio_top)
      = max (w.cpu id).prio_top (w.sc u).prio := by
    split <;> omega
  unfold ready_enqueue
  simp only [hu0, hprio, hcpu, hus, hcur, if_false, not_true_eq_false, not_false_eq_true, if_true,
    hmax]
  cases hq : q (w.sc u).prio with
  | nil =>
    have hhead : (w.cpu id).list (w.sc u).prio = 0 := hring.nil_iff.mpr hq
    simp only [hhead, if_true, ite_setLeft]
    refine ⟨_, rfl, ?_⟩
    constructor
    · rw [hq, insertUnit_nil]
      refine ⟨?_, ?_⟩
      · simp; omega
      · intro p hp
        by_cases hpe : p = (w.sc u).prio
        · subst hpe
          simp [Ring]
          refine ⟨?_, hcpu⟩
          apply Cyc.singleton hu0 <;> simp
        · simp [hpe]
          refine ⟨⟨Cyc.frame (hlev p hp).1.1 ?_, (hlev p hp).1.2⟩, ?_⟩
          · intro x hx
            simp [hother p hp hpe x hx]
          · intro x hx
            simpa using (hlev p hp).2 x hx
    · intro p hp; simp [hp]
    · intro h; exact absurd hq h
    · intro _; simp
    · simp
    · simp
    · simp
    · simp
    · simp
    · simp
    · simp
    · simp
    · intro j hj; simp [hj]
    · simp
    · simp
    · simp
    · simp
    · intro x hx _; simp [hx]
    · intro x; simp
    · intro x; simp
    · intro x; simp
    · intro x; simp
    · intro x hx; simp [hx]
    · intro x hx; simp [hx]
  | cons h t =>
    rw [hq] at hring hmem hnl
    have hhead : (w.cpu id).list (w.sc u).prio = h := hring.head_eq
    have hcyc := hring.1
    have hh0 : h ≠ 0 := fun e => hcyc.2.1 (by simp [e])
    obtain ⟨init, z, hl⟩ : ∃ init z, h :: t = init ++ [z] := by
      rcases List.eq_nil_or_concat (h :: t) with e | ⟨L, b, e⟩
      · simp at e
      · exact ⟨L, b, by simpa using e⟩
    obtain ⟨hph, hnz, -, -⟩ := Cyc.links hcyc hl
    have hzmem : z ∈ h :: t := by rw [hl]; simp
    have hz0 : z ≠ 0 := fun e => hcyc.2.1 (e ▸ hzmem)
    have huh : u ≠ h := fun e => hnl (by simp [e])
    have huz : u ≠ z := fun e => hnl (e ▸ hzmem)
    simp only [hhead, hh0, if_false, ite_setLeft]
    simp [hph, hz0, huh, huz, Ne.symm huh, Ne.symm huz]
    have hsnoc : Cyc (setTsc (setLeft (setPrev (setNext (setPrev (setNext w.sc u h) u z) z u) h u) u
        (if (w.sc u).left = 0 then (w.sc u).full else (w.sc u).left)) u now) (h :: (t ++ [u])) := by
      apply Cyc.snoc hcyc hl hnl hu0
      · simp [huz]
      · simp [huh]
      · simp
      · simp
      · intro x hx hxz
        have : x ≠ u := fun e => hnl (e ▸ hx)
        simp [hxz, this]
      · intro x hx hxh
        have : x ≠ u := fun e => hnl (e ▸ hx)
        simp [hxh, this]
    have hcons : Cyc (setTsc (setLeft (setPrev (setNext (setPrev (setNext w.sc u h) u z) z u) h u) u
        (if (w.sc u).left = 0 then (w.sc u).full else (w.sc u).left)) u now) (u :: h :: t) := by
      have := hsnoc.rotate (h :: t).length
      have e : h :: (t ++ [u]) = (h :: t) ++ [u] := by simp
      rw [e, List.rotate_append_length_eq] at this
      simpa using this
    constructor
    · rw [hq]
      refine ⟨?_, ?_⟩
      · simp; omega
      · intro p hp
        by_cases hpe : p = (w.sc u).prio
        · subst hpe
          have hmem' : ∀ x ∈ insertUnit (w.sc u).left u (h :: t),
              (w.sc x).prio = (w.sc u).prio ∧ (w.sc x).cpu = id := by
            intro x hx
            have : x = u ∨ x ∈ h :: t := by
              unfold insertUnit at hx
              split at hx
              · rcases List.mem_append.mp hx with h1 | h1
                · exact Or.inr h1
                · exact Or.inl (by simpa using h1)
              · rcases List.mem_cons.mp hx with h1 | h1
                · exact Or.inl h1
                · exact Or.inr h1
            rcases this with e | hx'
            · subst e; exact ⟨rfl, hcpu⟩
            · exact hmem x hx'
          rw [upd_same]
          refine ⟨⟨?_, ?_⟩, ?_⟩
          · by_cases hleft : (w.sc u).left = 0
            · simpa [insertUnit, hleft] using hsnoc
            · simpa [insertUnit, hleft] using hcons
          · by_cases hleft : (w.sc u).left = 0
            · simp [insertUnit, hleft, hhead]
            · simp [insertUnit, hleft]
          · intro x hx
            simpa using hmem' x hx
        · have hlist : (if (w.sc u).left = 0 then (w.cpu id).list
              else upd (w.cpu id).list (w.sc u).prio u) p = (w.cpu id).list p := by
            split <;> simp [hpe]
          simp [hpe, hlist]
          refine ⟨⟨Cyc.frame (hlev p hp).1.1 ?_, (hlev p hp).1.2⟩, ?_⟩
          · intro x hx
            have hxu := hother p hp hpe x hx
            have hxp := ((hlev p hp).2 x hx).1
            have hxh : x ≠ h := fun e => hpe (by rw [← hxp, e]; exact (hmem h (by simp)).1)
            have hxz : x ≠ z := fun e => hpe (by rw [← hxp, e]; exact (hmem z hzmem).1)
            simp [hxu, hxh, hxz]
          · intro x hx
            simpa using (hlev p hp).2 x hx
    · intro p hp; simp; split <;> simp [hp]
    · intro _ hleft; simp [hleft]
    · intro hc
      rcases hc with hc | hc
      · rw [hq] at hc; simp at hc
      · simp [hc]
    · simp
    · simp
    · simp
    · simp
    · simp
    · simp
    · simp
    · simp
    · intro j hj; simp [hj]
    · simp
    · simp
    · simp
    · simp
    · intro x hx hxq
      rw [hq] at hxq
      have hxh : x ≠ h := fun e => hxq (by simp [e])
      have hxz : x ≠ z := fun e => hxq (e ▸ hzmem)
      simp [hx, hxh, hxz]
    · intro x; simp
    · intro x; simp
    · intro x; simp
    · intro x; simp
    · intro x hx; simp [hx]
    · intro x hx; simp [hx]

theorem scan_top_le (list : Nat → Nat) (t : Nat) : scan_top list t ≤ t := by
  induction t with
  | zero => simp [scan_top]
  | succ t ih => unfold scan_top; split <;> omega

theorem scan_top_found (list : Nat → Nat) (t : Nat) :
    list (scan_top list t) ≠ 0 ∨ scan_top list t = 0 := by
  induction t with
  | zero => simp [scan_top]
  | succ t ih =>
    unfold scan_top
    split
    · exact ih
    · next h => exact Or.inl h

theorem scan_top_above (list : Nat → Nat) (t p : Nat) (h1 : scan_top list t < p) (h2 : p ≤ t) :
    list p = 0 := by
  induction t with
  | zero => simp [scan_top] at h1; omega
  | succ t ih =>
    unfold scan_top at h1
    split at h1
    · next h =>
      by_cases hp : p = t + 1
      · rw [hp]; exact h
      · exact ih h1 (by omega)
    · omega

theorem Cyc.mem_ne_zero {sc : Nat → Sc} {l : List Nat} (hc : Cyc sc l) {x : Nat} (hx : x ∈ l) :
    x ≠ 0 := fun e => hc.2.1 (e ▸ hx)

theorem Cyc.next_mem {sc : Nat → Sc} {l : List Nat} (hc : Cyc sc l) {x : Nat} (hx : x ∈ l) :
    (sc x).next ∈ l := by
  have : (sc x).next ∈ l.map (fun x => (sc x).next) := List.mem_map.mpr ⟨x, hx, rfl⟩
  rw [hc.2.2.1] at this
  exact List.mem_rotate.mp this

theorem Cyc.prev_mem {sc : Nat → Sc} {l : List Nat} (hc : Cyc sc l) {x : Nat} (hx : x ∈ l) :
    (sc x).prev ∈ l := by
  have hx' : x ∈ l.rotate 1 := List.mem_rotate.mpr hx
  have : (sc x).prev ∈ (l.rotate 1).map (fun x => (sc x).prev) := List.mem_map.mpr ⟨x, hx', rfl⟩
  rw [hc.2.2.2] at this
  exact this

theorem ready_dequeue_spec (cfg : Config) (id u now : Nat) (w : World) (q : Nat → List Nat)
    (hinv : RqInv cfg id w q) (hprio : (w.sc u).prio < cfg.priorities)
    (hmem : u ∈ q (w.sc u).prio) :
    ∃ w', ready_dequeue cfg id u now w = .ok w' ∧ DeqPost cfg id u now w q w' := by
  obtain ⟨htop, hlev⟩ := hinv
  obtain ⟨hring, hmemp⟩ := hlev _ hprio
  have hcyc := hring.1
  have hu0 : u ≠ 0 := hcyc.mem_ne_zero hmem
  have hcpu : (w.sc u).cpu = id := (hmemp u hmem).2
  have hn0 : (w.sc u).next ≠ 0 := hcyc.mem_ne_zero (hcyc.next_mem hmem)
  have hp0 : (w.sc u).prev ≠ 0 := hcyc.mem_ne_zero (hcyc.prev_mem hmem)
  have hother : ∀ p, p < cfg.priorities → p ≠ (w.sc u).prio → ∀ x ∈ q p,
      ∀ y ∈ q (w.sc u).prio, x ≠ y := by
    intro p hp hne x hx y hy e
    exact hne (by rw [← ((hlev p hp).2 x hx).1, e]; exact (hmemp y hy).1)
  unfold ready_dequeue
  simp only [hu0, hprio, hcpu, hn0, hp0, if_false, not_true_eq_false, or_self]
  refine ⟨_, rfl, ?_⟩
  simp only [setPrev_prev, setPrev_next, ite_self, setPrev_owner, setNext_owner, setPrev_tsc,
    setNext_tsc]
  obtain ⟨a, b, hab⟩ := List.append_of_mem hmem
  have hnd : (a ++ u :: b).Nodup := hab ▸ hcyc.1
  have hua : u ∉ a := fun h => (List.nodup_append.mp hnd).2.2 h (by simp)
  have hub : u ∉ b := by
    have := (List.nodup_append.mp hnd).2.1
    exact (List.nodup_cons.mp this).1
  have herase : (q (w.sc u).prio).erase u = a ++ b := by
    rw [hab, List.erase_append_right _ hua]; simp
  have hrot : Cyc w.sc (u :: (b ++ a)) := by
    have := hcyc.rotate a.length
    rw [hab, List.rotate_append_length_eq] at this
    simpa using this
  have hheadq : (w.cpu id).list (w.sc u).prio = (a ++ u :: b).head?.getD 0 := by
    rw [← hab]; exact hring.2.symm
  -- the ring that remains
  have hrest : Cyc (setPrev (setNext (setPrev w.sc (w.sc u).next (w.sc u).prev) (w.sc u).prev
      (w.sc u).next) u 0) (a ++ b) ∧ (b ++ a = [] → (w.sc u).next = u) ∧
      (∀ n r, b ++ a = n :: r → (w.sc u).next = n ∧ n ≠ u) := by
    cases hba : b ++ a with
    | nil =>
      have ha : a = [] := (List.append_eq_nil.mp hba).2
      have hb : b = [] := (List.append_eq_nil.mp hba).1
      subst ha hb
      refine ⟨Cyc.nil _, fun _ => ?_, fun n r h => by simp at h⟩
      have := hrot.2.2.1
      simpa using this
    | cons n r =>
      rw [hba] at hrot
      obtain ⟨init, p, hl⟩ : ∃ init p, n :: r = init ++ [p] := by
        rcases List.eq_nil_or_concat (n :: r) with e | ⟨L, c, e⟩
        · simp at e
        · exact ⟨L, c, by simpa using e⟩
      obtain ⟨hnext, hprev⟩ := Cyc.head_links hrot hl
      have hndr := hrot.1
      have hun : u ≠ n := fun e => (List.nodup_cons.mp hndr).1 (by simp [e])
      have hpm : p ∈ n :: r := by rw [hl]; simp
      have hup : u ≠ p := fun e => (List.nodup_cons.mp hndr).1 (e ▸ hpm)
      refine ⟨?_, fun h => by simp at h, fun n' r' h => ?_⟩
      · have hc : Cyc (setPrev (setNext (setPrev w.sc (w.sc u).next (w.sc u).prev) (w.sc u).prev
            (w.sc u).next) u 0) (n :: r) := by
          apply Cyc.tail hrot hl
          · simp [hnext, hprev]
          · simp [hnext, hprev, Ne.symm hun]
          · intro x hx hxp
            simp [hprev, hxp]
          · intro x hx hxn
            have : x ≠ u := fun e => (List.nodup_cons.mp hndr).1 (e ▸ hx)
            simp [hnext, hxn, this]
        have := hc.rotate b.length
        rw [← hba, List.rotate_append_length_eq] at this
        exact this
      · have := List.cons.inj h
        rw [hnext]
        exact ⟨this.1, fun e => hun (this.1.trans e).symm⟩
  obtain ⟨hcyc', hsole, hmore⟩ := hrest
  have hheadnew : (if (w.cpu id).list (w.sc u).prio = u then
        upd (w.cpu id).list (w.sc u).prio (if (w.sc u).next = u then 0 else (w.sc u).next)
      else (w.cpu id).list) (w.sc u).prio = (a ++ b).head?.getD 0 := by
    cases a with
    | nil =>
      simp at hheadq
      simp only [hheadq, if_true, upd_same]
      cases b with
      | nil => simp [hsole rfl]
      | cons n r =>
        obtain ⟨h1, h2⟩ := hmore n r (by simp)
        simp [h1, h2]
    | cons x a' =>
      simp at hheadq
      have : x ≠ u := fun e => hua (by simp [e])
      simp [hheadq, this]
  have hlistother : ∀ p, p ≠ (w.sc u).prio → (if (w.cpu id).list (w.sc u).prio = u then
        upd (w.cpu id).list (w.sc u).prio (if (w.sc u).next = u then 0 else (w.sc u).next)
      else (w.cpu id).list) p = (w.cpu id).list p := by
    intro p hp
    split <;> simp [hp]
  have hnm : (w.sc u).next ∈ q (w.sc u).prio := hcyc.next_mem hmem
  have hpm : (w.sc u).prev ∈ q (w.sc u).prio := hcyc.prev_mem hmem
  constructor
  · refine ⟨?_, ?_⟩
    · simp
      exact Nat.lt_of_le_of_lt (scan_top_le _ _) htop
    · intro p hp
      by_cases hpe : p = (w.sc u).prio
      · subst hpe
        rw [upd_same, herase]
        refine ⟨⟨hcyc', ?_⟩, ?_⟩
        · simp only [setCpu_cpu_same]
          exact hheadnew.symm
        · intro x hx
          have : x ∈ q (w.sc u).prio := by
            rw [hab]
            rcases List.mem_append.mp hx with h | h
            · exact List.mem_append_left _ h
            · exact List.mem_append_right _ (List.mem_cons_of_mem _ h)
          simpa using hmemp x this
      · rw [upd_other _ _ _ _ hpe]
        simp only [setCpu_cpu_same, hlistother p hpe]
        refine ⟨⟨Cyc.frame (hlev p hp).1.1 ?_, (hlev p hp).1.2⟩, ?_⟩
        · intro x hx
          have h1 := hother p hp hpe x hx u hmem
          have h2 := hother p hp hpe x hx _ hnm
          have h3 := hother p hp hpe x hx _ hpm
          simp [h1, h2, h3]
        · intro x hx
          simpa using (hlev p hp).2 x hx
  · intro p hp; simp [hlistother p hp]
  · intro h; simp [h]
  · intro h; simp [h]
  · simp
  · simp
  · simp
  · simp
  · simp
  · simp
  · simp
  · simp
  · intro j hj; simp [hj]
  · simp
  · simp
  · simp
  · simp
  · exact hn0
  · intro x hx hxq
    have h2 : x ≠ (w.sc u).next := fun e => hxq (e ▸ hnm)
    have h3 : x ≠ (w.sc u).prev := fun e => hxq (e ▸ hpm)
    simp [hx, h2, h3]
  · intro x; simp
  · intro x; simp
  · intro x; simp
  · intro x; simp
  · intro x; simp
  · intro x; simp

theorem sub64_int (a b : Nat) : ((sub64 a b : Nat) : Int) = ((a : Int) - (b : Int)) % 2 ^ 64 := by
  unfold sub64
  omega

theorem ready_enqueue_ok (cfg : Config) (id v t : Nat) (w0 w1 : World)
    (h : ready_enqueue cfg id v t w0 = .ok w1) :
    ValidUnit cfg id w0 v ∧ (w0.cpu id).current ≠ 0 ∧
      (w1.sc v).tsc = t ∧ w1.tsc_offset = w0.tsc_offset := by
  unfold ready_enqueue at h
  by_cases h1 : v = 0
  · simp [h1] at h
  by_cases h2 : (w0.sc v).prio < cfg.priorities
  swap
  · simp [h1, h2] at h
  by_cases h3 : (w0.sc v).cpu = id
  swap
  · simp [h1, h2, h3] at h
  by_cases h4 : v = 2 ^ cfg.long_bits - 1
  · simp [h1, h2, h3, ← h4] at h
  simp only [h1, h2, h3, h4, if_false, not_true_eq_false] at h
  refine ⟨⟨h1, h4, h3, h2⟩, ?_⟩
  split at h
  · cases h
  · split at h
    · cases h
    · next hc =>
      injection h with h
      subst h
      exact ⟨hc, by simp, rfl⟩

theorem hazard_bit (h b i : Nat) :
    (h ||| 2 ^ b).testBit i = (h.testBit i || decide (i = b)) := by
  rw [Nat.testBit_lor, Nat.testBit_two_pow]
  congr 1
  simp [eq_comm]

theorem RqInv.congr {cfg : Config} {id : Nat} {w w' : World} {q : Nat → List Nat}
    (h : RqInv cfg id w q) (hl : (w'.cpu id).list = (w.cpu id).list)
    (ht : (w'.cpu id).prio_top = (w.cpu id).prio_top)
    (hs : ∀ x, (w'.sc x).next = (w.sc x).next ∧ (w'.sc x).prev = (w.sc x).prev ∧
      (w'.sc x).prio = (w.sc x).prio ∧ (w'.sc x).cpu = (w.sc x).cpu) :
    RqInv cfg id w' q := by
  refine ⟨ht ▸ h.1, fun p hp => ?_⟩
  obtain ⟨⟨hc, hh⟩, hm⟩ := h.2 p hp
  refine ⟨⟨hc.frame fun x _ => ⟨(hs x).1, (hs x).2.1⟩, by rw [hl]; exact hh⟩, fun x hx => ?_⟩
  rw [(hs x).2.2.1, (hs x).2.2.2]
  exact hm x hx

theorem schedule_eq (cfg : Config) (id : Nat) (suspend : Bool) (now_enq now_deq : Nat)
    (w : World) :
    schedule cfg id suspend now_enq now_deq w =
      if (w.cpu id).current = 0 then .error .assert_current
      else if ¬ (suspend = true ∨ (w.sc (w.cpu id).current).prev = 0) then
        .error .assert_unlinked
      else
        (if suspend then .ok (sched_begin cfg id w)
          else ready_enqueue cfg id (w.cpu id).current now_enq (sched_begin cfg id w)) >>=
          sched_select cfg id now_deq := rfl

theorem sched_select_spec (cfg : Config) (id now_deq : Nat) (w : World) (q : Nat → List Nat)
    (hinv : RqInv cfg id w q) (hb : TopBound cfg id w q)
    (hne : q (w.cpu id).prio_top ≠ []) :
    ∃ w', sched_select cfg id now_deq w = .ok w' ∧
      SelPost cfg id now_deq w q ((q (w.cpu id).prio_top).head?.getD 0) w' := by
  obtain ⟨sel, t, hq⟩ : ∃ sel t, q (w.cpu id).prio_top = sel :: t := by
    cases h : q (w.cpu id).prio_top with
    | nil => exact absurd h hne
    | cons a t => exact ⟨a, t, rfl⟩
  have hring := (hinv.2 _ hinv.1).1
  have hmemp := (hinv.2 _ hinv.1).2
  rw [hq] at hring hmemp
  have hhead : (w.cpu id).list (w.cpu id).prio_top = sel := hring.head_eq
  have hsel0 : sel ≠ 0 := hring.1.mem_ne_zero (by simp)
  have hselp : (w.sc sel).prio = (w.cpu id).prio_top := (hmemp sel (by simp)).1
  -- the world handed to ready_dequeue
  have hinv2 : RqInv cfg id (w.setCpu id { set_timer (w.cpu id) ((w.sc sel).left % 2 ^ 32)
      with current := sel }) q := by
    apply hinv.congr
    · simp [set_timer]
    · simp [set_timer]
    · intro x; simp
  obtain ⟨w3, hok, hp⟩ := ready_dequeue_spec cfg id sel now_deq _ q hinv2
    (by simp [hselp, hinv.1]) (by simp [hselp, hq])
  simp only [setCpu_sc, setCpu_cpu_same, set_timer, setCpu_tsc_offset, setCpu_ipi] at hp
  unfold sched_select
  simp only [hhead, hsel0, if_false, hok, bind, Except.bind, hq, List.head?_cons,
    Option.getD_some]
  refine ⟨_, rfl, ?_⟩
  have hrq3 : RqInv cfg id w3 (q_deq q (w.cpu id).prio_top sel) := by
    have := hp.rq
    simp only [setCpu_sc, hselp] at this
    exact this
  have htop3 : (w3.cpu id).prio_top = scan_top (w3.cpu id).list (w.cpu id).prio_top := by
    have := hp.top
    simpa using this
  have hle : (w3.cpu id).prio_top ≤ (w.cpu id).prio_top := by
    rw [htop3]; exact scan_top_le _ _
  constructor
  · simp [hq]
  · simp [hq]
  · simpa using hp.current
  · apply hrq3.congr
    · simp
    · simp
    · intro x; simp
  · intro p hp1 hp2
    simp only [setCpu_cpu_same] at hp2
    by_cases hpt : (w.cpu id).prio_top < p
    · have : p ≠ (w.cpu id).prio_top := by omega
      simp only [q_deq, upd_other _ _ _ _ this]
      exact hb p hp1 hpt
    · have h0 : (w3.cpu id).list p = 0 := by
        rw [htop3] at hp2
        exact scan_top_above _ _ p hp2 (by omega)
      exact (hrq3.2 p hp1).1.nil_iff.mp h0
  · unfold TopTight
    simp only [setCpu_cpu_same]
    rcases scan_top_found (w3.cpu id).list (w.cpu id).prio_top with h | h
    · left
      rw [← htop3] at h
      intro he
      exact h ((hrq3.2 _ (Nat.lt_of_le_of_lt hle hinv.1)).1.nil_iff.mpr he)
    · right
      rw [htop3]; exact h
  · simpa using hp.timer
  · simpa using hp.hazard
  · simp
  · simpa using hp.rq_queue
  · simpa using hp.owner_eq sel
  · simpa using hp.counter
  · intro j hj
    have := hp.cpu_other j hj
    simpa [hj] using this
  · simpa using hp.tsc_offset
  · simpa using hp.ipi
  · simpa using hp.prev_null
  · have h1 := hp.next_kept
    have h2 := hp.next_ne
    simp only [setCpu_sc] at h1 h2 ⊢
    rw [h1]; exact h2
  · intro x hx
    have hxs : x ≠ sel := fun e => hx (by rw [e, hq]; simp)
    have := hp.heap_other x hxs (by simpa [hselp] using hx)
    simpa using this
  · intro x; simpa using hp.owner_eq x
  · intro x; simpa using hp.cpu_eq x
  · intro x; simpa using hp.prio_eq x
  · intro x; simpa using hp.full_eq x
  · intro x; simpa using hp.left_eq x
  · intro x; simpa using hp.tsc_eq x
@[simp] theorem sched_begin_sc (cfg : Config) (id : Nat) (w : World) :
    (sched_begin cfg id w).sc = setLeft w.sc (w.cpu id).current (get_timer (w.cpu id)) := rfl

@[simp] theorem sched_begin_cpu (cfg : Config) (id : Nat) (w : World) :
    (sched_begin cfg id w).cpu id =
      { w.cpu id with counter_schedule := (w.cpu id).counter_schedule + 1,
                      hazard := (w.cpu id).hazard &&& (2 ^ cfg.hazard_bits - 1 - HZD_SCHED cfg) } := by
  simp [sched_begin]

@[simp] theorem sched_begin_cpu_other (cfg : Config) (id : Nat) (w : World) (j : Nat)
    (h : j ≠ id) : (sched_begin cfg id w).cpu j = w.cpu j := by
  simp [sched_begin, h]

@[simp] theorem sched_begin_tsc_offset (cfg : Config) (id : Nat) (w : World) :
    (sched_begin cfg id w).tsc_offset = w.tsc_offset := rfl

@[simp] theorem sched_begin_ipi (cfg : Config) (id : Nat) (w : World) :
    (sched_begin cfg id w).ipi = w.ipi := rfl

theorem RqInv.not_mem_of_prev {cfg : Config} {id : Nat} {w : World} {q : Nat → List Nat}
    (h : RqInv cfg id w q) {x p : Nat} (hp : p < cfg.priorities) (hx : (w.sc x).prev = 0) :
    x ∉ q p := by
  intro hm
  have hc := (h.2 p hp).1.1
  exact hc.mem_ne_zero (hc.prev_mem hm) hx

theorem RqInv.sched_begin {cfg : Config} {id : Nat} {w : World} {q : Nat → List Nat}
    (h : RqInv cfg id w q) : RqInv cfg id (sched_begin cfg id w) q := by
  apply h.congr
  · simp
  · simp
  · intro x; simp

theorem schedule_spec (cfg : Config) (id : Nat) (suspend : Bool) (now_enq now_deq : Nat)
    (w : World) (q : Nat → List Nat)
    (hinv : RqInv cfg id w q) (hb : TopBound cfg id w q) (ht : TopTight id w q)
    (hcur : (w.cpu id).current ≠ 0)
    (hsus : suspend = true → q (w.cpu id).prio_top ≠ [])
    (hrun : suspend = false →
      ValidUnit cfg id w (w.cpu id).current ∧ (w.sc (w.cpu id).current).prev = 0) :
    ∃ w', schedule cfg id suspend now_enq now_deq w = .ok w' ∧
      SchedPost cfg id suspend now_enq now_deq w q w' := by
  rw [schedule_eq]
  cases suspend with
  | true =>
    simp only [hcur, if_false, true_or, not_true_eq_false, if_true, bind, Except.bind]
    have hinv1 := hinv.sched_begin
    obtain ⟨w', hok, hp⟩ := sched_select_spec cfg id now_deq (sched_begin cfg id w) q hinv1
      (by intro p hp1 hp2; exact hb p hp1 (by simpa using hp2))
      (by simpa using hsus rfl)
    refine ⟨w', hok, ?_⟩
    have hsel : sched_sel id true w q = (q (w.cpu id).prio_top).head?.getD 0 := by
      simp [sched_sel, sched_q1, sched_top1]
    have hq1 : sched_q1 id true w q = q := by simp [sched_q1]
    have htop1 : sched_top1 id true w = (w.cpu id).prio_top := by simp [sched_top1]
    have htb : ((sched_begin cfg id w).cpu id).prio_top = (w.cpu id).prio_top := by simp
    rw [htb] at hp
    generalize hs : (q (w.cpu id).prio_top).head?.getD 0 = sel at hp hsel
    have hselmem : sel ∈ q (w.cpu id).prio_top := by simpa using hp.sel_mem
    constructor
    · rw [hsel, hq1, htop1]; exact hselmem
    · rw [hsel, htop1]; exact ((hinv.2 _ hinv.1).2 sel hselmem).1
    · rw [hq1, htop1]; exact hb
    · rw [hsel]; exact hp.current
    · simp only [sched_q, hq1, htop1, hsel]; simpa using hp.rq
    · simp only [sched_q, hq1, htop1, hsel]; simpa using hp.bound
    · simp only [sched_q, hq1, htop1, hsel]; simpa using hp.tight
    · rw [hsel, hp.timer, hp.left_eq]
    · rw [hp.left_eq]; simp
    · intro x hx; rw [hp.left_eq]; simp [hx]
    · simpa using hp.hazard
    · exact hp.ctr_loop
    · simpa using hp.rq_queue
    · rw [hsel, hp.active]; simp
    · simpa using hp.counter
    · intro j hj; rw [hp.cpu_other j hj]; simp [hj]
    · rw [hsel, hp.tsc_offset]; simp
    · exact hp.ipi
    · rw [hsel]; exact hp.prev_sel
    · rw [hsel]; exact hp.next_sel
    · intro x hx hnq
      rw [hp.heap_other x (by simpa using hnq _ hinv.1)]
      simp [hx]
    · intro _ hnq
      rw [hp.heap_other _ (by simpa using hnq _ hinv.1)]
      simp
    · intro x; rw [hp.owner_eq]; simp
    · intro x; rw [hp.cpu_eq]; simp
    · intro x; rw [hp.prio_eq]; simp
    · intro x; rw [hp.full_eq]; simp
    · intro h; cases h
    · intro x _; rw [hp.tsc_eq]; simp
  | false =>
    obtain ⟨hv, hprev⟩ := hrun rfl
    simp only [hcur, hprev, if_false, or_true, not_true_eq_false, Bool.false_eq_true]
    have hinv1 := hinv.sched_begin
    have hv1 : ValidUnit cfg id (sched_begin cfg id w) (w.cpu id).current := by
      simpa [ValidUnit] using hv
    have hnl1 : (w.cpu id).current ∉ q ((sched_begin cfg id w).sc (w.cpu id).current).prio := by
      simpa using hinv.not_mem_of_prev hv.2.2.2 hprev
    obtain ⟨w2, hok2, hp2⟩ := ready_enqueue_spec cfg id (w.cpu id).current now_enq
      (sched_begin cfg id w) q hinv1 hv1 hnl1 (by simpa using hcur)
    have hq1 : sched_q1 id false w q = upd q ((sched_begin cfg id w).sc (w.cpu id).current).prio
        (insertUnit ((sched_begin cfg id w).sc (w.cpu id).current).left (w.cpu id).current
          (q ((sched_begin cfg id w).sc (w.cpu id).current).prio)) := by
      simp [sched_q1, q_enq]
    have hrq2 : RqInv cfg id w2 (sched_q1 id false w q) := by
      rw [hq1]; exact hp2.rq
    have htop2 : (w2.cpu id).prio_top = sched_top1 id false w := by
      simpa [sched_top1] using hp2.top
    have hb2 : TopBound cfg id w2 (sched_q1 id false w q) := by
      intro p hp1 hp2'
      rw [htop2] at hp2'
      simp only [sched_top1, Bool.false_eq_true, if_false] at hp2'
      have hne : p ≠ (w.sc (w.cpu id).current).prio := by omega
      simp only [sched_q1, q_enq, Bool.false_eq_true, if_false, upd_other _ _ _ _ hne]
      exact hb p hp1 (by omega)
    have hne2 : sched_q1 id false w q (w2.cpu id).prio_top ≠ [] := by
      rw [htop2]
      simp only [sched_top1, sched_q1, q_enq, Bool.false_eq_true, if_false]
      by_cases hc : (w.cpu id).prio_top ≤ (w.sc (w.cpu id).current).prio
      · rw [Nat.max_eq_right hc, upd_same]
        unfold insertUnit
        split <;> simp
      · have hm : max (w.cpu id).prio_top (w.sc (w.cpu id).current).prio = (w.cpu id).prio_top :=
          Nat.max_eq_left (by omega)
        have hne : (w.cpu id).prio_top ≠ (w.sc (w.cpu id).current).prio := by omega
        rw [hm, upd_other _ _ _ _ hne]
        rcases ht with h | h
        · exact h
        · omega
    obtain ⟨w', hok, hp⟩ := sched_select_spec cfg id now_deq w2 _ hrq2 hb2 hne2
    refine ⟨w', by simp only [hok2, bind, Except.bind]; exact hok, ?_⟩
    rw [htop2] at hp
    have hsel : sched_sel id false w q =
        (sched_q1 id false w q (sched_top1 id false w)).head?.getD 0 := rfl
    generalize hs : (sched_q1 id false w q (sched_top1 id false w)).head?.getD 0 = sel
      at hp hsel
    have hselmem : sel ∈ sched_q1 id false w q (sched_top1 id false w) := htop2 ▸ hp.sel_mem
    have hxq : ∀ x, x ≠ (w.cpu id).current → (∀ p, p < cfg.priorities → x ∉ q p) →
        ∀ p, p < cfg.priorities → x ∉ sched_q1 id false w q p := by
      intro x hx hnq p hp1
      simp only [sched_q1, q_enq, Bool.false_eq_true, if_false]
      by_cases hpe : p = (w.sc (w.cpu id).current).prio
      · subst hpe
        rw [upd_same]
        unfold insertUnit
        split <;> simp [hx, hnq _ hp1]
      · rw [upd_other _ _ _ _ hpe]; exact hnq p hp1
    have htop1lt : sched_top1 id false w < cfg.priorities := htop2 ▸ hrq2.1
    constructor
    · rw [hsel]; exact hselmem
    · rw [hsel]
      have := ((hrq2.2 _ htop1lt).2 sel hselmem).1
      rw [hp2.prio_eq] at this
      simpa using this
    · intro p hp1 hp2'; exact hb2 p hp1 (by rw [htop2]; exact hp2')
    · rw [hsel]; exact hp.current
    · simp only [sched_q, hsel]; exact htop2 ▸ hp.rq
    · simp only [sched_q, hsel]; exact htop2 ▸ hp.bound
    · simp only [sched_q, hsel]; exact htop2 ▸ hp.tight
    · rw [hsel, hp.timer, hp.left_eq]
    · rw [hp.left_eq, hp2.left]; simp
    · intro x hx; rw [hp.left_eq, hp2.left_other x hx]; simp [hx]
    · rw [hp.hazard, hp2.hazard]; simp
    · exact hp.ctr_loop
    · rw [hp.rq_queue, hp2.rq_queue]; simp
    · rw [hsel, hp.active, hp2.owner_eq]; simp
    · rw [hp.counter, hp2.counter]; simp
    · intro j hj; rw [hp.cpu_other j hj, hp2.cpu_other j hj]; simp [hj]
    · rw [hsel, hp.tsc_offset, hp2.tsc_offset, hp2.owner_eq]
      simp only [sched_begin_tsc_offset, sched_begin_sc, setLeft_owner, true_and]
      by_cases hsc : sel = (w.cpu id).current
      · rw [if_pos hsc, hsc, hp2.tsc]
      · rw [if_neg hsc, hp2.tsc_other sel hsc]; simp
    · rw [hp.ipi, hp2.ipi]; simp
    · rw [hsel]; exact hp.prev_sel
    · rw [hsel]; exact hp.next_sel
    · intro x hx hnq
      rw [hp.heap_other x (hxq x hx hnq _ hrq2.1),
        hp2.heap_other x hx (by simpa using hnq _ hv.2.2.2)]
      simp [hx]
    · intro h; cases h
    · intro x; rw [hp.owner_eq, hp2.owner_eq]; simp
    · intro x; rw [hp.cpu_eq, hp2.cpu_eq]; simp
    · intro x; rw [hp.prio_eq, hp2.prio_eq]; simp
    · intro x; rw [hp.full_eq, hp2.full_eq]; simp
    · intro _; rw [hp.tsc_eq, hp2.tsc]
    · intro x hx
      rcases hx with h | h
      · cases h
      · rw [hp.tsc_eq, hp2.tsc_other x h]; simp

theorem remote_enqueue_spec (cfg : Config) (id u now : Nat) (w : World) (m : List Nat)
    (hu0 : u ≠ 0) (hid : id ≠ (w.sc u).cpu)
    (hring : Ring w.sc (w.cpu (w.sc u).cpu).rq_queue m) (hum : u ∉ m) :
    ∃ w', remote_enqueue cfg id u now w = .ok w' ∧ PushPost u w m w' := by
  unfold remote_enqueue
  simp only [hu0, hid, if_false]
  cases m with
  | nil =>
    have hq : (w.cpu (w.sc u).cpu).rq_queue = 0 := hring.nil_iff.mpr rfl
    simp only [hq, ne_eq, not_true_eq_false, if_false]
    refine ⟨_, rfl, ?_⟩
    constructor
    · simp [Ring]
      apply Cyc.singleton hu0 <;> simp
    · simp
    · simp [hq]
    · intro j hj; simp [hj]
    · simp
    · intro x hx _; simp [hx]
    · intro x; simp
    · intro x; simp
    · intro x; simp
    · intro x; simp
    · intro x; simp
    · intro x; simp
  | cons h t =>
    have hhead : (w.cpu (w.sc u).cpu).rq_queue = h := hring.head_eq
    have hcyc := hring.1
    have hh0 : h ≠ 0 := hcyc.mem_ne_zero (by simp)
    obtain ⟨init, z, hl⟩ : ∃ init z, h :: t = init ++ [z] := by
      rcases List.eq_nil_or_concat (h :: t) with e | ⟨L, b, e⟩
      · simp at e
      · exact ⟨L, b, by simpa using e⟩
    obtain ⟨hph, hnz, -, -⟩ := Cyc.links hcyc hl
    have hzmem : z ∈ h :: t := by rw [hl]; simp
    have hz0 : z ≠ 0 := hcyc.mem_ne_zero hzmem
    have huh : u ≠ h := fun e => hum (by simp [e])
    have huz : u ≠ z := fun e => hum (e ▸ hzmem)
    simp only [hhead, hh0, ne_eq, not_false_eq_true, if_true]
    simp [hph, hz0, huh, huz, Ne.symm huh, Ne.symm huz]
    constructor
    · refine ⟨?_, by simp [hhead]⟩
      have : Cyc (setPrev (setNext (setPrev (setNext w.sc u h) u z) z u) h u) (h :: (t ++ [u])) := by
        apply Cyc.snoc hcyc hl hum hu0
        · simp [huz]
        · simp [huh]
        · simp
        · simp
        · intro x hx hxz
          have : x ≠ u := fun e => hum (e ▸ hx)
          simp [hxz, this]
        · intro x hx hxh
          have : x ≠ u := fun e => hum (e ▸ hx)
          simp [hxh, this]
      simpa using this
    · simp
    · simp
    · intro j hj; simp
    · simp
    · intro x hx hxm
      have hxh : x ≠ h := fun e => hxm (by simp [e])
      have hxz : x ≠ z := fun e => hxm (e ▸ hzmem)
      simp [hx, hxh, hxz]
    · intro x; simp
    · intro x; simp
    · intro x; simp
    · intro x; simp
    · intro x; simp
    · intro x; simp
theorem insertUnit_ne_nil (left u : Nat) (l : List Nat) : insertUnit left u l ≠ [] := by
  unfold insertUnit; split <;> simp

theorem mem_insertUnit {left u x : Nat} {l : List Nat} :
    x ∈ insertUnit left u l ↔ x = u ∨ x ∈ l := by
  unfold insertUnit
  split
  · simp [or_comm]
  · simp

theorem EnqPost.keeps_bound {cfg : Config} {id u now : Nat} {w w' : World} {q : Nat → List Nat}
    (hp : EnqPost cfg id u now w q w') (hb : TopBound cfg id w q) :
    TopBound cfg id w' (q_enq q (w.sc u).prio (w.sc u).left u) := by
  intro p hp1 hp2
  rw [hp.top] at hp2
  have hne : p ≠ (w.sc u).prio := by omega
  rw [q_enq, upd_other _ _ _ _ hne]
  exact hb p hp1 (by omega)

theorem EnqPost.keeps_tight {cfg : Config} {id u now : Nat} {w w' : World} {q : Nat → List Nat}
    (hp : EnqPost cfg id u now w q w') (ht : TopTight id w q) :
    TopTight id w' (q_enq q (w.sc u).prio (w.sc u).left u) := by
  unfold TopTight
  rw [hp.top]
  by_cases hc : (w.cpu id).prio_top ≤ (w.sc u).prio
  · left
    rw [Nat.max_eq_right hc, q_enq, upd_same]
    exact insertUnit_ne_nil _ _ _
  · have hm : max (w.cpu id).prio_top (w.sc u).prio = (w.cpu id).prio_top :=
      Nat.max_eq_left (by omega)
    have hne : (w.cpu id).prio_top ≠ (w.sc u).prio := by omega
    rw [hm, q_enq, upd_other _ _ _ _ hne]
    rcases ht with h | h
    · exact Or.inl h
    · omega

theorem q_drain_congr (sc sc' : Nat → Sc) (r : List Nat) :
    ∀ q, (∀ x ∈ r, (sc' x).prio = (sc x).prio ∧ (sc' x).left = (sc x).left) →
      q_drain sc' q r = q_drain sc q r := by
  induction r with
  | nil => intro q _; rfl
  | cons a t ih =>
    intro q h
    simp only [q_drain]
    rw [(h a (by simp)).1, (h a (by simp)).2]
    exact ih _ fun x hx => h x (by simp [hx])

theorem mem_q_enq {q : Nat → List Nat} {prio left u x p : Nat} :
    x ∈ q_enq q prio left u p ↔ (p = prio ∧ x = u) ∨ x ∈ q p := by
  unfold q_enq
  by_cases hp : p = prio
  · subst hp
    rw [upd_same, mem_insertUnit]
    simp
  · rw [upd_other _ _ _ _ hp]
    simp [hp]

theorem RqInv.same_on_queues {cfg : Config} {id : Nat} {w w' : World} {q : Nat → List Nat}
    (h : RqInv cfg id w q) (hl : (w'.cpu id).list = (w.cpu id).list)
    (ht : (w'.cpu id).prio_top = (w.cpu id).prio_top)
    (hs : ∀ p, p < cfg.priorities → ∀ x ∈ q p, w'.sc x = w.sc x) :
    RqInv cfg id w' q := by
  refine ⟨ht ▸ h.1, fun p hp => ?_⟩
  obtain ⟨⟨hc, hh⟩, hm⟩ := h.2 p hp
  refine ⟨⟨hc.frame fun x hx => by rw [hs p hp x hx]; exact ⟨rfl, rfl⟩, by rw [hl]; exact hh⟩,
    fun x hx => ?_⟩
  rw [hs p hp x hx]
  exact hm x hx

theorem rrq_loop_succ (cfg : Config) (id f ptr : Nat) (nows : Nat → Nat) (w : World)
    (h0 : ptr ≠ 0) (hn : (w.sc ptr).next ≠ 0) (hp : (w.sc ptr).prev ≠ 0) :
    rrq_loop cfg id (f + 1) ptr nows w =
      ready_enqueue cfg id ptr (nows 0) (rrq_unlink w ptr) >>= fun w1 =>
        rrq_loop cfg id f (rrq_next w ptr) (fun k => nows (k + 1)) w1 := by
  conv_lhs => unfold rrq_loop
  simp only [h0, hn, if_false, setPrev_prev, setPrev_next, ite_self, hp, setNext_next]
  rfl

theorem rrq_unlink_spec (cfg : Config) (id ptr : Nat) (rest : List Nat) (w : World)
    (q : Nat → List Nat) (hinv : RqInv cfg id w q) (hring : Ring w.sc ptr (ptr :: rest))
    (hdis : ∀ x ∈ ptr :: rest, ∀ p, p < cfg.priorities → x ∉ q p) :
    RqInv cfg id (rrq_unlink w ptr) q ∧
      Cyc (rrq_unlink w ptr).sc rest ∧ rest.head?.getD 0 = rrq_next w ptr ∧
      (∀ x, x ∉ ptr :: rest → (rrq_unlink w ptr).sc x = w.sc x) ∧
      (∀ x, ((rrq_unlink w ptr).sc x).owner = (w.sc x).owner ∧
        ((rrq_unlink w ptr).sc x).cpu = (w.sc x).cpu ∧
        ((rrq_unlink w ptr).sc x).prio = (w.sc x).prio ∧
        ((rrq_unlink w ptr).sc x).full = (w.sc x).full ∧
        ((rrq_unlink w ptr).sc x).left = (w.sc x).left ∧
        ((rrq_unlink w ptr).sc x).tsc = (w.sc x).tsc) := by
  have hcyc := hring.1
  have hnm : (w.sc ptr).next ∈ ptr :: rest := hcyc.next_mem (by simp)
  have hpm : (w.sc ptr).prev ∈ ptr :: rest := hcyc.prev_mem (by simp)
  have hprest : ptr ∉ rest := (List.nodup_cons.mp hcyc.1).1
  have hsame : ∀ x, x ∉ ptr :: rest → (rrq_unlink w ptr).sc x = w.sc x := by
    intro x hx
    have h1 : x ≠ (w.sc ptr).next := fun e => hx (e ▸ hnm)
    have h2 : x ≠ (w.sc ptr).prev := fun e => hx (e ▸ hpm)
    simp [rrq_unlink, h1, h2]
  have hrq : RqInv cfg id (rrq_unlink w ptr) q := by
    apply hinv.same_on_queues
    · rfl
    · rfl
    · intro p hp x hx
      exact hsame x fun hxr => hdis x hxr p hp hx
  have hch : Cyc (rrq_unlink w ptr).sc rest ∧ rest.head?.getD 0 = rrq_next w ptr := by
    cases hrest : rest with
    | nil =>
      rw [hrest] at hcyc
      have : (w.sc ptr).next = ptr := by simpa using hcyc.2.2.1
      simp [rrq_next, this, Cyc.nil]
    | cons n r' =>
      rw [hrest] at hcyc hprest
      obtain ⟨init, p, hl⟩ : ∃ init p, n :: r' = init ++ [p] := by
        rcases List.eq_nil_or_concat (n :: r') with e | ⟨L, c, e⟩
        · simp at e
        · exact ⟨L, c, by simpa using e⟩
      obtain ⟨hnext, hprev⟩ := Cyc.head_links hcyc hl
      have hnp : n ≠ ptr := fun e => hprest (by simp [e])
      refine ⟨?_, by simp [rrq_next, hnext, hnp]⟩
      apply Cyc.tail hcyc hl
      · simp [rrq_unlink, hnext, hprev]
      · simp [rrq_unlink, hnext, hprev]
      · intro x hx hxp
        simp [rrq_unlink, hprev, hxp]
      · intro x hx hxn
        simp [rrq_unlink, hnext, hxn]
  exact ⟨hrq, hch.1, hch.2, hsame, fun x => by simp [rrq_unlink]⟩

theorem rrq_enqueue_spec (cfg : Config) (id ptr now : Nat) (rest : List Nat) (w w1 : World)
    (q : Nat → List Nat) (hinv : RqInv cfg id w q) (hring : Ring w.sc ptr (ptr :: rest))
    (hdis : ∀ x ∈ ptr :: rest, (w.sc x).cpu = id ∧ ∀ p, p < cfg.priorities → x ∉ q p)
    (hp1 : EnqPost cfg id ptr now (rrq_unlink w ptr) q w1) :
    RqInv cfg id w1 (q_enq q (w.sc ptr).prio (w.sc ptr).left ptr) ∧
      Ring w1.sc (rrq_next w ptr) rest ∧
      (∀ x ∈ rest, (w1.sc x).cpu = id ∧
        ∀ p, p < cfg.priorities → x ∉ q_enq q (w.sc ptr).prio (w.sc ptr).left ptr p) ∧
      (∀ x ∈ rest, (w1.sc x).prio = (w.sc x).prio ∧ (w1.sc x).left = (w.sc x).left) := by
  obtain ⟨-, hc2, hhead, -, hfield⟩ := rrq_unlink_spec cfg id ptr rest w q hinv hring
    (fun x hx => (hdis x hx).2)
  have hprest : ptr ∉ rest := (List.nodup_cons.mp hring.1.1).1
  have hpp : (w.sc ptr).prio < cfg.priorities := by
    have := hp1.rq.2
    by_contra hlt
    have h1 := hp1.rq.1
    rw [hp1.top, (hfield ptr).2.2.1] at h1
    omega
  refine ⟨?_, ⟨hc2.frame fun x hx => ?_, hhead⟩, ?_, ?_⟩
  · have := hp1.rq
    rw [(hfield ptr).2.2.1, (hfield ptr).2.2.2.2.1] at this
    exact this
  · have hxp : x ≠ ptr := fun e => hprest (e ▸ hx)
    have hxq : x ∉ q ((rrq_unlink w ptr).sc ptr).prio := by
      rw [(hfield ptr).2.2.1]
      exact (hdis x (by simp [hx])).2 _ hpp
    rw [hp1.heap_other x hxp hxq]
    exact ⟨rfl, rfl⟩
  · intro x hx
    refine ⟨by rw [hp1.cpu_eq, (hfield x).2.1]; exact (hdis x (by simp [hx])).1, ?_⟩
    intro p hp hm
    rcases mem_q_enq.mp hm with ⟨-, e⟩ | h
    · exact hprest (e ▸ hx)
    · exact (hdis x (by simp [hx])).2 p hp h
  · intro x hx
    have hxp : x ≠ ptr := fun e => hprest (e ▸ hx)
    exact ⟨by rw [hp1.prio_eq, (hfield x).2.2.1],
      by rw [hp1.left_other x hxp, (hfield x).2.2.2.2.1]⟩
theorem bind_ok_iff {α β : Type} (x : Except Fault α) (f : α → Except Fault β) (b : β) :
    (x >>= f) = .ok b ↔ ∃ a, x = .ok a ∧ f a = .ok b := by
  cases x with
  | error e => simp [bind, Except.bind]
  | ok a => simp [bind, Except.bind]

theorem rrq_loop_spec (cfg : Config) (id : Nat) :
    ∀ (r : List Nat) (fuel ptr : Nat) (nows : Nat → Nat) (w : World) (q : Nat → List Nat),
      r.length ≤ fuel → RqInv cfg id w q → Ring w.sc ptr r →
      (∀ x ∈ r, ValidUnit cfg id w x ∧ ∀ p, p < cfg.priorities → x ∉ q p) →
      (r ≠ [] → (w.cpu id).current ≠ 0) →
      ∃ w', rrq_loop cfg id fuel ptr nows w = .ok w' ∧ DrainPost cfg id w q r w' := by
  intro r
  induction r with
  | nil =>
    intro fuel ptr nows w q _ hinv hring _ _
    have hp0 : ptr = 0 := hring.nil_iff.mpr rfl
    refine ⟨w, by cases fuel <;> simp [rrq_loop, hp0], ?_⟩
    constructor
    all_goals first
      | exact hinv
      | exact fun h => h
      | rfl
      | (intros; rfl)
      | (intro x hx; cases hx)
  | cons a rest ih =>
    intro fuel ptr nows w q hfuel hinv hring hval hcur'
    have hcur := hcur' (by simp)
    obtain ⟨f, rfl⟩ : ∃ f, fuel = f + 1 := ⟨fuel - 1, by simp at hfuel; omega⟩
    have hpa : ptr = a := hring.head_eq
    subst hpa
    have hcyc := hring.1
    have hprest : ptr ∉ rest := (List.nodup_cons.mp hcyc.1).1
    rw [rrq_loop_succ cfg id f ptr nows w (hcyc.mem_ne_zero (by simp))
      (hcyc.mem_ne_zero (hcyc.next_mem (by simp))) (hcyc.mem_ne_zero (hcyc.prev_mem (by simp)))]
    obtain ⟨hinvm, -, -, hsame, hfield⟩ := rrq_unlink_spec cfg id ptr rest w q hinv hring
      (fun x hx => (hval x hx).2)
    have hvp := (hval ptr (by simp)).1
    have hvm : ValidUnit cfg id (rrq_unlink w ptr) ptr := by
      obtain ⟨h1, h2, h3, h4⟩ := hvp
      exact ⟨h1, h2, by rw [(hfield ptr).2.1]; exact h3, by rw [(hfield ptr).2.2.1]; exact h4⟩
    have hnlm : ptr ∉ q ((rrq_unlink w ptr).sc ptr).prio := by
      rw [(hfield ptr).2.2.1]
      exact (hval ptr (by simp)).2 _ hvp.2.2.2
    obtain ⟨w1, hok1, hp1⟩ := ready_enqueue_spec cfg id ptr (nows 0) (rrq_unlink w ptr) q hinvm
      hvm hnlm hcur
    obtain ⟨hrq1, hring1, hdis1, hpl1⟩ := rrq_enqueue_spec cfg id ptr (nows 0) rest w w1 q hinv
      hring (fun x hx => ⟨(hval x hx).1.2.2.1, (hval x hx).2⟩) hp1
    have hval1 : ∀ x ∈ rest, ValidUnit cfg id w1 x ∧
        ∀ p, p < cfg.priorities → x ∉ q_enq q (w.sc ptr).prio (w.sc ptr).left ptr p := by
      intro x hx
      obtain ⟨h1, h2, -, h4⟩ := (hval x (by simp [hx])).1
      exact ⟨⟨h1, h2, (hdis1 x hx).1, by rw [(hpl1 x hx).1]; exact h4⟩, (hdis1 x hx).2⟩
    have hcur1 : (w1.cpu id).current ≠ 0 := by rw [hp1.current]; exact hcur
    obtain ⟨w', hok', hp'⟩ := ih f _ (fun k => nows (k + 1)) w1 _ (by simp at hfuel; omega)
      hrq1 hring1 hval1 (fun _ => hcur1)
    refine ⟨w', by simp only [hok1, bind, Except.bind]; exact hok', ?_⟩
    have hqd : q_drain w1.sc (q_enq q (w.sc ptr).prio (w.sc ptr).left ptr) rest =
        q_drain w.sc q (ptr :: rest) := by
      simp only [q_drain]
      exact q_drain_congr _ _ _ _ hpl1
    have hwm_cpu : (rrq_unlink w ptr).cpu = w.cpu := rfl
    have hwm_off : (rrq_unlink w ptr).tsc_offset = w.tsc_offset := rfl
    have hwm_ipi : (rrq_unlink w ptr).ipi = w.ipi := rfl
    have hb1 : TopBound cfg id w q →
        TopBound cfg id w1 (q_enq q (w.sc ptr).prio (w.sc ptr).left ptr) := by
      intro hb
      have := hp1.keeps_bound (fun p h1 h2 => hb p h1 h2)
      rwa [(hfield ptr).2.2.1, (hfield ptr).2.2.2.2.1] at this
    have ht1 : TopTight id w q →
        TopTight id w1 (q_enq q (w.sc ptr).prio (w.sc ptr).left ptr) := by
      intro ht
      have := hp1.keeps_tight (w := rrq_unlink w ptr) ht
      rwa [(hfield ptr).2.2.1, (hfield ptr).2.2.2.2.1] at this
    constructor
    · rw [← hqd]; exact hp'.rq
    · intro hb; rw [← hqd]; exact hp'.bound (hb1 hb)
    · intro ht; rw [← hqd]; exact hp'.tight (ht1 ht)
    · rw [hp'.current, hp1.current, hwm_cpu]
    · rw [hp'.ctr_loop, hp1.ctr_loop, hwm_cpu]
    · rw [hp'.rq_queue, hp1.rq_queue, hwm_cpu]
    · rw [hp'.timer, hp1.timer, hwm_cpu]
    · rw [hp'.active, hp1.active, hwm_cpu]
    · rw [hp'.counter, hp1.counter, hwm_cpu]
    · intro j hj; rw [hp'.cpu_other j hj, hp1.cpu_other j hj, hwm_cpu]
    · rw [hp'.tsc_offset, hp1.tsc_offset, hwm_off]
    · rw [hp'.ipi, hp1.ipi, hwm_ipi]
    · intro x hx hxq
      have hxp : x ≠ ptr := fun e => hx (by simp [e])
      have hxr : x ∉ rest := fun h => hx (by simp [h])
      rw [hp'.heap_other x hxr (fun p hp hm => by
          rcases mem_q_enq.mp hm with ⟨-, e⟩ | h
          · exact hxp e
          · exact hxq p hp h),
        hp1.heap_other x hxp (hxq _ hvm.2.2.2), hsame x hx]
    · intro x; rw [hp'.owner_eq, hp1.owner_eq, (hfield x).1]
    · intro x; rw [hp'.cpu_eq, hp1.cpu_eq, (hfield x).2.1]
    · intro x; rw [hp'.prio_eq, hp1.prio_eq, (hfield x).2.2.1]
    · intro x; rw [hp'.full_eq, hp1.full_eq, (hfield x).2.2.2.1]
    · intro x hx
      by_cases hxp : x = ptr
      · subst hxp
        rw [hp'.left_other x hprest, hp1.left, (hfield x).2.2.2.2.1, (hfield x).2.2.2.1]
      · have hxr : x ∈ rest := by
          rcases List.mem_cons.mp hx with h | h
          · exact absurd h hxp
          · exact h
        rw [hp'.left x hxr, hp1.left_other x hxp, hp1.full_eq, (hfield x).2.2.2.2.1,
          (hfield x).2.2.2.1]
    · intro x hx
      have hxp : x ≠ ptr := fun e => hx (by simp [e])
      have hxr : x ∉ rest := fun h => hx (by simp [h])
      rw [hp'.left_other x hxr, hp1.left_other x hxp, (hfield x).2.2.2.2.1]
    · intro x hx
      have hxp : x ≠ ptr := fun e => hx (by simp [e])
      have hxr : x ∉ rest := fun h => hx (by simp [h])
      rw [hp'.tsc_other x hxr, hp1.tsc_other x hxp, (hfield x).2.2.2.2.2]

theorem rrq_loop_ok (cfg : Config) (id : Nat) :
    ∀ (r : List Nat) (fuel ptr : Nat) (nows : Nat → Nat) (w w' : World) (q : Nat → List Nat),
      RqInv cfg id w q → Ring w.sc ptr r →
      (∀ x ∈ r, (w.sc x).cpu = id ∧ ∀ p, p < cfg.priorities → x ∉ q p) →
      rrq_loop cfg id fuel ptr nows w = .ok w' →
      r.length ≤ fuel ∧ (∀ x ∈ r, ValidUnit cfg id w x) ∧
        (r ≠ [] → (w.cpu id).current ≠ 0) := by
  intro r
  induction r with
  | nil => intro fuel ptr nows w w' q _ _ _ _; simp
  | cons a rest ih =>
    intro fuel ptr nows w w' q hinv hring hdis hok
    have hpa : ptr = a := hring.head_eq
    subst hpa
    have hcyc := hring.1
    have hp0 : ptr ≠ 0 := hcyc.mem_ne_zero (by simp)
    cases fuel with
    | zero => simp [rrq_loop, hp0] at hok
    | succ f =>
      rw [rrq_loop_succ cfg id f ptr nows w hp0
        (hcyc.mem_ne_zero (hcyc.next_mem (by simp)))
        (hcyc.mem_ne_zero (hcyc.prev_mem (by simp))), bind_ok_iff] at hok
      obtain ⟨w1, hok1, hok2⟩ := hok
      obtain ⟨hvm, hcurm, -, -⟩ := ready_enqueue_ok cfg id ptr (nows 0) _ w1 hok1
      obtain ⟨hinvm, -, -, hsame, hfield⟩ := rrq_unlink_spec cfg id ptr rest w q hinv hring
        (fun x hx => (hdis x hx).2)
      have hvp : ValidUnit cfg id w ptr := by
        obtain ⟨h1, h2, h3, h4⟩ := hvm
        exact ⟨h1, h2, by rw [← (hfield ptr).2.1]; exact h3, by rw [← (hfield ptr).2.2.1]; exact h4⟩
      have hnlm : ptr ∉ q ((rrq_unlink w ptr).sc ptr).prio := by
        rw [(hfield ptr).2.2.1]
        exact (hdis ptr (by simp)).2 _ hvp.2.2.2
      obtain ⟨w1', hok1', hp1⟩ := ready_enqueue_spec cfg id ptr (nows 0) (rrq_unlink w ptr) q
        hinvm hvm hnlm hcurm
      have hw1 : w1' = w1 := by
        rw [hok1] at hok1'
        exact (Except.ok.inj hok1').symm
      subst hw1
      obtain ⟨hrq1, hring1, hdis1, hpl1⟩ := rrq_enqueue_spec cfg id ptr (nows 0) rest w w1' q
        hinv hring hdis hp1
      obtain ⟨hlen, hvalid, -⟩ := ih f _ _ w1' w' _ hrq1 hring1 hdis1 hok2
      refine ⟨by simp; omega, ?_, fun _ => hcurm⟩
      intro x hx
      rcases List.mem_cons.mp hx with e | hxr
      · rw [e]; exact hvp
      · obtain ⟨h1, h2, -, h4⟩ := hvalid x hxr
        exact ⟨h1, h2, (hdis x hx).1, by rw [← (hpl1 x hxr).1]; exact h4⟩

theorem mem_q_drain_of_mem (sc : Nat → Sc) (r : List Nat) :
    ∀ (q : Nat → List Nat) (x p : Nat), x ∈ q p → x ∈ q_drain sc q r p := by
  induction r with
  | nil => intro q x p h; exact h
  | cons a t ih =>
    intro q x p h
    exact ih _ x p (mem_q_enq.mpr (Or.inr h))

theorem mem_q_drain (sc : Nat → Sc) (r : List Nat) :
    ∀ (q : Nat → List Nat) (u : Nat), u ∈ r → u ∈ q_drain sc q r (sc u).prio := by
  induction r with
  | nil => intro q u h; cases h
  | cons a t ih =>
    intro q u h
    rcases List.mem_cons.mp h with e | h'
    · subst e
      exact mem_q_drain_of_mem sc t _ u _ (mem_q_enq.mpr (Or.inl ⟨rfl, rfl⟩))
    · exact ih _ u h'

theorem push_all_spec (cfg : Config) (t : Nat) :
    ∀ (ps : List (Nat × Nat × Nat)) (w : World) (m : List Nat),
      Ring w.sc (w.cpu t).rq_queue m → (m ++ ps.map (·.2.1)).Nodup →
      (∀ p ∈ ps, p.1 ≠ t ∧ p.2.1 ≠ 0 ∧ (w.sc p.2.1).cpu = t) →
      ∃ w1, push_all cfg ps w = .ok w1 ∧
        Ring w1.sc (w1.cpu t).rq_queue (m ++ ps.map (·.2.1)) ∧
        w1.ipi = (if m = [] ∧ ps ≠ [] then (t, Vector.VEC_IPI_RRQ) :: w.ipi else w.ipi) ∧
        (∀ x, x ∉ ps.map (·.2.1) → x ∉ m → w1.sc x = w.sc x) ∧
        (∀ x, (w1.sc x).owner = (w.sc x).owner ∧ (w1.sc x).cpu = (w.sc x).cpu ∧
          (w1.sc x).prio = (w.sc x).prio ∧ (w1.sc x).full = (w.sc x).full ∧
          (w1.sc x).left = (w.sc x).left ∧ (w1.sc x).tsc = (w.sc x).tsc) ∧
        (∃ rq, w1.cpu t = { w.cpu t with rq_queue := rq }) ∧
        (∀ j, j ≠ t → w1.cpu j = w.cpu j) ∧ w1.tsc_offset = w.tsc_offset := by
  intro ps
  induction ps with
  | nil =>
    intro w m hring _ _
    exact ⟨w, rfl, by simpa using hring, by simp, fun _ _ _ => rfl,
      fun _ => ⟨rfl, rfl, rfl, rfl, rfl, rfl⟩, ⟨_, rfl⟩, fun _ _ => rfl, rfl⟩
  | cons p r ih =>
    intro w m hring hnd hval
    obtain ⟨hp1, hp2, hp3⟩ := hval p (by simp)
    have hpm : p.2.1 ∉ m := by
      intro h
      exact (List.nodup_append.mp hnd).2.2 h (by simp)
    obtain ⟨w0, hok0, hpost⟩ := remote_enqueue_spec cfg p.1 p.2.1 p.2.2 w m hp2
      (by rw [hp3]; exact hp1) (by rw [hp3]; exact hring) hpm
    have hring0 : Ring w0.sc (w0.cpu t).rq_queue (m ++ [p.2.1]) := by
      have := hpost.ring
      rwa [hp3] at this
    obtain ⟨w1, hok1, hr1, hipi1, hheap1, hfield1, hcpu1, hother1, hoff1⟩ := ih w0 (m ++ [p.2.1])
      hring0 (by simpa using hnd)
      (fun p' hp' => by
        obtain ⟨h1, h2, h3⟩ := hval p' (by simp [hp'])
        exact ⟨h1, h2, by rw [hpost.cpu_eq]; exact h3⟩)
    refine ⟨w1, by simp only [push_all, hok0, bind, Except.bind]; exact hok1, by simpa using hr1,
      ?_, ?_, ?_, ?_, ?_, by rw [hoff1, hpost.tsc_offset]⟩
    · rw [hipi1, hpost.ipi, hp3]
      by_cases hm : m = []
      · simp [hm]
      · simp [hm]
    · intro x hx hxm
      simp only [List.map_cons, List.mem_cons, not_or] at hx
      rw [hheap1 x hx.2 (by simp [hxm, hx.1]), hpost.heap_other x hx.1 hxm]
    · intro x
      obtain ⟨h1, h2, h3, h4, h5, h6⟩ := hfield1 x
      exact ⟨by rw [h1, hpost.owner_eq], by rw [h2, hpost.cpu_eq], by rw [h3, hpost.prio_eq],
        by rw [h4, hpost.full_eq], by rw [h5, hpost.left_eq], by rw [h6, hpost.tsc_eq]⟩
    · obtain ⟨rq, hrq⟩ := hcpu1
      have := hpost.cpu_home
      rw [hp3] at this
      exact ⟨rq, by rw [hrq, this]⟩
    · intro j hj
      rw [hother1 j hj, hpost.cpu_other j (by rw [hp3]; exact hj)]

theorem upd_self {α : Type} (f : Nat → α) (a : Nat) : upd f a (f a) = f := by
  funext x
  unfold upd
  split
  · next h => rw [h]
  · rfl

theorem RqInv.same_links {cfg : Config} {id : Nat} {w w' : World} {q : Nat → List Nat}
    (h : RqInv cfg id w q) (hl : (w'.cpu id).list = (w.cpu id).list)
    (ht : (w'.cpu id).prio_top = (w.cpu id).prio_top)
    (hs : ∀ p, p < cfg.priorities → ∀ x ∈ q p,
      (w'.sc x).next = (w.sc x).next ∧ (w'.sc x).prev = (w.sc x).prev ∧
      (w'.sc x).prio = (w.sc x).prio ∧ (w'.sc x).cpu = (w.sc x).cpu) :
    RqInv cfg id w' q := by
  refine ⟨ht ▸ h.1, fun p hp => ?_⟩
  obtain ⟨⟨hc, hh⟩, hm⟩ := h.2 p hp
  refine ⟨⟨hc.frame fun x hx => ⟨(hs p hp x hx).1, (hs p hp x hx).2.1⟩, by rw [hl]; exact hh⟩,
    fun x hx => ?_⟩
  rw [(hs p hp x hx).2.2.1, (hs p hp x hx).2.2.2]
  exact hm x hx

theorem RqInv.mem_facts {cfg : Config} {id : Nat} {w : World} {q : Nat → List Nat}
    (h : RqInv cfg id w q) {p x : Nat} (hp : p < cfg.priorities) (hx : x ∈ q p) :
    x ≠ 0 ∧ (w.sc x).prio = p ∧ (w.sc x).cpu = id ∧ (w.sc x).prev ≠ 0 ∧ (w.sc x).next ≠ 0 := by
  obtain ⟨⟨hc, -⟩, hm⟩ := h.2 p hp
  exact ⟨hc.mem_ne_zero hx, (hm x hx).1, (hm x hx).2, hc.mem_ne_zero (hc.prev_mem hx),
    hc.mem_ne_zero (hc.next_mem hx)⟩

theorem GInv.not_queued {cfg : Config} {w : World} {a : Queues} (h : GInv cfg w a) {u : Nat}
    (hu : u ≠ 0) (hp : (w.sc u).prev = 0) :
    (∀ id p, p < cfg.priorities → u ∉ a.q id p) ∧ ∀ id, u ∉ a.m id := by
  have hnq := (h.links u hu).mp hp
  exact ⟨fun id p hp hm => hnq (Or.inl ⟨id, p, hp, hm⟩), fun id hm => hnq (Or.inr ⟨id, hm⟩)⟩

theorem links_of_rings {cfg : Config} {w : World} {a : Queues}
    (hrq : ∀ id, RqInv cfg id w (a.q id)) (hm : ∀ id, Ring w.sc (w.cpu id).rq_queue (a.m id))
    (h : ∀ u, u ≠ 0 → ¬ Queued cfg a u → (w.sc u).prev = 0) :
    ∀ u, u ≠ 0 → ((w.sc u).prev = 0 ↔ ¬ Queued cfg a u) := by
  intro u hu
  refine ⟨fun hp hq => ?_, h u hu⟩
  rcases hq with ⟨id, p, hp1, hmem⟩ | ⟨id, hmem⟩
  · exact ((hrq id).mem_facts hp1 hmem).2.2.2.1 hp
  · exact (hm id).1.mem_ne_zero ((hm id).1.prev_mem hmem) hp

theorem GInv.update_cpu {cfg : Config} {w : World} {a : Queues} (h : GInv cfg w a) (w' : World)
    (id : Nat)
    (qn : Nat → List Nat) (mn : List Nat)
    (hrq : RqInv cfg id w' qn) (hb : TopBound cfg id w' qn) (ht : TopTight id w' qn)
    (hmb : Ring w'.sc (w'.cpu id).rq_queue mn)
    (hmcpu : ∀ x ∈ mn, (w'.sc x).cpu = id)
    (hdisj : ∀ x ∈ mn, ∀ p, p < cfg.priorities → x ∉ qn p)
    (hcpu : ∀ j, j ≠ id → w'.cpu j = w.cpu j)
    (hq : ∀ j, j ≠ id → ∀ p, p < cfg.priorities → ∀ x ∈ a.q j p,
      (w'.sc x).next = (w.sc x).next ∧ (w'.sc x).prev = (w.sc x).prev ∧
      (w'.sc x).prio = (w.sc x).prio ∧ (w'.sc x).cpu = (w.sc x).cpu)
    (hm : ∀ j, j ≠ id → ∀ x ∈ a.m j,
      (w'.sc x).next = (w.sc x).next ∧ (w'.sc x).prev = (w.sc x).prev ∧
      (w'.sc x).cpu = (w.sc x).cpu)
    (hl : ∀ u, u ≠ 0 → ¬ Queued cfg ⟨upd a.q id qn, upd a.m id mn⟩ u → (w'.sc u).prev = 0) :
    GInv cfg w' ⟨upd a.q id qn, upd a.m id mn⟩ := by
  have hrq' : ∀ j, RqInv cfg j w' (upd a.q id qn j) := by
    intro j
    by_cases hj : j = id
    · subst hj; rw [upd_same]; exact hrq
    · rw [upd_other _ _ _ _ hj]
      exact (h.rq j).same_links (by rw [hcpu j hj]) (by rw [hcpu j hj]) (hq j hj)
  have hmb' : ∀ j, Ring w'.sc (w'.cpu j).rq_queue (upd a.m id mn j) := by
    intro j
    by_cases hj : j = id
    · subst hj; rw [upd_same]; exact hmb
    · rw [upd_other _ _ _ _ hj, hcpu j hj]
      exact ⟨(h.mbox j).1.frame fun x hx => ⟨(hm j hj x hx).1, (hm j hj x hx).2.1⟩, (h.mbox j).2⟩
  constructor
  · exact hrq'
  · intro j
    by_cases hj : j = id
    · subst hj; simp only [upd_same]; exact hb
    · simp only [upd_other _ _ _ _ hj]
      intro p hp1 hp2
      rw [hcpu j hj] at hp2
      exact h.bound j p hp1 hp2
  · intro j
    by_cases hj : j = id
    · subst hj; simp only [upd_same]; exact ht
    · simp only [upd_other _ _ _ _ hj]
      have := h.tight j
      unfold TopTight at this ⊢
      rw [hcpu j hj]; exact this
  · exact hmb'
  · intro j x hx
    by_cases hj : j = id
    · subst hj; simp only [upd_same] at hx; exact hmcpu x hx
    · simp only [upd_other _ _ _ _ hj] at hx
      rw [(hm j hj x hx).2.2]; exact h.mbox_cpu j x hx
  · intro j x hx p hp
    by_cases hj : j = id
    · subst hj; simp only [upd_same] at hx ⊢; exact hdisj x hx p hp
    · simp only [upd_other _ _ _ _ hj] at hx ⊢; exact h.disj j x hx p hp
  · exact links_of_rings hrq' hmb' hl
theorem GInv.enqueue {cfg : Config} {w w' : World} {a : Queues} (h : GInv cfg w a)
    (id u now : Nat) (hleg : (w.sc u).prev = 0)
    (hok : ready_enqueue cfg id u now w = .ok w') :
    EnqPost cfg id u now w (a.q id) w' ∧
      GInv cfg w' ⟨upd a.q id (q_enq (a.q id) (w.sc u).prio (w.sc u).left u), a.m⟩ := by
  obtain ⟨hv, hcur, -, -⟩ := ready_enqueue_ok cfg id u now w w' hok
  obtain ⟨hnq, hnm⟩ := h.not_queued hv.1 hleg
  obtain ⟨w'', hok', hp⟩ := ready_enqueue_spec cfg id u now w (a.q id) (h.rq id) hv
    (hnq id _ hv.2.2.2) hcur
  have hw : w'' = w' := by rw [hok] at hok'; exact (Except.ok.inj hok').symm
  subst hw
  refine ⟨hp, ?_⟩
  have hother : ∀ x, x ≠ u → (w.sc x).cpu ≠ id ∨ x ∉ a.q id (w.sc u).prio → w''.sc x = w.sc x := by
    intro x hx hc
    apply hp.heap_other x hx
    rcases hc with hc | hc
    · intro hm
      exact hc ((h.rq id).mem_facts hv.2.2.2 hm).2.2.1
    · exact hc
  have := h.update_cpu w'' id (q_enq (a.q id) (w.sc u).prio (w.sc u).left u) (a.m id)
    hp.rq (hp.keeps_bound (h.bound id)) (hp.keeps_tight (h.tight id))
    (by
      rw [hp.rq_queue]
      refine ⟨(h.mbox id).1.frame fun x hx => ?_, (h.mbox id).2⟩
      have hxu : x ≠ u := fun e => hnm id (e ▸ hx)
      rw [hother x hxu (Or.inr (h.disj id x hx _ hv.2.2.2))]
      exact ⟨rfl, rfl⟩)
    (fun x hx => by rw [hp.cpu_eq]; exact h.mbox_cpu id x hx)
    (fun x hx p hp1 hm => by
      rcases mem_q_enq.mp hm with ⟨-, e⟩ | hm'
      · exact hnm id (e ▸ hx)
      · exact h.disj id x hx p hp1 hm')
    hp.cpu_other
    (fun j hj p hp1 x hx => by
      have hxu : x ≠ u := fun e => hnq j p hp1 (e ▸ hx)
      have hxc : (w.sc x).cpu ≠ id := by
        rw [((h.rq j).mem_facts hp1 hx).2.2.1]; exact hj
      rw [hother x hxu (Or.inl hxc)]
      exact ⟨rfl, rfl, rfl, rfl⟩)
    (fun j hj x hx => by
      have hxu : x ≠ u := fun e => hnm j (e ▸ hx)
      have hxc : (w.sc x).cpu ≠ id := by rw [h.mbox_cpu j x hx]; exact hj
      rw [hother x hxu (Or.inl hxc)]
      exact ⟨rfl, rfl, rfl⟩)
    (fun x hx0 hxq => by
      have hxu : x ≠ u := by
        intro e
        exact hxq (Or.inl ⟨id, (w.sc u).prio, hv.2.2.2, by
          simp only [upd_same]; exact mem_q_enq.mpr (Or.inl ⟨rfl, e⟩)⟩)
      have hold : ¬ Queued cfg a x := by
        intro hq
        apply hxq
        rcases hq with ⟨j, p, hp1, hm⟩ | ⟨j, hm⟩
        · refine Or.inl ⟨j, p, hp1, ?_⟩
          by_cases hj : j = id
          · subst hj; simp only [upd_same]; exact mem_q_enq.mpr (Or.inr hm)
          · simp only [upd_other _ _ _ _ hj]; exact hm
        · refine Or.inr ⟨j, ?_⟩
          by_cases hj : j = id
          · subst hj; simp only [upd_same]; exact hm
          · simp only [upd_other _ _ _ _ hj]; exact hm
      have hprev := (h.links x hx0).mpr hold
      rw [hother x hxu (Or.inr fun hm => hold (Or.inl ⟨id, _, hv.2.2.2, hm⟩))]
      exact hprev)
  rwa [upd_self] at this
theorem ready_dequeue_ok (cfg : Config) (id u now : Nat) (w w' : World)
    (h : ready_dequeue cfg id u now w = .ok w') :
    u ≠ 0 ∧ (w.sc u).prio < cfg.priorities ∧ (w.sc u).cpu = id := by
  unfold ready_dequeue at h
  by_cases h1 : u = 0
  · simp [h1] at h
  by_cases h2 : (w.sc u).prio < cfg.priorities
  swap
  · simp [h1, h2] at h
  by_cases h3 : (w.sc u).cpu = id
  swap
  · simp [h1, h2, h3] at h
  exact ⟨h1, h2, h3⟩

theorem DeqPost.restores_bound {cfg : Config} {id u now : Nat} {w w' : World} {q : Nat → List Nat}
    (hp : DeqPost cfg id u now w q w') (hb : TopBound cfg id w q) :
    TopBound cfg id w' (q_deq q (w.sc u).prio u) := by
  intro p hp1 hp2
  by_cases hpt : (w.cpu id).prio_top < p
  · have hq := hb p hp1 hpt
    unfold q_deq
    by_cases hpe : p = (w.sc u).prio
    · subst hpe; rw [upd_same, hq]; rfl
    · rw [upd_other _ _ _ _ hpe]; exact hq
  · have h0 : (w'.cpu id).list p = 0 := by
      rw [hp.top] at hp2
      exact scan_top_above _ _ p hp2 (by omega)
    exact (hp.rq.2 p hp1).1.nil_iff.mp h0

theorem DeqPost.restores_tight {cfg : Config} {id u now : Nat} {w w' : World} {q : Nat → List Nat}
    (hp : DeqPost cfg id u now w q w') : TopTight id w' (q_deq q (w.sc u).prio u) := by
  unfold TopTight
  rcases scan_top_found (w'.cpu id).list (w.cpu id).prio_top with h | h
  · left
    rw [← hp.top] at h
    intro he
    exact h ((hp.rq.2 _ hp.rq.1).1.nil_iff.mpr he)
  · right
    rw [hp.top]; exact h

theorem mem_q_deq {q : Nat → List Nat} {prio u x p : Nat} (h : x ∈ q_deq q prio u p) :
    x ∈ q p := by
  unfold q_deq at h
  by_cases hp : p = prio
  · subst hp
    rw [upd_same] at h
    exact List.mem_of_mem_erase h
  · rwa [upd_other _ _ _ _ hp] at h

theorem mem_q_deq_of_ne {q : Nat → List Nat} {prio u x p : Nat} (h : x ∈ q p) (hx : x ≠ u) :
    x ∈ q_deq q prio u p := by
  unfold q_deq
  by_cases hp : p = prio
  · subst hp
    rw [upd_same]
    exact (List.mem_erase_of_ne hx).mpr h
  · rwa [upd_other _ _ _ _ hp]

theorem GInv.dequeue {cfg : Config} {w w' : World} {a : Queues} (h : GInv cfg w a)
    (id u now : Nat) (hleg : u ∈ a.q id (w.sc u).prio)
    (hok : ready_dequeue cfg id u now w = .ok w') :
    DeqPost cfg id u now w (a.q id) w' ∧
      GInv cfg w' ⟨upd a.q id (q_deq (a.q id) (w.sc u).prio u), a.m⟩ := by
  obtain ⟨hu0, hprio, hcpu⟩ := ready_dequeue_ok cfg id u now w w' hok
  obtain ⟨w'', hok', hp⟩ := ready_dequeue_spec cfg id u now w (a.q id) (h.rq id) hprio hleg
  have hw : w'' = w' := by rw [hok] at hok'; exact (Except.ok.inj hok').symm
  subst hw
  refine ⟨hp, ?_⟩
  have hother : ∀ x, x ≠ u → (w.sc x).cpu ≠ id ∨ x ∉ a.q id (w.sc u).prio → w''.sc x = w.sc x := by
    intro x hx hc
    apply hp.heap_other x hx
    rcases hc with hc | hc
    · intro hm
      exact hc ((h.rq id).mem_facts hprio hm).2.2.1
    · exact hc
  have := h.update_cpu w'' id (q_deq (a.q id) (w.sc u).prio u) (a.m id)
    hp.rq (hp.restores_bound (h.bound id)) hp.restores_tight
    (by
      rw [hp.rq_queue]
      refine ⟨(h.mbox id).1.frame fun x hx => ?_, (h.mbox id).2⟩
      have hxu : x ≠ u := fun e => h.disj id x hx _ hprio (e ▸ hleg)
      rw [hother x hxu (Or.inr (h.disj id x hx _ hprio))]
      exact ⟨rfl, rfl⟩)
    (fun x hx => by rw [hp.cpu_eq]; exact h.mbox_cpu id x hx)
    (fun x hx p hp1 hm => h.disj id x hx p hp1 (mem_q_deq hm))
    hp.cpu_other
    (fun j hj p hp1 x hx => by
      have hxc : (w.sc x).cpu ≠ id := by
        rw [((h.rq j).mem_facts hp1 hx).2.2.1]; exact hj
      have hxu : x ≠ u := fun e => hxc (e ▸ hcpu)
      rw [hother x hxu (Or.inl hxc)]
      exact ⟨rfl, rfl, rfl, rfl⟩)
    (fun j hj x hx => by
      have hxc : (w.sc x).cpu ≠ id := by rw [h.mbox_cpu j x hx]; exact hj
      have hxu : x ≠ u := fun e => hxc (e ▸ hcpu)
      rw [hother x hxu (Or.inl hxc)]
      exact ⟨rfl, rfl, rfl⟩)
    (fun x hx0 hxq => by
      by_cases hxu : x = u
      · rw [hxu]; exact hp.prev_null
      · have hold : ¬ Queued cfg a x := by
          intro hq
          apply hxq
          rcases hq with ⟨j, p, hp1, hm⟩ | ⟨j, hm⟩
          · refine Or.inl ⟨j, p, hp1, ?_⟩
            by_cases hj : j = id
            · subst hj; simp only [upd_same]; exact mem_q_deq_of_ne hm hxu
            · simp only [upd_other _ _ _ _ hj]; exact hm
          · refine Or.inr ⟨j, ?_⟩
            by_cases hj : j = id
            · subst hj; simp only [upd_same]; exact hm
            · simp only [upd_other _ _ _ _ hj]; exact hm
        have hprev := (h.links x hx0).mpr hold
        rw [hother x hxu (Or.inr fun hm => hold (Or.inl ⟨id, _, hprio, hm⟩))]
        exact hprev)
  rwa [upd_self] at this
theorem schedule_ok (cfg : Config) (id : Nat) (suspend : Bool) (now_enq now_deq : Nat)
    (w w' : World) (q : Nat → List Nat) (hinv : RqInv cfg id w q)
    (h : schedule cfg id suspend now_enq now_deq w = .ok w') :
    (w.cpu id).current ≠ 0 ∧ (suspend = true → q (w.cpu id).prio_top ≠ []) ∧
      (suspend = false →
        ValidUnit cfg id w (w.cpu id).current ∧ (w.sc (w.cpu id).current).prev = 0) := by
  rw [schedule_eq] at h
  by_cases h1 : (w.cpu id).current = 0
  · simp [h1] at h
  simp only [h1, if_false] at h
  by_cases h2 : suspend = true ∨ (w.sc (w.cpu id).current).prev = 0
  swap
  · simp [h2] at h
  simp only [h2, not_true_eq_false, if_false] at h
  refine ⟨h1, ?_, ?_⟩
  · intro hs
    subst hs
    simp only [if_true, bind, Except.bind] at h
    intro hq
    have h0 : ((sched_begin cfg id w).cpu id).list ((sched_begin cfg id w).cpu id).prio_top = 0 := by
      simp only [sched_begin_cpu]
      exact (hinv.2 _ hinv.1).1.nil_iff.mpr hq
    have hsel : sched_select cfg id now_deq (sched_begin cfg id w) = .error .assert_sc := by
      unfold sched_select
      exact if_pos h0
    rw [hsel] at h
    cases h
  · intro hs
    subst hs
    simp only [Bool.false_eq_true, if_false, bind_ok_iff] at h
    obtain ⟨w2, hok2, -⟩ := h
    obtain ⟨⟨v1, v2, v3, v4⟩, -⟩ := ready_enqueue_ok cfg id _ now_enq _ w2 hok2
    refine ⟨⟨v1, v2, by simpa using v3, by simpa using v4⟩, ?_⟩
    rcases h2 with h2 | h2
    · cases h2
    · exact h2

theorem mem_sched_q1 {id : Nat} {suspend : Bool} {w : World} {q : Nat → List Nat} {x p : Nat}
    (h : x ∈ sched_q1 id suspend w q p) :
    x ∈ q p ∨ (suspend = false ∧ x = (w.cpu id).current) := by
  unfold sched_q1 at h
  cases suspend with
  | true => exact Or.inl h
  | false =>
    simp only [Bool.false_eq_true, if_false] at h
    rcases mem_q_enq.mp h with ⟨-, e⟩ | h'
    · exact Or.inr ⟨rfl, e⟩
    · exact Or.inl h'

theorem mem_sched_q1_of_mem {id : Nat} {suspend : Bool} {w : World} {q : Nat → List Nat}
    {x p : Nat} (h : x ∈ q p) : x ∈ sched_q1 id suspend w q p := by
  unfold sched_q1
  cases suspend with
  | true => exact h
  | false =>
    simp only [Bool.false_eq_true, if_false]
    exact mem_q_enq.mpr (Or.inr h)

theorem GInv.sched {cfg : Config} {w w' : World} {a : Queues} (h : GInv cfg w a)
    (id : Nat) (suspend : Bool) (now_enq now_deq : Nat)
    (hok : schedule cfg id suspend now_enq now_deq w = .ok w') :
    SchedPost cfg id suspend now_enq now_deq w (a.q id) w' ∧
      GInv cfg w' ⟨upd a.q id (sched_q id suspend w (a.q id)), a.m⟩ := by
  obtain ⟨hcur, hsus, hrun⟩ := schedule_ok cfg id suspend now_enq now_deq w w' (a.q id)
    (h.rq id) hok
  obtain ⟨w'', hok', hp⟩ := schedule_spec cfg id suspend now_enq now_deq w (a.q id) (h.rq id)
    (h.bound id) (h.tight id) hcur hsus hrun
  have hw : w'' = w' := by rw [hok] at hok'; exact (Except.ok.inj hok').symm
  subst hw
  refine ⟨hp, ?_⟩
  -- units outside the ready lists of this CPU keep their links and tags
  have hkeep : ∀ x, x ≠ 0 → (∀ p, p < cfg.priorities → x ∉ a.q id p) →
      (suspend = false → x ≠ (w.cpu id).current) →
      (w''.sc x).next = (w.sc x).next ∧ (w''.sc x).prev = (w.sc x).prev ∧
        (w''.sc x).prio = (w.sc x).prio ∧ (w''.sc x).cpu = (w.sc x).cpu := by
    intro x _ hxq hxc
    by_cases hx : x = (w.cpu id).current
    · cases suspend with
      | false => exact absurd hx (hxc rfl)
      | true =>
        obtain ⟨h1, h2⟩ := hp.links_cur rfl (fun p hp1 => hx ▸ hxq p hp1)
        rw [hx]
        exact ⟨h2, h1, hp.prio_eq _, hp.cpu_eq _⟩
    · rw [hp.heap_other x hx hxq]
      exact ⟨rfl, rfl, rfl, rfl⟩
  have hcurfree : suspend = false → ¬ Queued cfg a (w.cpu id).current := fun hs =>
    (h.links _ hcur).mp (hrun hs).2
  have := h.update_cpu w'' id (sched_q id suspend w (a.q id)) (a.m id)
    hp.rq hp.bound hp.tight
    (by
      rw [hp.rq_queue]
      refine ⟨(h.mbox id).1.frame fun x hx => ?_, (h.mbox id).2⟩
      have hk := hkeep x ((h.mbox id).1.mem_ne_zero hx) (fun p hp1 => h.disj id x hx p hp1)
        (fun hs e => hcurfree hs (Or.inr ⟨id, e ▸ hx⟩))
      exact ⟨hk.1, hk.2.1⟩)
    (fun x hx => by rw [hp.cpu_eq]; exact h.mbox_cpu id x hx)
    (fun x hx p hp1 hm => by
      rcases mem_sched_q1 (mem_q_deq hm) with hm' | ⟨hs, e⟩
      · exact h.disj id x hx p hp1 hm'
      · exact hcurfree hs (Or.inr ⟨id, e ▸ hx⟩))
    hp.cpu_other
    (fun j hj p hp1 x hx => by
      have hf := (h.rq j).mem_facts hp1 hx
      exact hkeep x hf.1
        (fun p' hp' hm => hj (by rw [← hf.2.2.1, ((h.rq id).mem_facts hp' hm).2.2.1]))
        (fun hs e => hcurfree hs (Or.inl ⟨j, p, hp1, e ▸ hx⟩)))
    (fun j hj x hx => by
      have hk := hkeep x ((h.mbox j).1.mem_ne_zero hx)
        (fun p' hp' hm => hj (by
          rw [← h.mbox_cpu j x hx, ((h.rq id).mem_facts hp' hm).2.2.1]))
        (fun hs e => hcurfree hs (Or.inr ⟨j, e ▸ hx⟩))
      exact ⟨hk.1, hk.2.1, hk.2.2.2⟩)
    (fun x hx0 hxq => by
      by_cases hxs : x = sched_sel id suspend w (a.q id)
      · rw [hxs]; exact hp.prev_sel
      · have hnq1 : ∀ p, p < cfg.priorities → x ∉ sched_q1 id suspend w (a.q id) p := by
          intro p hp1 hm
          apply hxq
          refine Or.inl ⟨id, p, hp1, ?_⟩
          simp only [upd_same]
          exact mem_q_deq_of_ne hm hxs
        have hold : ¬ Queued cfg a x := by
          intro hq
          rcases hq with ⟨j, p, hp1, hm⟩ | ⟨j, hm⟩
          · by_cases hj : j = id
            · subst hj; exact hnq1 p hp1 (mem_sched_q1_of_mem hm)
            · exact hxq (Or.inl ⟨j, p, hp1, by simp only [upd_other _ _ _ _ hj]; exact hm⟩)
          · refine hxq (Or.inr ⟨j, ?_⟩)
            by_cases hj : j = id
            · subst hj; simp only [upd_same]; exact hm
            · simp only [upd_other _ _ _ _ hj]; exact hm
        have hk := hkeep x hx0 (fun p hp1 hm => hold (Or.inl ⟨id, p, hp1, hm⟩))
          (fun hs e => by
            have hpc := (hrun hs).1.2.2.2
            apply hnq1 _ hpc
            subst hs
            simp only [sched_q1, Bool.false_eq_true, if_false]
            exact mem_q_enq.mpr (Or.inl ⟨rfl, e⟩))
        rw [hk.2.1]
        exact (h.links x hx0).mpr hold)
  rwa [upd_self] at this
theorem mem_q_drain_iff (sc : Nat → Sc) (r : List Nat) :
    ∀ (q : Nat → List Nat) (x p : Nat),
      x ∈ q_drain sc q r p ↔ x ∈ q p ∨ (x ∈ r ∧ p = (sc x).prio) := by
  induction r with
  | nil => intro q x p; simp [q_drain]
  | cons a t ih =>
    intro q x p
    simp only [q_drain]
    rw [ih, mem_q_enq]
    constructor
    · rintro ((⟨h1, h2⟩ | h) | ⟨h1, h2⟩)
      · exact Or.inr ⟨by simp [h2], by rw [h2]; exact h1⟩
      · exact Or.inl h
      · exact Or.inr ⟨by simp [h1], h2⟩
    · rintro (h | ⟨h1, h2⟩)
      · exact Or.inl (Or.inr h)
      · rcases List.mem_cons.mp h1 with e | h1'
        · exact Or.inl (Or.inl ⟨by rw [h2, e], e⟩)
        · exact Or.inr ⟨h1', h2⟩

theorem GInv.push {cfg : Config} {w w' : World} {a : Queues} (h : GInv cfg w a)
    (id u now : Nat) (hid : id ≠ (w.sc u).cpu) (hleg : (w.sc u).prev = 0)
    (hok : remote_enqueue cfg id u now w = .ok w') :
    PushPost u w (a.m (w.sc u).cpu) w' ∧
      GInv cfg w' ⟨a.q, upd a.m (w.sc u).cpu (a.m (w.sc u).cpu ++ [u])⟩ := by
  have hu0 : u ≠ 0 := by
    intro e
    simp [remote_enqueue, e] at hok
  obtain ⟨hnq, hnm⟩ := h.not_queued hu0 hleg
  obtain ⟨w'', hok', hp⟩ := remote_enqueue_spec cfg id u now w (a.m (w.sc u).cpu) hu0 hid
    (h.mbox _) (hnm _)
  have hw : w'' = w' := by rw [hok] at hok'; exact (Except.ok.inj hok').symm
  subst hw
  refine ⟨hp, ?_⟩
  have hother : ∀ x, x ≠ u → (w.sc x).cpu ≠ (w.sc u).cpu ∨ x ∉ a.m (w.sc u).cpu →
      w''.sc x = w.sc x := by
    intro x hx hc
    apply hp.heap_other x hx
    rcases hc with hc | hc
    · intro hm
      exact hc (h.mbox_cpu _ x hm)
    · exact hc
  have hcpuh := hp.cpu_home
  have := h.update_cpu w'' (w.sc u).cpu (a.q (w.sc u).cpu) (a.m (w.sc u).cpu ++ [u])
    ((h.rq _).same_on_queues (by rw [hcpuh]) (by rw [hcpuh]) (fun p hp1 x hx => by
      have hxu : x ≠ u := fun e => hnq _ p hp1 (e ▸ hx)
      exact hother x hxu (Or.inr fun hm => h.disj _ x hm p hp1 hx)))
    (fun p hp1 hp2 => h.bound _ p hp1 (by rw [hcpuh] at hp2; exact hp2))
    (by have := h.tight (w.sc u).cpu; unfold TopTight at this ⊢; rw [hcpuh]; exact this)
    hp.ring
    (fun x hx => by
      rw [hp.cpu_eq]
      rcases List.mem_append.mp hx with hm | hm
      · exact h.mbox_cpu _ x hm
      · simp at hm; rw [hm])
    (fun x hx p hp1 hm' => by
      rcases List.mem_append.mp hx with hm | hm
      · exact h.disj _ x hm p hp1 hm'
      · simp at hm; exact hnq _ p hp1 (hm ▸ hm'))
    hp.cpu_other
    (fun j hj p hp1 x hx => by
      have hxu : x ≠ u := fun e => hnq j p hp1 (e ▸ hx)
      have hxc : (w.sc x).cpu ≠ (w.sc u).cpu := by
        rw [((h.rq j).mem_facts hp1 hx).2.2.1]; exact hj
      rw [hother x hxu (Or.inl hxc)]
      exact ⟨rfl, rfl, rfl, rfl⟩)
    (fun j hj x hx => by
      have hxu : x ≠ u := fun e => hnm j (e ▸ hx)
      have hxc : (w.sc x).cpu ≠ (w.sc u).cpu := by rw [h.mbox_cpu j x hx]; exact hj
      rw [hother x hxu (Or.inl hxc)]
      exact ⟨rfl, rfl, rfl⟩)
    (fun x hx0 hxq => by
      have hxu : x ≠ u := by
        intro e
        exact hxq (Or.inr ⟨(w.sc u).cpu, by simp only [upd_same]; simp [e]⟩)
      have hold : ¬ Queued cfg a x := by
        intro hq
        apply hxq
        rcases hq with ⟨j, p, hp1, hm⟩ | ⟨j, hm⟩
        · refine Or.inl ⟨j, p, hp1, ?_⟩
          by_cases hj : j = (w.sc u).cpu
          · subst hj; simp only [upd_same]; exact hm
          · simp only [upd_other _ _ _ _ hj]; exact hm
        · refine Or.inr ⟨j, ?_⟩
          by_cases hj : j = (w.sc u).cpu
          · subst hj; simp only [upd_same]; exact List.mem_append_left _ hm
          · simp only [upd_other _ _ _ _ hj]; exact hm
      have hprev := (h.links x hx0).mpr hold
      rw [hother x hxu (Or.inr fun hm => hold (Or.inr ⟨_, hm⟩))]
      exact hprev)
  rwa [upd_self] at this

theorem GInv.rrq {cfg : Config} {w w' : World} {a : Queues} (h : GInv cfg w a)
    (id fuel : Nat) (nows : Nat → Nat) (hok : rrq_handler cfg id fuel nows w = .ok w') :
    (∃ w1, DrainPost cfg id w (a.q id) (a.m id) w1 ∧
        w' = w1.setCpu id { w1.cpu id with rq_queue := 0 }) ∧
      GInv cfg w' ⟨upd a.q id (q_drain w.sc (a.q id) (a.m id)), upd a.m id []⟩ := by
  unfold rrq_handler at hok
  rw [bind_ok_iff] at hok
  obtain ⟨w1, hok1, hfin⟩ := hok
  have hw' : w' = w1.setCpu id { w1.cpu id with rq_queue := 0 } := (Except.ok.inj hfin).symm
  have hdis : ∀ x ∈ a.m id, (w.sc x).cpu = id ∧ ∀ p, p < cfg.priorities → x ∉ a.q id p :=
    fun x hx => ⟨h.mbox_cpu id x hx, h.disj id x hx⟩
  obtain ⟨hlen, hvalid, hcur⟩ := rrq_loop_ok cfg id (a.m id) fuel _ nows w w1 (a.q id) (h.rq id)
    (h.mbox id) hdis hok1
  obtain ⟨w1', hok1', hp⟩ := rrq_loop_spec cfg id (a.m id) fuel _ nows w (a.q id) hlen (h.rq id)
    (h.mbox id) (fun x hx => ⟨hvalid x hx, (hdis x hx).2⟩) hcur
  have hw1 : w1' = w1 := by rw [hok1] at hok1'; exact (Except.ok.inj hok1').symm
  subst hw1
  refine ⟨⟨w1', hp, hw'⟩, ?_⟩
  subst hw'
  have hother : ∀ x, (w.sc x).cpu ≠ id ∨
      (x ∉ a.m id ∧ ∀ p, p < cfg.priorities → x ∉ a.q id p) → w1'.sc x = w.sc x := by
    intro x hc
    rcases hc with hc | ⟨h1, h2⟩
    · exact hp.heap_other x (fun hm => hc (h.mbox_cpu id x hm))
        (fun p hp1 hm => hc ((h.rq id).mem_facts hp1 hm).2.2.1)
    · exact hp.heap_other x h1 h2
  exact h.update_cpu _ id (q_drain w.sc (a.q id) (a.m id)) []
    (hp.rq.congr (by simp) (by simp) (fun x => by simp))
    (fun p hp1 hp2 => hp.bound (h.bound id) p hp1 (by simpa using hp2))
    (by have := hp.tight (h.tight id); unfold TopTight at this ⊢; simpa using this)
    (by simp [Ring, Cyc.nil])
    (fun x hx => by cases hx)
    (fun x hx => by cases hx)
    (fun j hj => by simp [hj, hp.cpu_other j hj])
    (fun j hj p hp1 x hx => by
      have hxc : (w.sc x).cpu ≠ id := by
        rw [((h.rq j).mem_facts hp1 hx).2.2.1]; exact hj
      simp only [setCpu_sc]
      rw [hother x (Or.inl hxc)]
      exact ⟨rfl, rfl, rfl, rfl⟩)
    (fun j hj x hx => by
      have hxc : (w.sc x).cpu ≠ id := by rw [h.mbox_cpu j x hx]; exact hj
      simp only [setCpu_sc]
      rw [hother x (Or.inl hxc)]
      exact ⟨rfl, rfl, rfl⟩)
    (fun x hx0 hxq => by
      have hnq : ∀ p, p < cfg.priorities → x ∉ q_drain w.sc (a.q id) (a.m id) p := by
        intro p hp1 hm
        exact hxq (Or.inl ⟨id, p, hp1, by simp only [upd_same]; exact hm⟩)
      have hxm : x ∉ a.m id := by
        intro hm
        exact hnq _ (hvalid x hm).2.2.2 (mem_q_drain w.sc _ _ x hm)
      have hxqo : ∀ p, p < cfg.priorities → x ∉ a.q id p := fun p hp1 hm =>
        hnq p hp1 (mem_q_drain_of_mem w.sc _ _ x p hm)
      have hold : ¬ Queued cfg a x := by
        intro hq
        rcases hq with ⟨j, p, hp1, hm⟩ | ⟨j, hm⟩
        · by_cases hj : j = id
          · subst hj; exact hxqo p hp1 hm
          · exact hxq (Or.inl ⟨j, p, hp1, by simp only [upd_other _ _ _ _ hj]; exact hm⟩)
        · by_cases hj : j = id
          · subst hj; exact hxm hm
          · exact hxq (Or.inr ⟨j, by simp only [upd_other _ _ _ _ hj]; exact hm⟩)
      simp only [setCpu_sc]
      rw [hother x (Or.inr ⟨hxm, hxqo⟩)]
      exact (h.links x hx0).mpr hold)

theorem GInv.same_heap {cfg : Config} {w w' : World} {a : Queues} (h : GInv cfg w a)
    (hsc : w'.sc = w.sc) (hl : ∀ j, (w'.cpu j).list = (w.cpu j).list)
    (ht : ∀ j, (w'.cpu j).prio_top = (w.cpu j).prio_top)
    (hr : ∀ j, (w'.cpu j).rq_queue = (w.cpu j).rq_queue) : GInv cfg w' a := by
  constructor
  · intro id
    exact (h.rq id).congr (hl id) (ht id) (fun x => by rw [hsc]; exact ⟨rfl, rfl, rfl, rfl⟩)
  · intro id p hp1 hp2
    rw [ht id] at hp2
    exact h.bound id p hp1 hp2
  · intro id
    have := h.tight id
    unfold TopTight at this ⊢
    rw [ht id]; exact this
  · intro id
    rw [hsc, hr id]; exact h.mbox id
  · intro id x hx
    rw [hsc]; exact h.mbox_cpu id x hx
  · exact h.disj
  · intro u hu
    rw [hsc]; exact h.links u hu

theorem setCpu_cpu (w : World) (id : Nat) (c : Cpu) (j : Nat) :
    (w.setCpu id c).cpu j = if j = id then c else w.cpu j := by
  simp [World.setCpu, upd_apply]

theorem GInv.step {cfg : Config} {w w' : World} {a : Queues} (h : GInv cfg w a) (op : Op)
    (hleg : Legal w a op) (hok : exec cfg op w = .ok w') : GInv cfg w' (a.after w op) := by
  cases op with
  | enqueue id u now => exact (h.enqueue id u now hleg hok).2
  | dequeue id u now => exact (h.dequeue id u now hleg hok).2
  | sched id suspend now_enq now_deq => exact (h.sched id suspend now_enq now_deq hok).2
  | remote id u now =>
    by_cases hid : id = (w.sc u).cpu
    · subst hid
      have hu0 : u ≠ 0 := fun e => by simp [exec, remote_enqueue, e] at hok
      have hok' : ready_enqueue cfg (w.sc u).cpu u now w = .ok w' := by
        simpa [exec, remote_enqueue, hu0] using hok
      simp only [Queues.after, if_true]
      exact (h.enqueue _ u now hleg hok').2
    · simp only [Queues.after, hid, if_false]
      exact (h.push id u now hid hleg hok).2
  | rrq id fuel nows => exact (h.rrq id fuel nows hok).2
  | rke id stale =>
    have hw : w' = rke_handler cfg id stale w := (Except.ok.inj hok).symm
    subst hw
    apply h.same_heap
    · unfold rke_handler; split <;> rfl
    · intro j; unfold rke_handler; split
      · rw [setCpu_cpu]; split <;> simp_all
      · rfl
    · intro j; unfold rke_handler; split
      · rw [setCpu_cpu]; split <;> simp_all
      · rfl
    · intro j; unfold rke_handler; split
      · rw [setCpu_cpu]; split <;> simp_all
      · rfl
  | tick id v =>
    have hw : w' = w.setCpu id (set_timer (w.cpu id) v) := (Except.ok.inj hok).symm
    subst hw
    apply h.same_heap
    · rfl
    · intro j; rw [setCpu_cpu]; split <;> simp_all [set_timer]
    · intro j; rw [setCpu_cpu]; split <;> simp_all [set_timer]
    · intro j; rw [setCpu_cpu]; split <;> simp_all [set_timer]

theorem Reach.inv {cfg : Config} {I : World → Queues → Prop} {w0 w : World} {a0 a : Queues}
    (h0 : GInv cfg w0 a0) (hr : Reach cfg I w0 a0 w a) : GInv cfg w a := by
  induction hr with
  | start => exact h0
  | step op _ hleg hok _ ih => exact ih.step op hleg hok

theorem ginvX : GInv cfgX worldX queuesX := by
  have hcpu : ∀ id, id ≠ 0 → worldX.cpu id = cpuIdle := by
    intro id hid; simp [worldX, hid]
  have hq : ∀ id, id ≠ 0 → queuesX.q id = fun _ => [] := by
    intro id hid; simp [queuesX, hid]
  have hrq : ∀ id, RqInv cfgX id worldX (queuesX.q id) := by
    intro id
    by_cases hid : id = 0
    · subst hid; decide
    · rw [hq id hid]
      refine ⟨by rw [hcpu id hid]; decide, fun p _ => ⟨⟨Cyc.nil _, ?_⟩, fun x hx => by cases hx⟩⟩
      rw [hcpu id hid]; rfl
  have hmb : ∀ id, Ring worldX.sc (worldX.cpu id).rq_queue (queuesX.m id) := by
    intro id
    refine ⟨Cyc.nil _, ?_⟩
    by_cases hid : id = 0
    · subst hid; rfl
    · rw [hcpu id hid]; rfl
  constructor
  · exact hrq
  · intro id
    by_cases hid : id = 0
    · subst hid; decide
    · intro p _ _; rw [hq id hid]
  · intro id
    by_cases hid : id = 0
    · subst hid; decide
    · right; rw [hcpu id hid]; rfl
  · exact hmb
  · intro id x hx; cases hx
  · intro id x hx; cases hx
  · apply links_of_rings hrq hmb
    intro u hu hnq
    have h2 : u ≠ 2 := by
      intro e
      exact hnq (Or.inl ⟨0, 5, by decide, by rw [e]; decide⟩)
    have h3 : u ≠ 3 := by
      intro e
      exact hnq (Or.inl ⟨0, 5, by decide, by rw [e]; decide⟩)
    simp only [worldX, scX, h2, h3, if_false]
    split <;> rfl

theorem ready_enqueue_left (cfg : Config) (id v t : Nat) (w0 w1 : World)
    (h : ready_enqueue cfg id v t w0 = .ok w1) :
    (w1.sc v).left = if (w0.sc v).left = 0 then (w0.sc v).full else (w0.sc v).left := by
  unfold ready_enqueue at h
  by_cases h1 : v = 0
  · simp [h1] at h
  by_cases h2 : (w0.sc v).prio < cfg.priorities
  swap
  · simp [h1, h2] at h
  by_cases h3 : (w0.sc v).cpu = id
  swap
  · simp [h1, h2, h3] at h
  by_cases h4 : v = 2 ^ cfg.long_bits - 1
  · simp [h1, h2, h3, ← h4] at h
  simp only [h1, h2, h3, h4, if_false, not_true_eq_false] at h
  by_cases h5 : (w0.cpu id).list (w0.sc v).prio = 0
  · simp only [h5, if_true] at h
    split at h
    · cases h
    · injection h with h
      subst h
      simp [ite_setLeft]
  · simp only [h5, if_false] at h
    split at h
    · cases h
    · next sc1 list1 heq =>
      split at heq
      · cases heq
      · injection heq with heq
        injection heq with hs hl
        subst hs
        clear hl
        split at h
        · cases h
        · injection h with h
          subst h
          simp [ite_setLeft]
theorem get_timer_lt (c : Cpu) : get_timer c < 2 ^ 32 := by
  unfold get_timer
  exact Nat.mod_lt _ (by norm_num)

theorem left_step {cfg : Config} {w w' : World} {a : Queues} (h : GInv cfg w a) (u L : Nat)
    (hL : 0 < L) (hL32 : L < 2 ^ 32) (hleft : (w.sc u).left = L)
    (hnc : ∀ j, (w.cpu j).current ≠ u) (op : Op) (hleg : Legal w a op)
    (hok : exec cfg op w = .ok w') :
    (w'.sc u).left = L ∧ ∀ j, (w'.cpu j).current = u → (w'.cpu j).timer = L := by
  have hL0 : (w.sc u).left ≠ 0 := by omega
  have henq : ∀ id v now, (w.sc v).prev = 0 → ready_enqueue cfg id v now w = .ok w' →
      (w'.sc u).left = L ∧ ∀ j, (w'.cpu j).current = u → (w'.cpu j).timer = L := by
    intro id v now hprev hok'
    obtain ⟨hp, -⟩ := h.enqueue id v now hprev hok'
    constructor
    · by_cases hv : u = v
      · subst hv; rw [hp.left, if_neg hL0]; exact hleft
      · rw [hp.left_other u hv]; exact hleft
    · intro j hj
      exfalso
      by_cases hji : j = id
      · subst hji; rw [hp.current] at hj; exact hnc j hj
      · rw [hp.cpu_other j hji] at hj; exact hnc j hj
  cases op with
  | enqueue id v now => exact henq id v now hleg hok
  | dequeue id v now =>
    obtain ⟨hp, -⟩ := h.dequeue id v now hleg hok
    refine ⟨by rw [hp.left_eq]; exact hleft, fun j hj => ?_⟩
    exfalso
    by_cases hji : j = id
    · subst hji; rw [hp.current] at hj; exact hnc j hj
    · rw [hp.cpu_other j hji] at hj; exact hnc j hj
  | sched id suspend now_enq now_deq =>
    obtain ⟨hp, -⟩ := h.sched id suspend now_enq now_deq hok
    have hl : (w'.sc u).left = L := by
      rw [hp.left_other u (fun e => hnc id e.symm)]; exact hleft
    refine ⟨hl, fun j hj => ?_⟩
    by_cases hji : j = id
    · subst hji
      rw [hp.timer, ← hp.current, hj, hl]
      exact Nat.mod_eq_of_lt hL32
    · rw [hp.cpu_other j hji] at hj; exact absurd hj (hnc j)
  | remote id v now =>
    by_cases hid : id = (w.sc v).cpu
    · have hv0 : v ≠ 0 := fun e => by simp [exec, remote_enqueue, e] at hok
      have hok' : ready_enqueue cfg id v now w = .ok w' := by
        simpa [exec, remote_enqueue, hv0, hid] using hok
      exact henq id v now hleg hok'
    · obtain ⟨hp, -⟩ := h.push id v now hid hleg hok
      refine ⟨by rw [hp.left_eq]; exact hleft, fun j hj => ?_⟩
      exfalso
      by_cases hji : j = (w.sc v).cpu
      · subst hji; rw [hp.cpu_home] at hj; exact hnc _ hj
      · rw [hp.cpu_other j hji] at hj; exact hnc j hj
  | rrq id fuel nows =>
    obtain ⟨⟨w1, hp, hw'⟩, -⟩ := h.rrq id fuel nows hok
    subst hw'
    constructor
    · simp only [setCpu_sc]
      by_cases hm : u ∈ a.m id
      · rw [hp.left u hm, if_neg hL0]; exact hleft
      · rw [hp.left_other u hm]; exact hleft
    · intro j hj
      exfalso
      by_cases hji : j = id
      · subst hji
        simp only [setCpu_cpu_same] at hj
        rw [hp.current] at hj; exact hnc j hj
      · rw [setCpu_cpu_other _ _ _ _ hji, hp.cpu_other j hji] at hj; exact hnc j hj
  | rke id stale =>
    have hw : w' = rke_handler cfg id stale w := (Except.ok.inj hok).symm
    subst hw
    have hsc : (rke_handler cfg id stale w).sc = w.sc := by unfold rke_handler; split <;> rfl
    have hc : ∀ j, ((rke_handler cfg id stale w).cpu j).current = (w.cpu j).current := by
      intro j; unfold rke_handler; split
      · rw [setCpu_cpu]; split <;> simp_all
      · rfl
    exact ⟨by rw [hsc]; exact hleft, fun j hj => absurd (hc j ▸ hj) (hnc j)⟩
  | tick id v =>
    have hw : w' = w.setCpu id (set_timer (w.cpu id) v) := (Except.ok.inj hok).symm
    subst hw
    have hc : ∀ j, ((w.setCpu id (set_timer (w.cpu id) v)).cpu j).current = (w.cpu j).current := by
      intro j; rw [setCpu_cpu]; split <;> simp_all [set_timer]
    exact ⟨hleft, fun j hj => absurd (hc j ▸ hj) (hnc j)⟩
theorem left_reach {cfg : Config} {w1 w2 : World} {a1 a2 : Queues} {u L : Nat}
    (h1 : GInv cfg w1 a1) (hL : 0 < L) (hL32 : L < 2 ^ 32) (hleft : (w1.sc u).left = L)
    (hnc : ∀ j, (w1.cpu j).current ≠ u)
    (hr : Reach cfg (fun x _ => ∀ j, (x.cpu j).current ≠ u) w1 a1 w2 a2) :
    GInv cfg w2 a2 ∧ (w2.sc u).left = L ∧ ∀ j, (w2.cpu j).current ≠ u := by
  induction hr with
  | start => exact ⟨h1, hleft, hnc⟩
  | step op _ hleg hok hI ih =>
    obtain ⟨hg, hl, hc⟩ := ih
    exact ⟨hg.step op hleg hok, (left_step hg u L hL hL32 hl hc op hleg hok).1, hI⟩

theorem ginvT : GInv cfgX worldT queuesX := by
  apply ginvX.same_heap
  · rfl
  · intro j; unfold worldT; rw [setCpu_cpu]; split
    · next h => subst h; rfl
    · rfl
  · intro j; unfold worldT; rw [setCpu_cpu]; split
    · next h => subst h; rfl
    · rfl
  · intro j; unfold worldT; rw [setCpu_cpu]; split
    · next h => subst h; rfl
    · rfl

theorem Before.insert {u v : Nat} {l : List Nat} (h : Before u v l) (left c : Nat) :
    Before u v (insertUnit left c l) := by
  obtain ⟨x, y, z, rfl⟩ := h
  unfold insertUnit
  split
  · exact ⟨x, y, z ++ [c], by simp⟩
  · exact ⟨c :: x, y, z, by simp⟩

theorem Before.mem {u v : Nat} {l : List Nat} (h : Before u v l) : u ∈ l ∧ v ∈ l := by
  obtain ⟨x, y, z, rfl⟩ := h
  simp

theorem Before.erase {u v c : Nat} {l : List Nat} (h : Before u v l) (hu : c ≠ u)
    (hv : c ≠ v) : Before u v (l.erase c) := by
  obtain ⟨x, y, z, rfl⟩ := h
  by_cases hx : c ∈ x
  · exact ⟨x.erase c, y, z, by rw [List.erase_append_left _ hx]⟩
  · rw [List.erase_append_right _ hx, List.erase_cons_tail (by simpa using hu.symm)]
    by_cases hy : c ∈ y
    · exact ⟨x, y.erase c, z, by rw [List.erase_append_left _ hy]⟩
    · rw [List.erase_append_right _ hy, List.erase_cons_tail (by simpa using hv.symm)]
      exact ⟨x, y, z.erase c, rfl⟩

theorem Before.erase_of_mem {u v c : Nat} {l : List Nat} (h : Before u v l) (hnd : l.Nodup)
    (hu : u ∈ l.erase c) (hv : v ∈ l.erase c) : Before u v (l.erase c) :=
  h.erase (fun e => ((hnd.mem_erase_iff).mp hu).1 e.symm)
    (fun e => ((hnd.mem_erase_iff).mp hv).1 e.symm)

theorem Before.head_ne {u v : Nat} {l : List Nat} (h : Before u v l) (hnd : l.Nodup) :
    l.head?.getD 0 ≠ v := by
  obtain ⟨x, y, z, rfl⟩ := h
  cases x with
  | nil =>
    simp only [List.nil_append, List.head?_cons, Option.getD_some]
    intro e
    subst e
    simp at hnd
  | cons c x' =>
    simp only [List.cons_append, List.head?_cons, Option.getD_some]
    intro e
    subst e
    simp at hnd

theorem Before.q_enq {u v P : Nat} {q : Nat → List Nat} (h : Before u v (q P))
    (prio left c : Nat) : Before u v (q_enq q prio left c P) := by
  unfold Nova.q_enq
  by_cases hp : P = prio
  · subst hp; rw [upd_same]; exact h.insert left c
  · rw [upd_other _ _ _ _ hp]; exact h

theorem Before.q_drain {u v P : Nat} (sc : Nat → Sc) (r : List Nat) :
    ∀ q : Nat → List Nat, Before u v (q P) → Before u v (q_drain sc q r P) := by
  induction r with
  | nil => intro q h; exact h
  | cons c t ih =>
    intro q h
    exact ih _ (h.q_enq _ _ c)

theorem Before.sched_q1 {u v P : Nat} {q : Nat → List Nat} (h : Before u v (q P))
    (id : Nat) (suspend : Bool) (w : World) : Before u v (sched_q1 id suspend w q P) := by
  unfold Nova.sched_q1
  cases suspend with
  | true => exact h
  | false => exact h.q_enq _ _ _

theorem Before.q_deq {u v P : Nat} {q : Nat → List Nat} (h : Before u v (q P))
    (hnd : (q P).Nodup) (prio c : Nat) (hu : u ∈ q_deq q prio c P) (hv : v ∈ q_deq q prio c P) :
    Before u v (q_deq q prio c P) := by
  unfold Nova.q_deq at hu hv ⊢
  by_cases hp : P = prio
  · subst hp
    rw [upd_same] at hu hv ⊢
    exact h.erase_of_mem hnd hu hv
  · rw [upd_other _ _ _ _ hp]; exact h

theorem sched_q1_nodup {cfg : Config} {id : Nat} (suspend : Bool) {w : World}
    {q : Nat → List Nat} (hinv : RqInv cfg id w q) {P : Nat} (hP : P < cfg.priorities)
    (hrun : suspend = false → (w.sc (w.cpu id).current).prev = 0) :
    (sched_q1 id suspend w q P).Nodup := by
  have hnd : (q P).Nodup := (hinv.2 P hP).1.1.1
  unfold sched_q1
  cases suspend with
  | true => exact hnd
  | false =>
    simp only [Bool.false_eq_true, if_false, q_enq]
    by_cases hp : P = (w.sc (w.cpu id).current).prio
    · rw [hp, upd_same]
      have hc : (w.cpu id).current ∉ q (w.sc (w.cpu id).current).prio :=
        hinv.not_mem_of_prev (hp ▸ hP) (hrun rfl)
      rw [hp] at hnd
      unfold insertUnit
      split
      · exact List.nodup_append.mpr ⟨hnd, by simp, by
          intro x hx hx'
          simp at hx'
          exact hc (hx' ▸ hx)⟩
      · exact List.nodup_cons.mpr ⟨hc, hnd⟩
    · rw [upd_other _ _ _ _ hp]; exact hnd

theorem before_step {cfg : Config} {w : World} {a : Queues} (h : GInv cfg w a)
    {u v id P : Nat} (hP : P < cfg.priorities) (hb : Before u v (a.q id P)) (op : Op)
    (hrun : ∀ j s e d, op = .sched j s e d → s = false → (w.sc (w.cpu j).current).prev = 0)
    (hu : u ∈ (a.after w op).q id P) (hv : v ∈ (a.after w op).q id P) :
    Before u v ((a.after w op).q id P) := by
  have hnd : ∀ j, (a.q j P).Nodup := fun j => ((h.rq j).2 P hP).1.1.1
  have hq : ∀ (j : Nat) (qn : Nat → List Nat),
      (j = id → (u ∈ qn P → v ∈ qn P → Before u v (qn P))) →
      (u ∈ upd a.q j qn id P → v ∈ upd a.q j qn id P → Before u v (upd a.q j qn id P)) := by
    intro j qn hj hu' hv'
    by_cases hji : id = j
    · subst hji
      rw [upd_same] at hu' hv' ⊢
      exact hj rfl hu' hv'
    · rw [upd_other _ _ _ _ hji]; exact hb
  cases op with
  | enqueue j c now =>
    exact hq j _ (fun e _ _ => by subst e; exact hb.q_enq _ _ _) hu hv
  | dequeue j c now =>
    exact hq j _ (fun e hu' hv' => by subst e; exact hb.q_deq (hnd _) _ _ hu' hv') hu hv
  | sched j s e d =>
    refine hq j _ (fun e' hu' hv' => ?_) hu hv
    subst e'
    exact (hb.sched_q1 j s w).q_deq
      (sched_q1_nodup s (h.rq j) hP (hrun j s e d rfl)) _ _ hu' hv'
  | remote j c now =>
    by_cases hc : j = (w.sc c).cpu
    · simp only [Queues.after, hc, if_true] at hu hv ⊢
      exact hq _ _ (fun e _ _ => by
        have := hb.q_enq (w.sc c).prio (w.sc c).left c
        rwa [← e] at this) hu hv
    · simp only [Queues.after, hc, if_false] at hu hv ⊢
      exact hb
  | rrq j fuel nows =>
    exact hq j _ (fun e _ _ => by subst e; exact hb.q_drain _ _ _) hu hv
  | rke j stale => exact hb
  | tick j t => exact hb
theorem sched_sel_ne {cfg : Config} {w w3 : World} {a : Queues} (h : GInv cfg w a)
    {u v id P : Nat} (hP : P < cfg.priorities) (hvq : v ∈ a.q id P) (j : Nat) (s : Bool)
    (e d : Nat) (hok : schedule cfg j s e d w = .ok w3)
    (hb : j = id → Before u v (sched_q1 id s w (a.q id) P)) : (w3.cpu j).current ≠ v := by
  obtain ⟨hp, -⟩ := h.sched j s e d hok
  obtain ⟨hcur, -, hrun⟩ := schedule_ok cfg j s e d w w3 (a.q j) (h.rq j) hok
  have hvf := (h.rq id).mem_facts hP hvq
  intro hc
  rw [hp.current] at hc
  have hsm := hp.sel_mem
  have hsp := hp.sel_prio
  rw [hc] at hsm hsp
  rw [hvf.2.1] at hsp
  rcases mem_sched_q1 hsm with hm | ⟨hs, hvc⟩
  · have hj : j = id := by
      rw [← ((h.rq j).mem_facts (hsp ▸ hP) hm).2.2.1, hvf.2.2.1]
    subst hj
    have hnd := sched_q1_nodup s (h.rq j) hP (fun hs => (hrun hs).2)
    have := (hb rfl).head_ne hnd
    apply this
    rw [hsp]
    exact hc
  · have := (h.not_queued hvf.1 (hvc ▸ (hrun hs).2)).1 id P hP
    exact this hvq

theorem before_reach {cfg : Config} {w1 w2 : World} {a1 a2 : Queues} {u v id P : Nat}
    (h1 : GInv cfg w1 a1) (hP : P < cfg.priorities) (hb : Before u v (a1.q id P))
    (hr : Reach cfg (fun _ b => u ∈ b.q id P ∧ v ∈ b.q id P) w1 a1 w2 a2) :
    GInv cfg w2 a2 ∧ Before u v (a2.q id P) := by
  induction hr with
  | start => exact ⟨h1, hb⟩
  | step op _ hleg hok hI ih =>
    obtain ⟨hg, hbw⟩ := ih
    refine ⟨hg.step op hleg hok, before_step hg hP hbw op ?_ hI.1 hI.2⟩
    intro j s e d hop hs
    subst hop
    exact ((schedule_ok cfg j s e d _ _ _ (hg.rq j) hok).2.2 hs).2

@[simp] theorem timer_expired_sc (id : Nat) (w : World) : (timer_expired id w).sc = w.sc := rfl

@[simp] theorem timer_expired_cpu (id : Nat) (w : World) :
    (timer_expired id w).cpu id = set_timer (w.cpu id) 0 := by
  simp [timer_expired]

theorem RrInv.top_le {cfg : Config} {id : Nat} {w : World} {q : Nat → List Nat}
    (h : RrInv cfg id w q) : (w.cpu id).prio_top ≤ (w.sc (w.cpu id).current).prio := by
  by_contra hlt
  have hq := h.above _ h.rq.1 (by omega)
  rcases h.tight with ht | ht
  · exact ht hq
  · omega

theorem rr_round (cfg : Config) (id e d : Nat) (w : World) (q : Nat → List Nat)
    (h : RrInv cfg id w q) :
    ∃ w1, schedule cfg id false e d (timer_expired id w) = .ok w1 ∧
      (w1.cpu id).current =
        (q (w.sc (w.cpu id).current).prio ++ [(w.cpu id).current]).head?.getD 0 ∧
      RrInv cfg id w1 (upd q (w.sc (w.cpu id).current).prio
        (q (w.sc (w.cpu id).current).prio ++ [(w.cpu id).current]).tail) ∧
      (w1.sc (w.cpu id).current).left = (w.sc (w.cpu id).current).full ∧
      (∀ x, x ≠ (w.cpu id).current → (w1.sc x).left = (w.sc x).left) ∧
      (∀ x, (w1.sc x).full = (w.sc x).full) ∧ (∀ x, (w1.sc x).prio = (w.sc x).prio) ∧
      (w.sc (w1.cpu id).current).prio = (w.sc (w.cpu id).current).prio := by
  have hinv0 : RqInv cfg id (timer_expired id w) q :=
    h.rq.congr (by simp [set_timer]) (by simp [set_timer]) (fun x => by simp)
  have hb0 : TopBound cfg id (timer_expired id w) q := by
    intro p hp1 hp2
    exact h.bound p hp1 (by simpa [set_timer] using hp2)
  have ht0 : TopTight id (timer_expired id w) q := by
    have := h.tight
    unfold TopTight at this ⊢
    simpa [set_timer] using this
  have hcur0 : ((timer_expired id w).cpu id).current = (w.cpu id).current := by
    simp [set_timer]
  have hv0 : ValidUnit cfg id (timer_expired id w) ((timer_expired id w).cpu id).current := by
    rw [hcur0]; exact h.valid
  obtain ⟨w1, hok, hp⟩ := schedule_spec cfg id false e d (timer_expired id w) q hinv0 hb0 ht0
    (by rw [hcur0]; exact h.valid.1) (fun hs => by cases hs)
    (fun _ => ⟨hv0, by rw [hcur0]; exact h.unlinked⟩)
  have hL : get_timer ((timer_expired id w).cpu id) = 0 := by
    simp [get_timer, set_timer]
  have hq1 : sched_q1 id false (timer_expired id w) q =
      upd q (w.sc (w.cpu id).current).prio
        (q (w.sc (w.cpu id).current).prio ++ [(w.cpu id).current]) := by
    simp only [sched_q1, q_enq, insertUnit, Bool.false_eq_true, if_false, hL, hcur0,
      timer_expired_sc, if_true]
  have htop1 : sched_top1 id false (timer_expired id w) = (w.sc (w.cpu id).current).prio := by
    simp only [sched_top1, Bool.false_eq_true, if_false, hcur0, timer_expired_sc]
    have := h.top_le
    simp [set_timer]
    exact this
  have hsel : sched_sel id false (timer_expired id w) q =
      (q (w.sc (w.cpu id).current).prio ++ [(w.cpu id).current]).head?.getD 0 := by
    simp only [sched_sel, hq1, htop1, upd_same]
  have hq' : sched_q id false (timer_expired id w) q =
      upd q (w.sc (w.cpu id).current).prio
        (q (w.sc (w.cpu id).current).prio ++ [(w.cpu id).current]).tail := by
    simp only [sched_q, hq1, htop1, hsel, q_deq, upd_same]
    funext p
    by_cases hpe : p = (w.sc (w.cpu id).current).prio
    · subst hpe
      simp only [upd_same]
      cases hl : q (w.sc (w.cpu id).current).prio with
      | nil => simp
      | cons a t => simp
    · simp only [upd_other _ _ _ _ hpe]
  have hselp : (w.sc (sched_sel id false (timer_expired id w) q)).prio =
      (w.sc (w.cpu id).current).prio := by
    have := hp.sel_prio
    rw [htop1] at this
    exact this
  have hselmem := hp.sel_mem
  rw [hq1, htop1, upd_same] at hselmem
  refine ⟨w1, hok, by rw [hp.current, hsel], ?_, ?_, ?_, ?_, ?_, ?_⟩
  · have hcur1 : (w1.cpu id).current = sched_sel id false (timer_expired id w) q := hp.current
    have hprio1 : (w1.sc (w1.cpu id).current).prio = (w.sc (w.cpu id).current).prio := by
      rw [hcur1, hp.prio_eq]; exact hselp
    constructor
    · rw [← hq']; exact hp.rq
    · rw [← hq']; exact hp.bound
    · rw [← hq']; exact hp.tight
    · rw [hcur1]
      refine ⟨?_, ?_, ?_, ?_⟩
      · intro e0
        rcases List.mem_append.mp hselmem with hm | hm
        · exact (h.rq.mem_facts h.valid.2.2.2 hm).1 e0
        · simp at hm; exact h.valid.1 (hm ▸ e0)
      · rcases List.mem_append.mp hselmem with hm | hm
        · exact h.level _ hm
        · simp at hm; rw [hm]; exact h.valid.2.1
      · rw [hp.cpu_eq]
        rcases List.mem_append.mp hselmem with hm | hm
        · exact (h.rq.mem_facts h.valid.2.2.2 hm).2.2.1
        · simp at hm; rw [hm]; exact h.valid.2.2.1
      · rw [hp.prio_eq, timer_expired_sc, hselp]; exact h.valid.2.2.2
    · rw [hcur1]; exact hp.prev_sel
    · intro p hp1 hp2
      rw [hprio1] at hp2
      have hne : p ≠ (w.sc (w.cpu id).current).prio := by omega
      rw [upd_other _ _ _ _ hne]
      exact h.above p hp1 hp2
    · intro x hx
      rw [hprio1, upd_same] at hx
      have hx' := List.mem_of_mem_tail hx
      rcases List.mem_append.mp hx' with hm | hm
      · exact h.level _ hm
      · simp at hm; rw [hm]; exact h.valid.2.1
  · have := hp.left_cur
    rw [hcur0, hL] at this
    simpa using this
  · intro x hx
    have := hp.left_other x (by rw [hcur0]; exact hx)
    simpa using this
  · intro x; simpa using hp.full_eq x
  · intro x; simpa using hp.prio_eq x
  · rw [hp.current]; exact hselp
theorem upd_upd {α : Type} (f : Nat → α) (a : Nat) (v v' : α) :
    upd (upd f a v) a v' = upd f a v' := by
  funext x
  unfold upd
  split <;> rfl

theorem rr_run_spec (cfg : Config) (id : Nat) :
    ∀ (n : Nat) (nows : Nat → Nat × Nat) (w : World) (q : Nat → List Nat),
      RrInv cfg id w q → n ≤ (q (w.sc (w.cpu id).current).prio).length + 1 →
      ∃ sels w' l', rr_run cfg id n nows w = .ok (sels, w') ∧
        sels.map (·.1) = (q (w.sc (w.cpu id).current).prio ++ [(w.cpu id).current]).take n ∧
        sels.map (·.2) =
          ((q (w.sc (w.cpu id).current).prio).map (fun x => (w.sc x).left) ++
            [(w.sc (w.cpu id).current).full]).take n ∧
        RrInv cfg id w' (upd q (w.sc (w.cpu id).current).prio l') ∧
        l' ++ [(w'.cpu id).current] =
          (q (w.sc (w.cpu id).current).prio ++ [(w.cpu id).current]).rotate n ∧
        (w'.sc (w'.cpu id).current).prio = (w.sc (w.cpu id).current).prio := by
  intro n
  induction n with
  | zero =>
    intro nows w q h _
    refine ⟨[], w, q (w.sc (w.cpu id).current).prio, rfl, by simp, by simp, ?_, by simp, rfl⟩
    rw [upd_self]; exact h
  | succ n ih =>
    intro nows w q h hn
    obtain ⟨w1, hok1, hcur1, hinv1, hleftc, hlefto, hfull, hprio, hprio1⟩ :=
      rr_round cfg id (nows 0).1 (nows 0).2 w q h
    have hP1 : (w1.sc (w1.cpu id).current).prio = (w.sc (w.cpu id).current).prio := by
      rw [hprio]; exact hprio1
    -- the cycle
    obtain ⟨c0, t, hc⟩ : ∃ c0 t,
        q (w.sc (w.cpu id).current).prio ++ [(w.cpu id).current] = c0 :: t := by
      cases hl : q (w.sc (w.cpu id).current).prio with
      | nil => exact ⟨_, [], rfl⟩
      | cons a l => exact ⟨a, l ++ [(w.cpu id).current], rfl⟩
    have hlen : t.length = (q (w.sc (w.cpu id).current).prio).length := by
      have := congrArg List.length hc
      simp at this
      omega
    rw [hc] at hcur1 hinv1
    simp only [List.head?_cons, Option.getD_some, List.tail_cons] at hcur1 hinv1
    have hq1 : upd q (w.sc (w.cpu id).current).prio t (w1.sc (w1.cpu id).current).prio = t := by
      rw [hP1, upd_same]
    obtain ⟨sels, w', l', hok', hfst, hsnd, hinv', hrot, hP'⟩ :=
      ih (fun k => nows (k + 1)) w1 _ hinv1 (by rw [hq1]; omega)
    rw [hq1] at hfst hsnd hrot
    rw [hP1, upd_upd] at hinv'
    refine ⟨((w1.cpu id).current, (w1.sc (w1.cpu id).current).left) :: sels, w', l', ?_, ?_, ?_,
      hinv', ?_, by rw [hP', hP1]⟩
    · simp only [rr_run, hok1, hok', bind, Except.bind]
    · rw [List.map_cons, hfst, hc, hcur1, List.take_succ_cons,
        List.take_append_of_le_length (by omega)]
    · -- the quantum each unit holds
      have hcn : (w.cpu id).current ∉ q (w.sc (w.cpu id).current).prio :=
        h.rq.not_mem_of_prev h.valid.2.2.2 h.unlinked
      have hg : ∀ x, (w1.sc x).left =
          if x = (w.cpu id).current then (w.sc (w.cpu id).current).full else (w.sc x).left := by
        intro x
        by_cases hx : x = (w.cpu id).current
        · rw [hx, if_pos rfl]; exact hleftc
        · rw [if_neg hx]; exact hlefto x hx
      have hmap : (q (w.sc (w.cpu id).current).prio).map (fun x => (w.sc x).left) ++
          [(w.sc (w.cpu id).current).full] = (c0 :: t).map (fun x => (w1.sc x).left) := by
        rw [← hc, List.map_append]
        congr 1
        · apply List.map_congr_left
          intro x hx
          have hxc : x ≠ (w.cpu id).current := fun e => hcn (e ▸ hx)
          show (w.sc x).left = (w1.sc x).left
          rw [hg x, if_neg hxc]
        · simp [hg]
      rw [List.map_cons, hsnd, hmap, hcur1, List.map_cons, List.take_succ_cons,
        List.take_append_of_le_length (by simp; omega)]
    · rw [hrot, hcur1, hc]
      have : (c0 :: t).rotate (n + 1) = ((c0 :: t).rotate 1).rotate n := by
        rw [List.rotate_rotate, Nat.add_comm]
      rw [this]
      simp [List.rotate_cons_succ]

/-! ## One remote wake-up -/

theorem wakeup_spec (cfg : Config) (id t u now : Nat) (nows : Nat → Nat) (w : World)
    (q : Nat → List Nat) (hinv : RqInv cfg t w q) (hempty : (w.cpu t).rq_queue = 0)
    (hcur : (w.cpu t).current ≠ 0) (hv : ValidUnit cfg t w u) (hid : id ≠ t)
    (hq : ∀ l, l < cfg.priorities → u ∉ q l) :
    ∃ w0, remote_enqueue cfg id u now w = .ok w0 ∧ PushPost u w [] w0 ∧
      ∃ w1, rrq_loop cfg t 1 (w0.cpu t).rq_queue nows w0 = .ok w1 ∧
        DrainPost cfg t w0 q [u] w1 ∧
        rrq_handler cfg t 1 nows w0 = .ok (w1.setCpu t { w1.cpu t with rq_queue := 0 }) ∧
        q_drain w0.sc q [u] = q_enq q (w.sc u).prio (w.sc u).left u := by
  have hring : Ring w.sc (w.cpu t).rq_queue [] := by
    rw [hempty]; exact ⟨Cyc.nil _, rfl⟩
  obtain ⟨w0, hok0, hpost0⟩ := remote_enqueue_spec cfg id u now w [] hv.1
    (by rw [hv.2.2.1]; exact hid) (by rw [hv.2.2.1]; exact hring) (by simp)
  have hring0 : Ring w0.sc (w0.cpu t).rq_queue [u] := by
    have := hpost0.ring
    rw [hv.2.2.1] at this
    simpa using this
  have hcpu0 := hpost0.cpu_home
  rw [hv.2.2.1] at hcpu0
  have hinv0 : RqInv cfg t w0 q := by
    apply hinv.same_on_queues
    · rw [hcpu0]
    · rw [hcpu0]
    · intro l hl x hx
      exact hpost0.heap_other x (fun e => hq l hl (e ▸ hx)) (by simp)
  have hcur0 : (w0.cpu t).current ≠ 0 := by rw [hcpu0]; exact hcur
  obtain ⟨w1, hok1, hpost1⟩ := rrq_loop_spec cfg t [u] 1 (w0.cpu t).rq_queue nows w0 q
    (by simp) hinv0 hring0
    (fun x hx => by
      have hxu : x = u := by simpa using hx
      subst hxu
      exact ⟨⟨hv.1, hv.2.1, by rw [hpost0.cpu_eq]; exact hv.2.2.1,
        by rw [hpost0.prio_eq]; exact hv.2.2.2⟩, hq⟩)
    (fun _ => hcur0)
  refine ⟨w0, hok0, hpost0, w1, hok1, hpost1, ?_, ?_⟩
  · simp only [rrq_handler, hok1, bind, Except.bind]
  · simp only [q_drain, hpost0.prio_eq, hpost0.left_eq]

/-! ## Strict priorities: one invocation of the scheduler -/

@[simp] theorem timer_reads_sc (id L : Nat) (w : World) : (timer_reads id L w).sc = w.sc := rfl

@[simp] theorem timer_reads_cpu (id L : Nat) (w : World) :
    (timer_reads id L w).cpu id = set_timer (w.cpu id) L := by
  simp [timer_reads]

theorem timer_reads_cpu_other (id L : Nat) (w : World) (j : Nat) (h : j ≠ id) :
    (timer_reads id L w).cpu j = w.cpu j := by
  simp [timer_reads, h]

theorem timer_expired_eq (id : Nat) (w : World) : timer_expired id w = timer_reads id 0 w := rfl

theorem sched_timer_spec (cfg : Config) (id : Nat) (suspend : Bool) (e d L : Nat)
    (w : World) (q : Nat → List Nat)
    (hinv : RqInv cfg id w q) (hb : TopBound cfg id w q) (ht : TopTight id w q)
    (hcur : (w.cpu id).current ≠ 0)
    (hsus : suspend = true → q (w.cpu id).prio_top ≠ [])
    (hrun : suspend = false →
      ValidUnit cfg id w (w.cpu id).current ∧ (w.sc (w.cpu id).current).prev = 0) :
    ∃ w', schedule cfg id suspend e d (timer_reads id L w) = .ok w' ∧
      SchedPost cfg id suspend e d (timer_reads id L w) q w' ∧
      sched_q1 id suspend (timer_reads id L w) q =
        (if suspend then q
          else q_enq q (w.sc (w.cpu id).current).prio (L % 2 ^ 32) (w.cpu id).current) ∧
      sched_top1 id suspend (timer_reads id L w) =
        (if suspend then (w.cpu id).prio_top
          else max (w.cpu id).prio_top (w.sc (w.cpu id).current).prio) := by
  have hinv0 : RqInv cfg id (timer_reads id L w) q :=
    hinv.congr (by simp [set_timer]) (by simp [set_timer]) (fun x => by simp)
  have hb0 : TopBound cfg id (timer_reads id L w) q := by
    intro p hp1 hp2
    exact hb p hp1 (by simpa [set_timer] using hp2)
  have ht0 : TopTight id (timer_reads id L w) q := by
    unfold TopTight at ht ⊢
    simpa [set_timer] using ht
  have hcur0 : ((timer_reads id L w).cpu id).current = (w.cpu id).current := by
    simp [set_timer]
  have htop0 : ((timer_reads id L w).cpu id).prio_top = (w.cpu id).prio_top := by
    simp [set_timer]
  have hL : get_timer ((timer_reads id L w).cpu id) = L % 2 ^ 32 := by
    simp [get_timer, set_timer]
  obtain ⟨w1, hok, hp⟩ := schedule_spec cfg id suspend e d (timer_reads id L w) q hinv0 hb0 ht0
    (by rw [hcur0]; exact hcur) (fun hs => by rw [htop0]; exact hsus hs)
    (fun hs => by rw [hcur0]; exact hrun hs)
  refine ⟨w1, hok, hp, ?_, ?_⟩
  · simp only [sched_q1, hL, hcur0, timer_reads_sc]
  · simp only [sched_top1, hcur0, htop0, timer_reads_sc]
theorem high_reselect (cfg : Config) (id e d L : Nat) (w : World) (q : Nat → List Nat) (P : Nat)
    (h : HighRun cfg id w q P) :
    ∃ w1, schedule cfg id false e d (timer_reads id L w) = .ok w1 ∧
      (w1.cpu id).current = (w.cpu id).current ∧ HighRun cfg id w1 q P ∧
      (w1.sc (w.cpu id).current).left =
        (if L % 2 ^ 32 = 0 then (w.sc (w.cpu id).current).full else L % 2 ^ 32) ∧
      (w1.cpu id).timer = (w1.sc (w.cpu id).current).left % 2 ^ 32 ∧
      (∀ x, x ≠ (w.cpu id).current → (w1.sc x).left = (w.sc x).left) ∧
      (∀ x, (w1.sc x).full = (w.sc x).full) ∧ (∀ x, (w1.sc x).prio = (w.sc x).prio) := by
  obtain ⟨w1, hok, hp, hq1, htop1⟩ := sched_timer_spec cfg id false e d L w q h.rr.rq h.rr.bound
    h.rr.tight h.rr.valid.1 (fun hs => by cases hs) (fun _ => ⟨h.rr.valid, h.rr.unlinked⟩)
  have hcur0 : ((timer_reads id L w).cpu id).current = (w.cpu id).current := by
    simp [set_timer]
  have hL : get_timer ((timer_reads id L w).cpu id) = L % 2 ^ 32 := by
    simp [get_timer, set_timer]
  simp only [Bool.false_eq_true, if_false] at hq1 htop1
  have hq1' : sched_q1 id false (timer_reads id L w) q =
      upd q (w.sc (w.cpu id).current).prio [(w.cpu id).current] := by
    rw [hq1, q_enq, h.sole, insertUnit_nil]
  have htop1' : sched_top1 id false (timer_reads id L w) = (w.sc (w.cpu id).current).prio := by
    rw [htop1]; exact max_eq_right h.rr.top_le
  have hsel : sched_sel id false (timer_reads id L w) q = (w.cpu id).current := by
    simp only [sched_sel, hq1', htop1', upd_same, List.head?_cons, Option.getD_some]
  have hq' : sched_q id false (timer_reads id L w) q = q := by
    simp only [sched_q, hq1', htop1', hsel, q_deq, upd_same, upd_upd]
    funext p
    by_cases hpe : p = (w.sc (w.cpu id).current).prio
    · subst hpe
      simp [h.sole]
    · simp only [upd_other _ _ _ _ hpe]
  have hcur1 : (w1.cpu id).current = (w.cpu id).current := by rw [hp.current, hsel]
  have hprio : ∀ x, (w1.sc x).prio = (w.sc x).prio := fun x => by simpa using hp.prio_eq x
  have hfull : ∀ x, (w1.sc x).full = (w.sc x).full := fun x => by simpa using hp.full_eq x
  have hlefto : ∀ x, x ≠ (w.cpu id).current → (w1.sc x).left = (w.sc x).left := by
    intro x hx
    have := hp.left_other x (by rw [hcur0]; exact hx)
    simpa using this
  have hrq := hp.rq
  have hbd := hp.bound
  have htg := hp.tight
  rw [hq'] at hrq hbd htg
  have hcn : ∀ p, p < cfg.priorities → (w.cpu id).current ∉ q p := fun p hp1 =>
    h.rr.rq.not_mem_of_prev hp1 h.rr.unlinked
  refine ⟨w1, hok, hcur1, ?_, ?_, ?_, hlefto, hfull, hprio⟩
  · refine ⟨⟨hrq, hbd, htg, ?_, ?_, ?_, ?_⟩, ?_, ?_, h.ne, h.above, h.level, ?_⟩
    · rw [hcur1]
      exact ⟨h.rr.valid.1, h.rr.valid.2.1, by
        have := hp.cpu_eq (w.cpu id).current
        rw [this]; exact h.rr.valid.2.2.1, by rw [hprio]; exact h.rr.valid.2.2.2⟩
    · rw [hcur1]
      have := hp.prev_sel
      rwa [hsel] at this
    · intro p hp1 hp2
      rw [hcur1, hprio] at hp2
      exact h.rr.above p hp1 hp2
    · intro x hx
      rw [hcur1, hprio] at hx
      exact h.rr.level x hx
    · rw [hcur1, hprio]; exact h.sole
    · rw [hcur1, hprio]; exact h.hi
    · intro x hx
      have hxc : x ≠ (w.cpu id).current := fun e0 => by
        apply hcn P (Nat.lt_trans h.hi h.rr.valid.2.2.2)
        rw [← e0]; exact hx
      rw [hlefto x hxc, hfull]
      exact h.fresh x hx
  · have := hp.left_cur
    rw [hcur0, hL] at this
    simpa using this
  · have := hp.timer
    rwa [hsel] at this
theorem AllReady.top_is_high {cfg : Config} {id : Nat} {w : World} {q : Nat → List Nat} {H P : Nat}
    (h : AllReady cfg id w q H P) : (w.cpu id).prio_top = (w.sc H).prio := by
  have h1 : ¬ (w.cpu id).prio_top < (w.sc H).prio := by
    intro hlt
    have := h.bound _ h.hi_lt hlt
    rw [h.top] at this
    cases this
  by_contra hne
  have hgt : (w.sc H).prio < (w.cpu id).prio_top := by omega
  have hq := h.above _ h.rq.1 (by have := h.hi; omega) (by omega)
  rcases h.tight with ht | ht
  · exact ht hq
  · omega

theorem all_ready_first (cfg : Config) (id e d L : Nat) (w : World) (q : Nat → List Nat)
    (H P : Nat) (h : AllReady cfg id w q H P) :
    ∃ w1 q1, schedule cfg id false e d (timer_reads id L w) = .ok w1 ∧
      (w1.cpu id).current = H ∧ HighRun cfg id w1 q1 P ∧ q1 P = q P ∧
      (w1.sc H).left = (w.sc H).full ∧
      (∀ x, (w1.sc x).full = (w.sc x).full) ∧ (∀ x, (w1.sc x).prio = (w.sc x).prio) := by
  obtain ⟨w1, hok, hp, hq1, htop1⟩ := sched_timer_spec cfg id false e d L w q h.rq h.bound
    h.tight h.valid.1 (fun hs => by cases hs) (fun _ => ⟨h.valid, h.unlinked⟩)
  have hcur0 : ((timer_reads id L w).cpu id).current = (w.cpu id).current := by
    simp [set_timer]
  simp only [Bool.false_eq_true, if_false] at hq1 htop1
  have hlow := h.low
  have hhi := h.hi
  have hne0 : (w.sc H).prio ≠ (w.sc (w.cpu id).current).prio := by omega
  have hneP : P ≠ (w.sc (w.cpu id).current).prio := by omega
  have hnePH : P ≠ (w.sc H).prio := by omega
  have htop1' : sched_top1 id false (timer_reads id L w) = (w.sc H).prio := by
    rw [htop1, h.top_is_high]; exact max_eq_left (by omega)
  have hsel : sched_sel id false (timer_reads id L w) q = H := by
    simp only [sched_sel, hq1, htop1', q_enq, upd_other _ _ _ _ hne0, h.top, List.head?_cons,
      Option.getD_some]
  have hq' : sched_q id false (timer_reads id L w) q =
      upd (q_enq q (w.sc (w.cpu id).current).prio (L % 2 ^ 32) (w.cpu id).current)
        (w.sc H).prio [] := by
    simp only [sched_q, hq1, htop1', hsel, q_deq]
    simp only [q_enq, upd_other _ _ _ _ hne0, h.top]
    simp
  have hcur1 : (w1.cpu id).current = H := by rw [hp.current, hsel]
  have hprio : ∀ x, (w1.sc x).prio = (w.sc x).prio := fun x => by simpa using hp.prio_eq x
  have hfull : ∀ x, (w1.sc x).full = (w.sc x).full := fun x => by simpa using hp.full_eq x
  have hlefto : ∀ x, x ≠ (w.cpu id).current → (w1.sc x).left = (w.sc x).left := by
    intro x hx
    have := hp.left_other x (by rw [hcur0]; exact hx)
    simpa using this
  have hrq := hp.rq
  have hbd := hp.bound
  have htg := hp.tight
  rw [hq'] at hrq hbd htg
  have hcn : ∀ p, p < cfg.priorities → (w.cpu id).current ∉ q p := fun p hp1 =>
    h.rq.not_mem_of_prev hp1 h.unlinked
  have hHm : H ∈ q (w.sc H).prio := by rw [h.top]; simp
  have hHf := h.rq.mem_facts h.hi_lt hHm
  have hqP : upd (q_enq q (w.sc (w.cpu id).current).prio (L % 2 ^ 32) (w.cpu id).current)
      (w.sc H).prio [] P = q P := by
    rw [upd_other _ _ _ _ hnePH, q_enq, upd_other _ _ _ _ hneP]
  have habove : ∀ p, p < cfg.priorities → P < p →
      upd (q_enq q (w.sc (w.cpu id).current).prio (L % 2 ^ 32) (w.cpu id).current)
        (w.sc H).prio [] p = [] := by
    intro p hp1 hp2
    by_cases hpe : p = (w.sc H).prio
    · rw [hpe, upd_same]
    · rw [upd_other _ _ _ _ hpe, q_enq, upd_other _ _ _ _ (by omega)]
      exact h.above p hp1 hp2 hpe
  refine ⟨w1, _, hok, hcur1, ?_, hqP, ?_, hfull, hprio⟩
  · refine ⟨⟨hrq, hbd, htg, ?_, ?_, ?_, ?_⟩, ?_, ?_, ?_, habove, ?_, ?_⟩
    · rw [hcur1]
      exact ⟨hHf.1, h.hi_ok, by
        have := hp.cpu_eq H
        rw [this]; exact hHf.2.2.1, by rw [hprio]; exact h.hi_lt⟩
    · rw [hcur1]
      have := hp.prev_sel
      rwa [hsel] at this
    · intro p hp1 hp2
      rw [hcur1, hprio] at hp2
      exact habove p hp1 (by omega)
    · intro x hx
      rw [hcur1, hprio, upd_same] at hx
      cases hx
    · rw [hcur1, hprio, upd_same]
    · rw [hcur1, hprio]; exact h.hi
    · rw [hqP]; exact h.ne
    · intro x hx
      rw [hqP] at hx
      exact h.level x hx
    · intro x hx
      rw [hqP] at hx
      have hxc : x ≠ (w.cpu id).current := fun e0 => by
        apply hcn P (Nat.lt_trans h.hi h.hi_lt)
        rw [← e0]; exact hx
      rw [hlefto x hxc, hfull]
      exact h.fresh x hx
  · have hxc : H ≠ (w.cpu id).current := fun e0 => by
      apply hcn _ h.hi_lt
      rw [← e0]; exact hHm
    rw [hlefto H hxc]; exact h.hi_fresh
theorem HighRun.top_is_level {cfg : Config} {id : Nat} {w : World} {q : Nat → List Nat} {P : Nat}
    (h : HighRun cfg id w q P) : (w.cpu id).prio_top = P := by
  have hP : P < cfg.priorities := Nat.lt_trans h.hi h.rr.valid.2.2.2
  have h1 : ¬ (w.cpu id).prio_top < P := fun hlt => h.ne (h.rr.bound _ hP hlt)
  by_contra hne
  have hq := h.above _ h.rr.rq.1 (by omega)
  rcases h.rr.tight with ht | ht
  · exact ht hq
  · omega

theorem high_suspend (cfg : Config) (id e d L : Nat) (w : World) (q : Nat → List Nat) (P : Nat)
    (h : HighRun cfg id w q P) :
    ∃ w1, schedule cfg id true e d (timer_reads id L w) = .ok w1 ∧
      (w1.cpu id).current = (q P).head?.getD 0 ∧
      RrInv cfg id w1 (upd q P (q P).tail) ∧ (w1.sc (w1.cpu id).current).prio = P ∧
      (∀ x, x ≠ (w.cpu id).current → (w1.sc x).left = (w.sc x).left) ∧
      (∀ x, (w1.sc x).full = (w.sc x).full) ∧ (∀ x, (w1.sc x).prio = (w.sc x).prio) := by
  have hP : P < cfg.priorities := Nat.lt_trans h.hi h.rr.valid.2.2.2
  obtain ⟨w1, hok, hp, hq1, htop1⟩ := sched_timer_spec cfg id true e d L w q h.rr.rq h.rr.bound
    h.rr.tight h.rr.valid.1 (fun _ => by rw [h.top_is_level]; exact h.ne) (fun hs => by cases hs)
  have hcur0 : ((timer_reads id L w).cpu id).current = (w.cpu id).current := by
    simp [set_timer]
  simp only [if_true] at hq1 htop1
  rw [h.top_is_level] at htop1
  obtain ⟨a, t, hat⟩ : ∃ a t, q P = a :: t := by
    cases hl : q P with
    | nil => exact absurd hl h.ne
    | cons a t => exact ⟨a, t, rfl⟩
  have hsel : sched_sel id true (timer_reads id L w) q = a := by
    simp only [sched_sel, hq1, htop1, hat, List.head?_cons, Option.getD_some]
  have hq' : sched_q id true (timer_reads id L w) q = upd q P t := by
    simp only [sched_q, hq1, htop1, hsel, q_deq, hat, List.erase_cons_head]
  have hcur1 : (w1.cpu id).current = a := by rw [hp.current, hsel]
  have hprio : ∀ x, (w1.sc x).prio = (w.sc x).prio := fun x => by simpa using hp.prio_eq x
  have hfull : ∀ x, (w1.sc x).full = (w.sc x).full := fun x => by simpa using hp.full_eq x
  have hlefto : ∀ x, x ≠ (w.cpu id).current → (w1.sc x).left = (w.sc x).left := by
    intro x hx
    have := hp.left_other x (by rw [hcur0]; exact hx)
    simpa using this
  have hrq := hp.rq
  have hbd := hp.bound
  have htg := hp.tight
  rw [hq'] at hrq hbd htg
  have ham : a ∈ q P := by rw [hat]; simp
  have haf := h.rr.rq.mem_facts hP ham
  have hP1 : (w1.sc (w1.cpu id).current).prio = P := by rw [hcur1, hprio]; exact haf.2.1
  rw [hat]
  simp only [List.head?_cons, Option.getD_some, List.tail_cons]
  refine ⟨w1, hok, hcur1, ⟨hrq, hbd, htg, ?_, ?_, ?_, ?_⟩, hP1, hlefto, hfull, hprio⟩
  · rw [hcur1]
    exact ⟨haf.1, h.level a ham, by
      have := hp.cpu_eq a
      rw [this]; exact haf.2.2.1, by rw [hprio, haf.2.1]; exact hP⟩
  · rw [hcur1]
    have := hp.prev_sel
    rwa [hsel] at this
  · intro p hp1 hp2
    rw [hP1] at hp2
    rw [upd_other _ _ _ _ (by omega)]
    exact h.above p hp1 hp2
  · intro x hx
    rw [hP1, upd_same] at hx
    exact h.level x (by rw [hat]; exact List.mem_cons_of_mem _ hx)

theorem high_run (cfg : Config) (id : Nat) (q : Nat → List Nat) (P : Nat) :
    ∀ (n : Nat) (nows : Nat → Nat × Nat) (w : World), HighRun cfg id w q P →
      ∃ sels w', rr_run cfg id n nows w = .ok (sels, w') ∧
        sels = List.replicate n ((w.cpu id).current, (w.sc (w.cpu id).current).full) ∧
        HighRun cfg id w' q P ∧ (w'.cpu id).current = (w.cpu id).current ∧
        (∀ x, (w'.sc x).full = (w.sc x).full) ∧ (∀ x, (w'.sc x).prio = (w.sc x).prio) := by
  intro n
  induction n with
  | zero =>
    intro nows w h
    exact ⟨[], w, rfl, rfl, h, rfl, fun _ => rfl, fun _ => rfl⟩
  | succ n ih =>
    intro nows w h
    obtain ⟨w1, hok1, hcur1, h1, hleft1, -, -, hfull1, hprio1⟩ :=
      high_reselect cfg id (nows 0).1 (nows 0).2 0 w q P h
    obtain ⟨sels, w', hok', hs, h', hcur', hfull', hprio'⟩ := ih (fun k => nows (k + 1)) w1 h1
    refine ⟨((w1.cpu id).current, (w1.sc (w1.cpu id).current).left) :: sels, w', ?_, ?_, h',
      by rw [hcur', hcur1], fun x => by rw [hfull', hfull1], fun x => by rw [hprio', hprio1]⟩
    · simp only [rr_run, timer_expired_eq, hok1, hok', bind, Except.bind]
    · rw [hs, hcur1, hfull1, hleft1]
      simp [List.replicate_succ]
theorem rr_nth_zero (a : Nat) (t : List Nat) : rr_nth (a :: t) 0 = a := by
  simp [rr_nth]

theorem rr_nth_succ (a : Nat) (t : List Nat) (k : Nat) :
    rr_nth (a :: t) (k + 1) = rr_nth (t ++ [a]) k := by
  simp [rr_nth, List.rotate_cons_succ]

theorem rr_run_cycle (cfg : Config) (id : Nat) :
    ∀ (n : Nat) (nows : Nat → Nat × Nat) (w : World) (q : Nat → List Nat),
      RrInv cfg id w q →
      (∀ x ∈ q (w.sc (w.cpu id).current).prio, (w.sc x).left = (w.sc x).full) →
      ∃ sels w', rr_run cfg id n nows w = .ok (sels, w') ∧
        sels = (List.range n).map (fun k =>
          (rr_nth (q (w.sc (w.cpu id).current).prio ++ [(w.cpu id).current]) k,
            (w.sc (rr_nth (q (w.sc (w.cpu id).current).prio ++ [(w.cpu id).current]) k)).full)) := by
  intro n
  induction n with
  | zero =>
    intro nows w q _ _
    exact ⟨[], w, rfl, rfl⟩
  | succ n ih =>
    intro nows w q h hfresh
    obtain ⟨w1, hok1, hcur1, hinv1, hleftc, hlefto, hfull, hprio, hprio1⟩ :=
      rr_round cfg id (nows 0).1 (nows 0).2 w q h
    have hP1 : (w1.sc (w1.cpu id).current).prio = (w.sc (w.cpu id).current).prio := by
      rw [hprio]; exact hprio1
    obtain ⟨c0, t, hc⟩ : ∃ c0 t,
        q (w.sc (w.cpu id).current).prio ++ [(w.cpu id).current] = c0 :: t := by
      cases hl : q (w.sc (w.cpu id).current).prio with
      | nil => exact ⟨_, [], rfl⟩
      | cons a l => exact ⟨a, l ++ [(w.cpu id).current], rfl⟩
    have hleft1 : ∀ x ∈ c0 :: t, (w1.sc x).left = (w.sc x).full := by
      intro x hx
      rw [← hc] at hx
      by_cases hxc : x = (w.cpu id).current
      · rw [hxc]; exact hleftc
      · rw [hlefto x hxc]
        rcases List.mem_append.mp hx with hm | hm
        · exact hfresh x hm
        · simp at hm; exact absurd hm hxc
    rw [hc] at hcur1 hinv1
    simp only [List.head?_cons, Option.getD_some, List.tail_cons] at hcur1 hinv1
    have hq1 : upd q (w.sc (w.cpu id).current).prio t (w1.sc (w1.cpu id).current).prio = t := by
      rw [hP1, upd_same]
    obtain ⟨sels, w', hok', hs⟩ := ih (fun k => nows (k + 1)) w1 _ hinv1 (by
      intro x hx
      rw [hq1] at hx
      rw [hfull]
      exact hleft1 x (List.mem_cons_of_mem _ hx))
    rw [hq1, hcur1] at hs
    refine ⟨((w1.cpu id).current, (w1.sc (w1.cpu id).current).left) :: sels, w', ?_, ?_⟩
    · simp only [rr_run, hok1, hok', bind, Except.bind]
    · rw [hc, List.range_succ_eq_map, List.map_cons, List.map_map, hs, hcur1,
        hleft1 c0 (by simp), rr_nth_zero]
      congr 1
      apply List.map_congr_left
      intro k _
      simp only [Function.comp, rr_nth_succ, hfull]
theorem all_ready_run (cfg : Config) (id : Nat) (w : World) (q : Nat → List Nat) (H P : Nat)
    (h : AllReady cfg id w q H P) (n : Nat) (nows : Nat → Nat × Nat) :
    ∃ sels w' q', rr_run cfg id (n + 1) nows w = .ok (sels, w') ∧
      sels = List.replicate (n + 1) (H, (w.sc H).full) ∧
      HighRun cfg id w' q' P ∧ (w'.cpu id).current = H ∧ q' P = q P ∧
      (∀ x, (w'.sc x).full = (w.sc x).full) ∧ (∀ x, (w'.sc x).prio = (w.sc x).prio) := by
  obtain ⟨w1, q1, hok1, hcur1, h1, hq1, hleft1, hfull1, hprio1⟩ :=
    all_ready_first cfg id (nows 0).1 (nows 0).2 0 w q H P h
  obtain ⟨sels, w', hok', hs, h', hcur', hfull', hprio'⟩ :=
    high_run cfg id q1 P n (fun k => nows (k + 1)) w1 h1
  refine ⟨((w1.cpu id).current, (w1.sc (w1.cpu id).current).left) :: sels, w', q1, ?_, ?_, h',
    by rw [hcur', hcur1], hq1, fun x => by rw [hfull', hfull1], fun x => by rw [hprio', hprio1]⟩
  · simp only [rr_run, timer_expired_eq, hok1, hok', bind, Except.bind]
  · rw [hs, hcur1, hleft1, hfull1]
    simp [List.replicate_succ]

/-! ## The reschedule flag -/

theorem clear_bit (h n b : Nat) : (h &&& (2 ^ n - 1 - 2 ^ b)).testBit b = false := by
  rw [Nat.testBit_and]
  by_cases hb : b < n
  · have h1 : 2 ^ b < 2 ^ n := Nat.pow_lt_pow_right (by decide) hb
    have : 2 ^ n - 1 - 2 ^ b = 2 ^ n - (2 ^ b + 1) := by omega
    rw [this, Nat.testBit_two_pow_sub_succ h1]
    simp
  · have h1 : 2 ^ n ≤ 2 ^ b := Nat.pow_le_pow_right (by decide) (by omega)
    have : 2 ^ n - 1 - 2 ^ b = 0 := by omega
    rw [this]
    simp

theorem EnqPost.hazard_facts {cfg : Config} {id u now : Nat} {w w' : World}
    {q : Nat → List Nat} (hp : EnqPost cfg id u now w q w') :
    (∀ i, (w.cpu id).hazard.testBit i = true → (w'.cpu id).hazard.testBit i = true) ∧
      ((w.sc (w.cpu id).current).prio < (w.sc u).prio →
        (w'.cpu id).hazard.testBit cfg.hzd_sched_bit = true) ∧
      (∀ i, i ≠ cfg.hzd_sched_bit →
        (w'.cpu id).hazard.testBit i = (w.cpu id).hazard.testBit i) := by
  refine ⟨?_, ?_, ?_⟩
  · intro i hi
    rw [hp.hazard]
    split
    · rw [HZD_SCHED, hazard_bit, hi]; rfl
    · exact hi
  · intro hlt
    rw [hp.hazard, if_pos (Or.inl hlt), HZD_SCHED, hazard_bit]
    simp
  · intro i hi
    rw [hp.hazard]
    split
    · rw [HZD_SCHED, hazard_bit]; simp [hi]
    · rfl

theorem rrq_loop_hazard (cfg : Config) (id : Nat) :
    ∀ (r : List Nat) (fuel ptr : Nat) (nows : Nat → Nat) (w w' : World) (q : Nat → List Nat),
      RqInv cfg id w q → Ring w.sc ptr r →
      (∀ x ∈ r, (w.sc x).cpu = id ∧ ∀ p, p < cfg.priorities → x ∉ q p) →
      rrq_loop cfg id fuel ptr nows w = .ok w' →
      (∀ i, (w.cpu id).hazard.testBit i = true → (w'.cpu id).hazard.testBit i = true) ∧
        (∀ x ∈ r, (w.sc (w.cpu id).current).prio < (w.sc x).prio →
          (w'.cpu id).hazard.testBit cfg.hzd_sched_bit = true) ∧
        (∀ i, i ≠ cfg.hzd_sched_bit →
          (w'.cpu id).hazard.testBit i = (w.cpu id).hazard.testBit i) := by
  intro r
  induction r with
  | nil =>
    intro fuel ptr nows w w' q _ hring _ hok
    have hp0 : ptr = 0 := hring.nil_iff.mpr rfl
    have hw : w' = w := by
      cases fuel <;> simp [rrq_loop, hp0] at hok <;> exact hok.symm
    subst hw
    exact ⟨fun _ h => h, fun x hx => absurd hx (List.not_mem_nil x), fun _ _ => rfl⟩
  | cons a rest ih =>
    intro fuel ptr nows w w' q hinv hring hdis hok
    have hpa : ptr = a := hring.head_eq
    subst hpa
    have hcyc := hring.1
    have hp0 : ptr ≠ 0 := hcyc.mem_ne_zero (by simp)
    cases fuel with
    | zero => simp [rrq_loop, hp0] at hok
    | succ f =>
      rw [rrq_loop_succ cfg id f ptr nows w hp0
        (hcyc.mem_ne_zero (hcyc.next_mem (by simp)))
        (hcyc.mem_ne_zero (hcyc.prev_mem (by simp))), bind_ok_iff] at hok
      obtain ⟨w1, hok1, hok2⟩ := hok
      obtain ⟨hvm, hcurm, -, -⟩ := ready_enqueue_ok cfg id ptr (nows 0) _ w1 hok1
      obtain ⟨hinvm, -, -, hsame, hfield⟩ := rrq_unlink_spec cfg id ptr rest w q hinv hring
        (fun x hx => (hdis x hx).2)
      have hnlm : ptr ∉ q ((rrq_unlink w ptr).sc ptr).prio := by
        rw [(hfield ptr).2.2.1]
        exact (hdis ptr (by simp)).2 _ (by rw [← (hfield ptr).2.2.1]; exact hvm.2.2.2)
      obtain ⟨w1', hok1', hp1⟩ := ready_enqueue_spec cfg id ptr (nows 0) (rrq_unlink w ptr) q
        hinvm hvm hnlm hcurm
      have hw1 : w1' = w1 := by
        rw [hok1] at hok1'
        exact (Except.ok.inj hok1').symm
      subst hw1
      obtain ⟨hrq1, hring1, hdis1, hpl1⟩ := rrq_enqueue_spec cfg id ptr (nows 0) rest w w1' q
        hinv hring hdis hp1
      obtain ⟨hmono, hset, hoth⟩ := ih f _ _ w1' w' _ hrq1 hring1 hdis1 hok2
      obtain ⟨hmono1, hset1, hoth1⟩ := hp1.hazard_facts
      have hwm_cpu : (rrq_unlink w ptr).cpu = w.cpu := rfl
      rw [hwm_cpu] at hmono1 hset1 hoth1
      have hcur1 : (w1'.cpu id).current = (w.cpu id).current := by rw [hp1.current, hwm_cpu]
      have hprio1 : ∀ x, (w1'.sc x).prio = (w.sc x).prio := fun x => by
        rw [hp1.prio_eq, (hfield x).2.2.1]
      refine ⟨fun i hi => hmono i (hmono1 i hi), ?_, fun i hi => by rw [hoth i hi, hoth1 i hi]⟩
      intro x hx hlt
      rcases List.mem_cons.mp hx with e | hxr
      · subst e
        apply hmono
        apply hset1
        rw [(hfield _).2.2.1, (hfield _).2.2.1]
        exact hlt
      · apply hset x hxr
        rw [hcur1, hprio1, hprio1]
        exact hlt
theorem sched_no_higher {cfg : Config} {id : Nat} {suspend : Bool} {e d : Nat} {w w' : World}
    {q : Nat → List Nat} (hp : SchedPost cfg id suspend e d w q w') :
    ∀ p, p < cfg.priorities → ∀ x ∈ sched_q id suspend w q p,
      (w'.sc x).prio ≤ (w'.sc (w'.cpu id).current).prio := by
  intro p hp1 x hx
  have hxp : (w'.sc x).prio = p := ((hp.rq.2 p hp1).2 x hx).1
  have hx1 : x ∈ sched_q1 id suspend w q p := mem_q_deq hx
  have hle : p ≤ sched_top1 id suspend w := by
    by_contra hlt
    have := hp.bound1 p hp1 (by omega)
    rw [this] at hx1
    cases hx1
  rw [hxp, hp.current, hp.prio_eq, hp.sel_prio]
  exact hle

theorem HazInv.transfer {cfg : Config} {id : Nat} {w w' : World} {a a' : Queues}
    (hz : HazInv cfg id w a) (hcur : (w'.cpu id).current = (w.cpu id).current)
    (hprio : ∀ x, (w'.sc x).prio = (w.sc x).prio)
    (hmono : (w.cpu id).hazard.testBit cfg.hzd_sched_bit = true →
      (w'.cpu id).hazard.testBit cfg.hzd_sched_bit = true)
    (hq : ∀ p, p < cfg.priorities → ∀ x ∈ a'.q id p, x ∈ a.q id p ∨
      ((w.sc (w.cpu id).current).prio < (w.sc x).prio →
        (w'.cpu id).hazard.testBit cfg.hzd_sched_bit = true)) :
    HazInv cfg id w' a' := by
  rintro ⟨p, hp1, x, hx, hlt⟩
  rw [hcur, hprio, hprio] at hlt
  rcases hq p hp1 x hx with hm | hs
  · exact hmono (hz ⟨p, hp1, x, hm, hlt⟩)
  · exact hs hlt

theorem HazInv.other_cpu {cfg : Config} {id : Nat} {w w' : World} {a a' : Queues}
    (hz : HazInv cfg id w a) (hcpu : w'.cpu id = w.cpu id)
    (hprio : ∀ x, (w'.sc x).prio = (w.sc x).prio) (hq : a'.q id = a.q id) :
    HazInv cfg id w' a' :=
  hz.transfer (by rw [hcpu]) hprio (by rw [hcpu]; exact fun h => h)
    (fun p _ x hx => Or.inl (by rw [hq] at hx; exact hx))

theorem haz_enqueue {cfg : Config} {w w' : World} {a : Queues} (h : GInv cfg w a) {id : Nat}
    (hz : HazInv cfg id w a) (j u now : Nat) (hleg : (w.sc u).prev = 0)
    (hok : ready_enqueue cfg j u now w = .ok w') :
    HazInv cfg id w' ⟨upd a.q j (q_enq (a.q j) (w.sc u).prio (w.sc u).left u), a.m⟩ := by
  obtain ⟨hp, -⟩ := h.enqueue j u now hleg hok
  by_cases hj : j = id
  · subst hj
    obtain ⟨hmono, hset, -⟩ := hp.hazard_facts
    apply hz.transfer hp.current hp.prio_eq (hmono _)
    intro p _ x hx
    simp only [upd_same] at hx
    rcases mem_q_enq.mp hx with ⟨-, e0⟩ | hm
    · right; rw [e0]; exact hset
    · left; exact hm
  · exact hz.other_cpu (hp.cpu_other id (Ne.symm hj)) hp.prio_eq
      (by simp only [upd_other _ _ _ _ (Ne.symm hj)])

theorem haz_step {cfg : Config} {w w' : World} {a : Queues} (h : GInv cfg w a) {id : Nat}
    (hz : HazInv cfg id w a) (op : Op) (hleg : Legal w a op) (hok : exec cfg op w = .ok w') :
    HazInv cfg id w' (a.after w op) := by
  cases op with
  | enqueue j u now => exact haz_enqueue h hz j u now hleg hok
  | dequeue j u now =>
    obtain ⟨hp, -⟩ := h.dequeue j u now hleg hok
    by_cases hj : j = id
    · subst hj
      apply hz.transfer hp.current hp.prio_eq (by rw [hp.hazard]; exact fun h => h)
      intro p _ x hx
      simp only [Queues.after, upd_same] at hx
      exact Or.inl (mem_q_deq hx)
    · exact hz.other_cpu (hp.cpu_other id (Ne.symm hj)) hp.prio_eq
        (by simp only [Queues.after, upd_other _ _ _ _ (Ne.symm hj)])
  | sched j s e d =>
    obtain ⟨hp, -⟩ := h.sched j s e d hok
    by_cases hj : j = id
    · subst hj
      rintro ⟨p, hp1, x, hx, hlt⟩
      simp only [Queues.after, upd_same] at hx
      have := sched_no_higher hp p hp1 x hx
      omega
    · exact hz.other_cpu (hp.cpu_other id (Ne.symm hj)) hp.prio_eq
        (by simp only [Queues.after, upd_other _ _ _ _ (Ne.symm hj)])
  | remote j u now =>
    by_cases hid : j = (w.sc u).cpu
    · subst hid
      have hu0 : u ≠ 0 := fun e => by simp [exec, remote_enqueue, e] at hok
      have hok' : ready_enqueue cfg (w.sc u).cpu u now w = .ok w' := by
        simpa [exec, remote_enqueue, hu0] using hok
      simp only [Queues.after, if_true]
      exact haz_enqueue h hz _ u now hleg hok'
    · simp only [Queues.after, hid, if_false]
      obtain ⟨hp, -⟩ := h.push j u now hid hleg hok
      by_cases ht : id = (w.sc u).cpu
      · apply hz.transfer (by rw [ht, hp.cpu_home]) hp.prio_eq (by rw [ht, hp.cpu_home]; exact fun h => h)
        intro p _ x hx
        exact Or.inl hx
      · exact hz.other_cpu (hp.cpu_other id ht) hp.prio_eq rfl
  | rrq j fuel nows =>
    obtain ⟨⟨w1, hp, hw'⟩, -⟩ := h.rrq j fuel nows hok
    by_cases hj : j = id
    · subst hj
      have hok0 : rrq_handler cfg j fuel nows w = .ok w' := hok
      unfold rrq_handler at hok0
      rw [bind_ok_iff] at hok0
      obtain ⟨w1', hok1, hfin⟩ := hok0
      have hw1 : w' = w1'.setCpu j { w1'.cpu j with rq_queue := 0 } := (Except.ok.inj hfin).symm
      obtain ⟨hmono, hset, -⟩ := rrq_loop_hazard cfg j (a.m j) fuel _ nows w w1' (a.q j) (h.rq j)
        (h.mbox j) (fun x hx => ⟨h.mbox_cpu j x hx, h.disj j x hx⟩) hok1
      have hcur1 : (w1'.cpu j).current = (w.cpu j).current := by
        have e1 : w1'.setCpu j { w1'.cpu j with rq_queue := 0 } =
            w1.setCpu j { w1.cpu j with rq_queue := 0 } := by rw [← hw1, hw']
        have e2 := congrArg (fun v => (v.cpu j).current) e1
        simp only [setCpu_cpu_same] at e2
        rw [e2, hp.current]
      have hsc1 : w1'.sc = w1.sc := by
        have e1 : w1'.setCpu j { w1'.cpu j with rq_queue := 0 } =
            w1.setCpu j { w1.cpu j with rq_queue := 0 } := by rw [← hw1, hw']
        have e2 := congrArg World.sc e1
        simpa using e2
      subst hw1
      apply hz.transfer (by simp [hcur1]) (fun x => by simpa [hsc1] using hp.prio_eq x)
        (by simpa using hmono _)
      intro p _ x hx
      simp only [Queues.after, upd_same] at hx
      rcases (mem_q_drain_iff w.sc (a.m j) (a.q j) x p).mp hx with hm | ⟨hm, -⟩
      · exact Or.inl hm
      · right
        intro hlt
        simpa using hset x hm hlt
    · subst hw'
      exact hz.other_cpu (by rw [setCpu_cpu_other _ _ _ _ (Ne.symm hj), hp.cpu_other id (Ne.symm hj)])
        (fun x => by simpa using hp.prio_eq x)
        (by simp only [Queues.after, upd_other _ _ _ _ (Ne.symm hj)])
  | rke j stale =>
    have hw : w' = rke_handler cfg j stale w := (Except.ok.inj hok).symm
    subst hw
    by_cases hj : j = id
    · subst hj
      cases stale with
      | false => exact hz
      | true =>
        refine hz.transfer ?_ ?_ ?_ ?_
        · simp [rke_handler]
        · intro x; simp [rke_handler]
        · intro hb
          simp only [rke_handler, if_true, setCpu_cpu_same, HZD_SCHED, hazard_bit, hb]
          rfl
        · intro p _ x hx
          exact Or.inl hx
    · apply hz.other_cpu ?_ ?_ rfl
      · unfold rke_handler; split
        · rw [setCpu_cpu_other _ _ _ _ (Ne.symm hj)]
        · rfl
      · intro x; unfold rke_handler; split <;> rfl
  | tick j v =>
    have hw : w' = w.setCpu j (set_timer (w.cpu j) v) := (Except.ok.inj hok).symm
    subst hw
    by_cases hj : j = id
    · subst hj
      refine hz.transfer ?_ ?_ ?_ ?_
      · simp [set_timer]
      · intro x; rfl
      · simp [set_timer]
      · intro p _ x hx
        exact Or.inl hx
    · exact hz.other_cpu (setCpu_cpu_other _ _ _ _ (Ne.symm hj)) (fun x => rfl) rfl

theorem haz_reach {cfg : Config} {I : World → Queues → Prop} {w0 w : World} {a0 a : Queues}
    {id : Nat} (h0 : GInv cfg w0 a0) (hz : HazInv cfg id w0 a0)
    (hr : Reach cfg I w0 a0 w a) : GInv cfg w a ∧ HazInv cfg id w a := by
  induction hr with
  | start => exact ⟨h0, hz⟩
  | step op _ hleg hok _ ih => exact ⟨ih.1.step op hleg hok, haz_step ih.1 ih.2 op hleg hok⟩
/-! ## The CPU-local variables after `ready_enqueue` and `ready_dequeue`, without any
assumption on the rings -/

theorem ready_enqueue_cpu (cfg : Config) (id v t : Nat) (w0 w1 : World)
    (h : ready_enqueue cfg id v t w0 = .ok w1) :
    (w1.cpu id).prio_top = max (w0.cpu id).prio_top (w0.sc v).prio ∧
      (∀ p, p ≠ (w0.sc v).prio → (w1.cpu id).list p = (w0.cpu id).list p) ∧
      ((w1.cpu id).list (w0.sc v).prio = v ∨
        ((w1.cpu id).list (w0.sc v).prio = (w0.cpu id).list (w0.sc v).prio ∧
          (w0.cpu id).list (w0.sc v).prio ≠ 0)) ∧
      (w1.cpu id).hazard =
        (if (w0.sc v).prio > (w0.sc (w0.cpu id).current).prio ∨
            (v ≠ (w0.cpu id).current ∧ (w0.sc v).prio = (w0.sc (w0.cpu id).current).prio ∧
              (w0.sc v).left ≠ 0)
          then (w0.cpu id).hazard ||| HZD_SCHED cfg else (w0.cpu id).hazard) ∧
      (w1.cpu id).current = (w0.cpu id).current ∧
      (∀ j, j ≠ id → w1.cpu j = w0.cpu j) := by
  unfold ready_enqueue at h
  by_cases h1 : v = 0
  · simp [h1] at h
  by_cases h2 : (w0.sc v).prio < cfg.priorities
  swap
  · simp [h1, h2] at h
  by_cases h3 : (w0.sc v).cpu = id
  swap
  · simp [h1, h2, h3] at h
  by_cases h4 : v = 2 ^ cfg.long_bits - 1
  · simp [h1, h2, h3, ← h4] at h
  simp only [h1, h2, h3, h4, if_false, not_true_eq_false] at h
  have hmax : ∀ a b : Nat, (if a > b then a else b) = max b a := by
    intro a b; split <;> omega
  by_cases h5 : (w0.cpu id).list (w0.sc v).prio = 0
  · simp only [h5, if_true] at h
    split at h
    · cases h
    · injection h with h
      subst h
      refine ⟨by simp [hmax], ?_, Or.inl (by simp), by simp, by simp, ?_⟩
      · intro p hp; simp [hp]
      · intro j hj; simp [hj]
  · simp only [h5, if_false] at h
    split at h
    · cases h
    · next sc1 list1 heq =>
      split at heq
      · cases heq
      · injection heq with heq
        injection heq with hs hl
        subst hs
        subst hl
        split at h
        · cases h
        · injection h with h
          subst h
          refine ⟨by simp [hmax], ?_, ?_, by simp, by simp, ?_⟩
          · intro p hp
            simp only [setCpu_cpu_same]
            split
            · simp [hp]
            · rfl
          · simp only [setCpu_cpu_same]
            split
            · left; simp
            · right; exact ⟨rfl, h5⟩
          · intro j hj; simp [hj]
theorem ready_dequeue_cpu (cfg : Config) (id v t : Nat) (w0 w1 : World)
    (h : ready_dequeue cfg id v t w0 = .ok w1) :
    (w1.cpu id).prio_top = scan_top (w1.cpu id).list (w0.cpu id).prio_top ∧
      (∀ p, p ≠ (w0.sc v).prio → (w1.cpu id).list p = (w0.cpu id).list p) ∧
      ((w1.cpu id).list (w0.sc v).prio = (w0.cpu id).list (w0.sc v).prio ∨
        (w0.cpu id).list (w0.sc v).prio = v) ∧
      (w1.cpu id).hazard = (w0.cpu id).hazard ∧
      (w1.cpu id).current = (w0.cpu id).current ∧
      (∀ j, j ≠ id → w1.cpu j = w0.cpu j) := by
  unfold ready_dequeue at h
  by_cases h1 : v = 0
  · simp [h1] at h
  by_cases h2 : (w0.sc v).prio < cfg.priorities
  swap
  · simp [h1, h2] at h
  by_cases h3 : (w0.sc v).cpu = id
  swap
  · simp [h1, h2, h3] at h
  by_cases h4 : (w0.sc v).prev = 0 ∨ (w0.sc v).next = 0
  · simp [h1, h2, h3, h4] at h
  simp only [h1, h2, h3, h4, if_false, not_true_eq_false] at h
  injection h with h
  subst h
  refine ⟨by simp, ?_, ?_, by simp, by simp, ?_⟩
  · intro p hp
    simp only [setCpu_cpu_same]
    split
    · simp [hp]
    · rfl
  · simp only [setCpu_cpu_same]
    split
    · next hc => right; exact hc
    · left; rfl
  · intro j hj; simp [hj]

theorem TopPtr.after_enqueue {cfg : Config} {id : Nat} {w w' : World} (h : TopPtr cfg id w)
    (j u now : Nat) (hok : ready_enqueue cfg j u now w = .ok w') : TopPtr cfg id w' := by
  obtain ⟨htop, hoth, hlvl, -, -, hcpu⟩ := ready_enqueue_cpu cfg j u now w w' hok
  obtain ⟨hu, -⟩ := ready_enqueue_ok cfg j u now w w' hok
  by_cases hj : j = id
  swap
  · unfold TopPtr
    rw [hcpu id (Ne.symm hj)]
    exact h
  subst hj
  obtain ⟨hb, ht⟩ := h
  refine ⟨?_, ?_⟩
  · intro p hp1 hp2
    rw [htop] at hp2
    rw [hoth p (by omega)]
    exact hb p hp1 (by omega)
  · rw [htop]
    by_cases hc : (w.cpu j).prio_top < (w.sc u).prio
    · left
      rw [max_eq_right (by omega)]
      rcases hlvl with e | ⟨e, e0⟩
      · rw [e]; exact hu.1
      · rw [e]; exact e0
    · rw [max_eq_left (by omega)]
      by_cases hpe : (w.cpu j).prio_top = (w.sc u).prio
      · left
        rw [hpe]
        rcases hlvl with e | ⟨e, e0⟩
        · rw [e]; exact hu.1
        · rw [e]; exact e0
      · rw [hoth _ hpe]
        exact ht

theorem TopPtr.after_dequeue {cfg : Config} {id : Nat} {w w' : World} (h : TopPtr cfg id w)
    (j u now : Nat) (hok : ready_dequeue cfg j u now w = .ok w') : TopPtr cfg id w' := by
  obtain ⟨htop, hoth, hlvl, -, -, hcpu⟩ := ready_dequeue_cpu cfg j u now w w' hok
  obtain ⟨hu, -, -⟩ := ready_dequeue_ok cfg j u now w w' hok
  by_cases hj : j = id
  swap
  · unfold TopPtr
    rw [hcpu id (Ne.symm hj)]
    exact h
  subst hj
  obtain ⟨hb, -⟩ := h
  refine ⟨?_, ?_⟩
  · intro p hp1 hp2
    by_cases hpt : (w.cpu j).prio_top < p
    · have h0 := hb p hp1 hpt
      by_cases hpe : p = (w.sc u).prio
      · rcases hlvl with e | e
        · rw [hpe, e, ← hpe]; exact h0
        · rw [← hpe, h0] at e
          exact absurd e.symm hu
      · rw [hoth p hpe]; exact h0
    · rw [htop] at hp2
      exact scan_top_above _ _ p hp2 (by omega)
  · rw [htop]
    rcases scan_top_found (w'.cpu j).list (w.cpu j).prio_top with hf | hf
    · exact Or.inl hf
    · exact Or.inr hf

theorem TopPtr.reach {cfg : Config} {id : Nat} {w0 w : World} (h0 : TopPtr cfg id w0)
    (hr : ReachRq cfg w0 w) :
    TopPtr cfg id w ∧
      ((w0.cpu id).prio_top < cfg.priorities → (w.cpu id).prio_top < cfg.priorities) := by
  induction hr with
  | start => exact ⟨h0, fun h => h⟩
  | enqueue j u now _ hok ih =>
    refine ⟨ih.1.after_enqueue j u now hok, fun hlt => ?_⟩
    obtain ⟨htop, -, -, -, -, hcpu⟩ := ready_enqueue_cpu cfg j u now _ _ hok
    obtain ⟨hu, -⟩ := ready_enqueue_ok cfg j u now _ _ hok
    by_cases hj : j = id
    · subst hj
      rw [htop]
      exact max_lt (ih.2 hlt) hu.2.2.2
    · rw [hcpu id (Ne.symm hj)]; exact ih.2 hlt
  | dequeue j u now _ hok ih =>
    refine ⟨ih.1.after_dequeue j u now hok, fun hlt => ?_⟩
    obtain ⟨htop, -, -, -, -, hcpu⟩ := ready_dequeue_cpu cfg j u now _ _ hok
    by_cases hj : j = id
    · subst hj
      rw [htop]
      exact Nat.lt_of_le_of_lt (scan_top_le _ _) (ih.2 hlt)
    · rw [hcpu id (Ne.symm hj)]; exact ih.2 hlt

/-! ## The assertions of `ready_enqueue` -/

theorem ready_enqueue_faults (cfg : Config) (id v t : Nat) (w : World) (f : Fault)
    (h : ready_enqueue cfg id v t w = .error f) :
    f = .null_deref ∨ (f = .assert_prio ∧ ¬ (w.sc v).prio < cfg.priorities) ∨
      (f = .assert_cpu ∧ (w.sc v).cpu ≠ id) ∨ (f = .assert_this ∧ v = 2 ^ cfg.long_bits - 1) := by
  unfold ready_enqueue at h
  by_cases h1 : v = 0
  · simp [h1] at h
    exact Or.inl h.symm
  by_cases h2 : (w.sc v).prio < cfg.priorities
  swap
  · simp [h1, h2] at h
    exact Or.inr (Or.inl ⟨h.symm, h2⟩)
  by_cases h3 : (w.sc v).cpu = id
  swap
  · simp [h1, h2, h3] at h
    exact Or.inr (Or.inr (Or.inl ⟨h.symm, h3⟩))
  by_cases h4 : v = 2 ^ cfg.long_bits - 1
  · simp [h1, h2, h3, ← h4] at h
    exact Or.inr (Or.inr (Or.inr ⟨h.symm, h4⟩))
  simp only [h1, h2, h3, h4, if_false, not_true_eq_false] at h
  left
  by_cases h5 : (w.cpu id).list (w.sc v).prio = 0
  · simp only [h5, if_true] at h
    split at h
    · cases h; rfl
    · cases h
  · simp only [h5, if_false] at h
    split at h
    · next e0 heq =>
      split at heq
      · injection heq with heq
        injection h with h
        rw [← h, ← heq]
      · cases heq
    · split at h
      · cases h; rfl
      · cases h

theorem ready_enqueue_linked (cfg : Config) (id u now : Nat) (w : World) (q : Nat → List Nat)
    (hinv : RqInv cfg id w q) (hv : ValidUnit cfg id w u) (hl : u ∈ q (w.sc u).prio)
    (hcur : (w.cpu id).current ≠ 0) : ∃ w', ready_enqueue cfg id u now w = .ok w' := by
  obtain ⟨h1, h4, h3, h2⟩ := hv
  have hring := (hinv.2 _ h2).1
  have hne : q (w.sc u).prio ≠ [] := List.ne_nil_of_mem hl
  have hhead : (w.cpu id).list (w.sc u).prio ≠ 0 := fun e => hne (hring.nil_iff.mp e)
  have hhm : (w.cpu id).list (w.sc u).prio ∈ q (w.sc u).prio := by
    cases hq : q (w.sc u).prio with
    | nil => exact absurd hq hne
    | cons a t =>
      rw [hq] at hring
      rw [hring.head_eq]
      simp
  have hprev := (hinv.mem_facts h2 hhm).2.2.2.1
  unfold ready_enqueue
  simp only [h1, h2, h3, h4, if_false, not_true_eq_false, hhead]
  by_cases hc : (w.cpu id).list (w.sc u).prio = u
  · simp [hc, hcur]
    rw [hc] at hprev
    simp [hprev, hcur]
  · simp [hc, hprev, hcur]

/-! ## Rings, in terms of the links -/

theorem Cyc.next_getElem {sc : Nat → Sc} {l : List Nat} (hc : Cyc sc l) (i : Nat)
    (hi : i < l.length) (hj : (i + 1) % l.length < l.length) :
    (sc l[i]).next = l[(i + 1) % l.length] := by
  obtain ⟨-, -, hn, -⟩ := hc
  have h1 : (l.map (fun x => (sc x).next))[i]? = (l.rotate 1)[i]? := by rw [hn]
  rw [List.getElem?_map, List.getElem?_rotate hi, List.getElem?_eq_getElem hi,
    List.getElem?_eq_getElem hj] at h1
  simpa using h1

theorem Cyc.prev_getElem {sc : Nat → Sc} {l : List Nat} (hc : Cyc sc l) (i : Nat)
    (hi : i < l.length) (hj : (i + 1) % l.length < l.length) :
    (sc l[(i + 1) % l.length]).prev = l[i] := by
  obtain ⟨-, -, -, hp⟩ := hc
  have h1 : ((l.rotate 1).map (fun x => (sc x).prev))[i]? = l[i]? := by rw [hp]
  rw [List.getElem?_map, List.getElem?_rotate hi, List.getElem?_eq_getElem hi,
    List.getElem?_eq_getElem hj] at h1
  simpa using h1

theorem Cyc.walk_getElem {sc : Nat → Sc} {l : List Nat} (hc : Cyc sc l) :
    ∀ (i : Nat) (hi : i < l.length), walk sc i (l.head?.getD 0) = l[i] := by
  intro i
  induction i with
  | zero =>
    intro hi
    cases l with
    | nil => simp at hi
    | cons a t => simp [walk]
  | succ i ih =>
    intro hi
    have hi' : i < l.length := by omega
    have hm : (i + 1) % l.length = i + 1 := Nat.mod_eq_of_lt hi
    rw [walk, ih hi', hc.next_getElem i hi' (by rw [hm]; exact hi)]
    simp only [hm]

theorem Cyc.link_facts {sc : Nat → Sc} {l : List Nat} (hc : Cyc sc l) :
    ∀ x ∈ l, (sc (sc x).next).prev = x ∧ (sc (sc x).prev).next = x ∧
      ∃ k, k < l.length ∧ walk sc k (l.head?.getD 0) = x := by
  intro x hx
  obtain ⟨i, hi, rfl⟩ := List.getElem_of_mem hx
  have hpos : 0 < l.length := by omega
  have hj : (i + 1) % l.length < l.length := Nat.mod_lt _ hpos
  refine ⟨?_, ?_, i, hi, hc.walk_getElem i hi⟩
  · rw [hc.next_getElem i hi hj, hc.prev_getElem i hi hj]
  · -- the unit before `l[i]` is `l[i']` with `(i' + 1) % n = i`
    have hi' : (i + (l.length - 1)) % l.length < l.length := Nat.mod_lt _ hpos
    have hback : ((i + (l.length - 1)) % l.length + 1) % l.length = i := by
      rw [Nat.add_mod, Nat.mod_mod, ← Nat.add_mod]
      have : i + (l.length - 1) + 1 = i + l.length := by omega
      rw [this, Nat.add_mod_right, Nat.mod_eq_of_lt hi]
    have h1 := hc.prev_getElem _ hi' (by rw [hback]; exact hi)
    have h2 := hc.next_getElem _ hi' (by rw [hback]; exact hi)
    simp only [hback] at h1 h2
    rw [h1, h2]

theorem RqInv.well_formed {cfg : Config} {id : Nat} {w : World} {q : Nat → List Nat}
    (h : RqInv cfg id w q) : ∀ p, p < cfg.priorities → WellFormed w id p (q p) := by
  intro p hp
  obtain ⟨hring, hmem⟩ := h.2 p hp
  refine ⟨hring.nil_iff, fun x hx => ?_⟩
  obtain ⟨h1, h2, k, hk, h3⟩ := hring.1.link_facts x hx
  rw [hring.2] at h3
  exact ⟨hring.1.next_mem hx, hring.1.prev_mem hx, h1, h2, ⟨k, hk, h3⟩, (hmem x hx).1⟩

/-! ## The assertions of `schedule` -/

theorem schedule_suspend_empty (cfg : Config) (id e d : Nat) (w : World)
    (hcur : (w.cpu id).current ≠ 0) (h0 : (w.cpu id).list (w.cpu id).prio_top = 0) :
    schedule cfg id true e d w = .error .assert_sc := by
  rw [schedule_eq, if_neg hcur, if_neg (by simp)]
  simp only [if_true]
  show sched_select cfg id d (sched_begin cfg id w) = .error .assert_sc
  unfold sched_select
  simp [h0]

theorem top_occupied {cfg : Config} {id : Nat} {w : World} {q : Nat → List Nat}
    (hb : TopBound cfg id w q) (ht : TopTight id w q) {p : Nat} (hp : p < cfg.priorities)
    (hne : q p ≠ []) : q (w.cpu id).prio_top ≠ [] := by
  intro he
  rcases ht with ht | ht
  · exact ht he
  · have hle : p ≤ (w.cpu id).prio_top := by
      by_contra hlt
      exact hne (hb p hp (by omega))
    have : p = (w.cpu id).prio_top := by omega
    rw [this] at hne
    exact hne he

/-! ## The order of the drain -/

theorem map_snd_bind (x : Except Fault World) (g : World → Except Fault (List Nat × World))
    (f : World → Except Fault World) (a : Nat) (h : ∀ w1, (g w1).map Prod.snd = f w1) :
    (x >>= fun w1 => g w1 >>= fun r => .ok (a :: r.1, r.2)).map Prod.snd = x >>= f := by
  cases x with
  | error e => rfl
  | ok w1 =>
    simp only [bind, Except.bind]
    rw [← h]
    cases g w1 <;> rfl

theorem rrq_loop_log_snd (cfg : Config) (id : Nat) :
    ∀ (fuel ptr : Nat) (nows : Nat → Nat) (w : World),
      (rrq_loop_log cfg id fuel ptr nows w).map Prod.snd = rrq_loop cfg id fuel ptr nows w := by
  intro fuel
  induction fuel with
  | zero =>
    intro ptr nows w
    unfold rrq_loop_log rrq_loop
    split <;> rfl
  | succ f ih =>
    intro ptr nows w
    unfold rrq_loop_log rrq_loop
    split
    · rfl
    · split
      · rfl
      · simp only []
        split
        · rfl
        · exact map_snd_bind _ _ _ _ (fun w1 => ih _ _ w1)

theorem rrq_loop_log_length (cfg : Config) (id : Nat) :
    ∀ (fuel ptr : Nat) (nows : Nat → Nat) (w : World) (log : List Nat) (w' : World),
      rrq_loop_log cfg id fuel ptr nows w = .ok (log, w') → log.length ≤ fuel := by
  intro fuel
  induction fuel with
  | zero =>
    intro ptr nows w log w' h
    unfold rrq_loop_log at h
    split at h
    · injection h with h
      injection h with h1 h2
      rw [← h1]; simp
    · cases h
  | succ f ih =>
    intro ptr nows w log w' h
    unfold rrq_loop_log at h
    split at h
    · injection h with h
      injection h with h1 h2
      rw [← h1]; simp
    · split at h
      · cases h
      · simp only [] at h
        split at h
        · cases h
        · rw [bind_ok_iff] at h
          obtain ⟨w1, -, h⟩ := h
          rw [bind_ok_iff] at h
          obtain ⟨r, hr, h⟩ := h
          injection h with h
          injection h with h1 h2
          have := ih _ _ _ r.1 r.2 hr
          rw [← h1]
          simp
          omega
theorem rrq_loop_log_succ (cfg : Config) (id f ptr : Nat) (nows : Nat → Nat) (w : World)
    (h0 : ptr ≠ 0) (hn : (w.sc ptr).next ≠ 0) (hp : (w.sc ptr).prev ≠ 0) :
    rrq_loop_log cfg id (f + 1) ptr nows w =
      ready_enqueue cfg id ptr (nows 0) (rrq_unlink w ptr) >>= fun w1 =>
        rrq_loop_log cfg id f (rrq_next w ptr) (fun k => nows (k + 1)) w1 >>= fun r =>
          .ok (ptr :: r.1, r.2) := by
  conv_lhs => unfold rrq_loop_log
  simp only [h0, hn, if_false, setPrev_prev, setPrev_next, ite_self, hp, setNext_next]
  rfl

theorem rrq_loop_log_eq (cfg : Config) (id : Nat) :
    ∀ (r : List Nat) (fuel ptr : Nat) (nows : Nat → Nat) (w w' : World) (q : Nat → List Nat),
      RqInv cfg id w q → Ring w.sc ptr r →
      (∀ x ∈ r, (w.sc x).cpu = id ∧ ∀ p, p < cfg.priorities → x ∉ q p) →
      rrq_loop cfg id fuel ptr nows w = .ok w' →
      rrq_loop_log cfg id fuel ptr nows w = .ok (r, w') := by
  intro r
  induction r with
  | nil =>
    intro fuel ptr nows w w' q _ hring _ hok
    have hp0 : ptr = 0 := hring.nil_iff.mpr rfl
    have hw : w' = w := by
      cases fuel <;> simp [rrq_loop, hp0] at hok <;> exact hok.symm
    subst hw
    cases fuel <;> simp [rrq_loop_log, hp0]
  | cons a rest ih =>
    intro fuel ptr nows w w' q hinv hring hdis hok
    have hpa : ptr = a := hring.head_eq
    subst hpa
    have hcyc := hring.1
    have hp0 : ptr ≠ 0 := hcyc.mem_ne_zero (by simp)
    cases fuel with
    | zero => simp [rrq_loop, hp0] at hok
    | succ f =>
      have hn0 := hcyc.mem_ne_zero (hcyc.next_mem (List.mem_cons_self ptr rest))
      have hv0 := hcyc.mem_ne_zero (hcyc.prev_mem (List.mem_cons_self ptr rest))
      rw [rrq_loop_succ cfg id f ptr nows w hp0 hn0 hv0, bind_ok_iff] at hok
      obtain ⟨w1, hok1, hok2⟩ := hok
      obtain ⟨hvm, hcurm, -, -⟩ := ready_enqueue_ok cfg id ptr (nows 0) _ w1 hok1
      obtain ⟨hinvm, -, -, hsame, hfield⟩ := rrq_unlink_spec cfg id ptr rest w q hinv hring
        (fun x hx => (hdis x hx).2)
      have hnlm : ptr ∉ q ((rrq_unlink w ptr).sc ptr).prio := by
        rw [(hfield ptr).2.2.1]
        exact (hdis ptr (by simp)).2 _ (by rw [← (hfield ptr).2.2.1]; exact hvm.2.2.2)
      obtain ⟨w1', hok1', hp1⟩ := ready_enqueue_spec cfg id ptr (nows 0) (rrq_unlink w ptr) q
        hinvm hvm hnlm hcurm
      have hw1 : w1' = w1 := by
        rw [hok1] at hok1'
        exact (Except.ok.inj hok1').symm
      subst hw1
      obtain ⟨hrq1, hring1, hdis1, -⟩ := rrq_enqueue_spec cfg id ptr (nows 0) rest w w1' q
        hinv hring hdis hp1
      have hlog := ih f _ _ w1' w' _ hrq1 hring1 hdis1 hok2
      rw [rrq_loop_log_succ cfg id f ptr nows w hp0 hn0 hv0]
      simp only [hok1, hlog, bind, Except.bind]

theorem q_drain_level (sc : Nat → Sc) (P : Nat) (r : List Nat) :
    ∀ q : Nat → List Nat, (∀ x ∈ r, (sc x).prio = P → (sc x).left = 0) →
      q_drain sc q r P = q P ++ r.filter (fun x => decide ((sc x).prio = P)) := by
  induction r with
  | nil => intro q _; simp [q_drain]
  | cons a t ih =>
    intro q h
    rw [q_drain, ih _ (fun x hx => h x (List.mem_cons_of_mem _ hx))]
    by_cases ha : (sc a).prio = P
    · have hl := h a (by simp) ha
      simp [q_enq, insertUnit, ha, hl, List.filter_cons]
    · have : P ≠ (sc a).prio := fun e => ha e.symm
      simp [q_enq, upd_other _ _ _ _ this, ha, List.filter_cons]

/-! # The claims -/

/-! ## Claims about `ready_enqueue` and `ready_dequeue` -/

/-- C2. `ready_enqueue` placement: for a unit `u` with home CPU `id`, priority
below `priorities`, not linked in its level, the call returns; afterwards the
level `u.prio` holds the former units in their former order with `u` appended
when `u.left` was 0 and with `u` in front otherwise, every other level holds
what it held and keeps its head pointer; with `u.left = 0` on entry `u.left`
becomes `u.full` and the head pointer of a non-empty level is kept; with
`u.left > 0` on entry `u` is the head and `u.left` is kept; `prio_top` becomes
the maximum of its old value and `u.prio`. -/
theorem ready_enqueue_placement (cfg : Config) (id u now : Nat) (w : World)
    (q : Nat → List Nat) (hinv : RqInv cfg id w q) (hv : ValidUnit cfg id w u)
    (hnl : u ∉ q (w.sc u).prio) (hcur : (w.cpu id).current ≠ 0) :
    ∃ w', ready_enqueue cfg id u now w = .ok w' ∧
      RqInv cfg id w' (upd q (w.sc u).prio
        (if (w.sc u).left = 0 then q (w.sc u).prio ++ [u] else u :: q (w.sc u).prio)) ∧
      (∀ p, p ≠ (w.sc u).prio → (w'.cpu id).list p = (w.cpu id).list p) ∧
      ((w.sc u).left = 0 →
        (w'.sc u).left = (w.sc u).full ∧
        (q (w.sc u).prio ≠ [] →
          (w'.cpu id).list (w.sc u).prio = (w.cpu id).list (w.sc u).prio)) ∧
      ((w.sc u).left ≠ 0 →
        (w'.sc u).left = (w.sc u).left ∧ (w'.cpu id).list (w.sc u).prio = u) ∧
      (q (w.sc u).prio = [] → (w'.cpu id).list (w.sc u).prio = u) ∧
      (w'.cpu id).prio_top = max (w.cpu id).prio_top (w.sc u).prio := by
  obtain ⟨w', hok, hp⟩ := ready_enqueue_spec cfg id u now w q hinv hv hnl hcur
  refine ⟨w', hok, hp.rq, hp.list_other, ?_, ?_, fun h => hp.list_head (Or.inl h), hp.top⟩
  · intro h0
    exact ⟨by rw [hp.left, if_pos h0], fun hne => hp.list_keep hne h0⟩
  · intro h0
    exact ⟨by rw [hp.left, if_neg h0], hp.list_head (Or.inr h0)⟩

/-- C2 at the example machine: unit 1, whose quantum is exhausted, is enqueued
behind units 2 and 3 and its quantum is refilled. -/
theorem ready_enqueue_placement_witness :
    RqInv cfgX 0 worldX qX ∧ ValidUnit cfgX 0 worldX 1 ∧ 1 ∉ qX (worldX.sc 1).prio ∧
      (worldX.cpu 0).current ≠ 0 ∧
      ∃ w', ready_enqueue cfgX 0 1 77 worldX = .ok w' ∧
        RqInv cfgX 0 w' (upd qX 5 [2, 3, 1]) ∧ (w'.sc 1).left = 10 ∧
        (w'.cpu 0).list 5 = 2 := by
  refine ⟨by decide, by decide, by decide, by decide, ?_⟩
  obtain ⟨w', h1, h2, -, h3, -⟩ := ready_enqueue_placement cfgX 0 1 77 worldX qX
    (by decide) (by decide) (by decide) (by decide)
  exact ⟨w', h1, h2, (h3 rfl).1, (h3 rfl).2 (by decide)⟩

/-- C3. `ready_dequeue` effect: for a unit `u` linked in its level on CPU `id` the
call returns; afterwards the level `u.prio` holds the former units without `u`,
in their former order; when `u` was the head, the head pointer is the successor
of `u`, or null when `u` was alone, and otherwise the head pointer is kept; every
other level keeps its units and its head pointer; `prio_top` is the highest
level at or below the old `prio_top` that holds a unit, or 0 when there is none. -/
theorem ready_dequeue_effect (cfg : Config) (id u now : Nat) (w : World)
    (q : Nat → List Nat) (hinv : RqInv cfg id w q) (hprio : (w.sc u).prio < cfg.priorities)
    (hmem : u ∈ q (w.sc u).prio) :
    ∃ w', ready_dequeue cfg id u now w = .ok w' ∧
      RqInv cfg id w' (upd q (w.sc u).prio ((q (w.sc u).prio).erase u)) ∧
      (∀ p, p ≠ (w.sc u).prio → (w'.cpu id).list p = (w.cpu id).list p) ∧
      ((w.cpu id).list (w.sc u).prio = u →
        (w'.cpu id).list (w.sc u).prio = (if (w.sc u).next = u then 0 else (w.sc u).next) ∧
        (w'.cpu id).list (w.sc u).prio = ((q (w.sc u).prio).tail).head?.getD 0) ∧
      ((w.cpu id).list (w.sc u).prio ≠ u →
        (w'.cpu id).list (w.sc u).prio = (w.cpu id).list (w.sc u).prio) ∧
      (w'.cpu id).prio_top ≤ (w.cpu id).prio_top ∧
      (upd q (w.sc u).prio ((q (w.sc u).prio).erase u) (w'.cpu id).prio_top ≠ [] ∨
        (w'.cpu id).prio_top = 0) ∧
      (∀ p, (w'.cpu id).prio_top < p → p ≤ (w.cpu id).prio_top →
        upd q (w.sc u).prio ((q (w.sc u).prio).erase u) p = []) := by
  obtain ⟨w', hok, hp⟩ := ready_dequeue_spec cfg id u now w q hinv hprio hmem
  have hle : (w'.cpu id).prio_top ≤ (w.cpu id).prio_top := by
    rw [hp.top]; exact scan_top_le _ _
  have hlt : ∀ p, p ≤ (w.cpu id).prio_top → p < cfg.priorities := fun p h =>
    Nat.lt_of_le_of_lt h hinv.1
  refine ⟨w', hok, hp.rq, hp.list_other, ?_, hp.list_keep, hle, ?_, ?_⟩
  · intro hhead
    refine ⟨hp.list_head hhead, ?_⟩
    have hr := (hp.rq.2 _ hprio).1
    rw [upd_same] at hr
    have hq : ∃ t, q (w.sc u).prio = u :: t := by
      have h2 := (hinv.2 _ hprio).1
      cases hq : q (w.sc u).prio with
      | nil => rw [hq] at hmem; simp at hmem
      | cons a t =>
        rw [hq] at h2
        exact ⟨t, by rw [← hhead, h2.head_eq]⟩
    obtain ⟨t, ht⟩ := hq
    rw [← hr.2, ht]
    simp
  · rcases scan_top_found (w'.cpu id).list (w.cpu id).prio_top with h | h
    · left
      rw [← hp.top] at h
      intro he
      exact h ((hp.rq.2 _ (hlt _ hle)).1.nil_iff.mpr he)
    · right
      rw [hp.top]; exact h
  · intro p h1 h2
    rw [hp.top] at h1
    have := scan_top_above _ _ p h1 h2
    exact (hp.rq.2 p (hlt p h2)).1.nil_iff.mp this

/-- C3 at the example machine: the head unit 2 is dequeued from the level that
holds units 2 and 3; unit 3 is the new head. -/
theorem ready_dequeue_effect_witness :
    RqInv cfgX 0 worldX qX ∧ (worldX.sc 2).prio < cfgX.priorities ∧
      2 ∈ qX (worldX.sc 2).prio ∧
      ∃ w', ready_dequeue cfgX 0 2 8 worldX = .ok w' ∧
        RqInv cfgX 0 w' (upd qX 5 [3]) ∧ (w'.cpu 0).list 5 = 3 ∧
        (w'.cpu 0).prio_top ≤ 5 := by
  refine ⟨by decide, by decide, by decide, ?_⟩
  obtain ⟨w', h1, h2, -, h3, -, h4, -⟩ := ready_dequeue_effect cfgX 0 2 8 worldX qX
    (by decide) (by decide) (by decide)
  exact ⟨w', h1, h2, (h3 rfl).1, h4⟩

/-! ## Claims about time accounting and the reschedule flag -/

/-- C5, as stated, fails: unit 2 of the example machine was enqueued at time stamp
5 and is dequeued at time stamp 8. The elapsed time is 3, yet the offset of its
execution context (0 before the call) becomes `2 ^ 64 - 3`: the code adds
`tsc - rdtsc()`, the negated elapsed time. -/
theorem tsc_accounting_counterexample :
    ∃ w', ready_dequeue cfgX 0 2 8 worldX = .ok w' ∧ (worldX.sc 2).tsc = 5 ∧
      (worldX.tsc_offset 102 + sub64 8 5) % 2 ^ 64 = 3 ∧
      w'.tsc_offset 102 = 2 ^ 64 - 3 ∧
      w'.tsc_offset 102 ≠ (worldX.tsc_offset 102 + sub64 8 (worldX.sc 2).tsc) % 2 ^ 64 := by
  obtain ⟨w', hok, hp⟩ := ready_dequeue_spec cfgX 0 2 8 worldX qX (by decide) (by decide)
    (by decide)
  refine ⟨w', hok, by decide, by decide, ?_, ?_⟩
  · rw [hp.tsc_offset]; decide
  · rw [hp.tsc_offset]; decide

/-- C5, amended. Time accounting at dequeue: for a unit `u` linked in its level,
`ready_dequeue` with the time stamp reading `now` adds `u.tsc - now`, computed
modulo `2 ^ 64`, to the time offset of the owning execution context (the sum is
again taken modulo `2 ^ 64`); the offset of every other execution context and
`u.tsc` are kept; and `u.tsc` is the time stamp that the last `ready_enqueue` of
the unit read, a call that leaves all time offsets alone. -/
theorem tsc_accounting (cfg : Config) (id u now : Nat) (w : World) (q : Nat → List Nat)
    (hinv : RqInv cfg id w q) (hprio : (w.sc u).prio < cfg.priorities)
    (hmem : u ∈ q (w.sc u).prio) :
    ∃ w', ready_dequeue cfg id u now w = .ok w' ∧
      w'.tsc_offset (w.sc u).owner =
        (w.tsc_offset (w.sc u).owner + sub64 (w.sc u).tsc now) % 2 ^ 64 ∧
      ((sub64 (w.sc u).tsc now : Nat) : Int) = (((w.sc u).tsc : Int) - (now : Int)) % 2 ^ 64 ∧
      (∀ e, e ≠ (w.sc u).owner → w'.tsc_offset e = w.tsc_offset e) ∧
      (w'.sc u).tsc = (w.sc u).tsc ∧
      (∀ v t w0 w1, ready_enqueue cfg id v t w0 = .ok w1 →
        (w1.sc v).tsc = t ∧ w1.tsc_offset = w0.tsc_offset) := by
  obtain ⟨w', hok, hp⟩ := ready_dequeue_spec cfg id u now w q hinv hprio hmem
  refine ⟨w', hok, ?_, sub64_int _ _, ?_, hp.tsc_eq u, ?_⟩
  · rw [hp.tsc_offset]; simp [add_tsc_offset]
  · intro e he
    rw [hp.tsc_offset]; simp [add_tsc_offset, he]
  · intro v t w0 w1 h
    exact (ready_enqueue_ok cfg id v t w0 w1 h).2.2

/-- C5, amended, at the example machine: dequeuing unit 2 (time stamp 5) at time
stamp 8 moves the offset of its execution context from 0 to `2 ^ 64 - 3`. -/
theorem tsc_accounting_witness :
    RqInv cfgX 0 worldX qX ∧ (worldX.sc 2).prio < cfgX.priorities ∧
      2 ∈ qX (worldX.sc 2).prio ∧
      ∃ w', ready_dequeue cfgX 0 2 8 worldX = .ok w' ∧
        w'.tsc_offset 102 = (0 + sub64 5 8) % 2 ^ 64 := by
  refine ⟨by decide, by decide, by decide, ?_⟩
  obtain ⟨w', h1, h2, -⟩ := tsc_accounting cfgX 0 2 8 worldX qX (by decide) (by decide)
    (by decide)
  exact ⟨w', h1, h2⟩

/-- C6. Reschedule flag on enqueue: with a current unit `c`, after
`ready_enqueue` of `u` the bit `HZD_SCHED` of the hazard word is set exactly when
it was set before, or `u.prio > c.prio`, or `u` is not `c` and `u.prio = c.prio`
and `u.left > 0` on entry; every other bit of the hazard word is kept. -/
theorem ready_enqueue_hazard (cfg : Config) (id u now : Nat) (w : World)
    (q : Nat → List Nat) (hinv : RqInv cfg id w q) (hv : ValidUnit cfg id w u)
    (hnl : u ∉ q (w.sc u).prio) (hcur : (w.cpu id).current ≠ 0) :
    ∃ w', ready_enqueue cfg id u now w = .ok w' ∧
      ((w'.cpu id).hazard.testBit cfg.hzd_sched_bit = true ↔
        ((w.cpu id).hazard.testBit cfg.hzd_sched_bit = true ∨
          (w.sc u).prio > (w.sc (w.cpu id).current).prio ∨
          (u ≠ (w.cpu id).current ∧ (w.sc u).prio = (w.sc (w.cpu id).current).prio ∧
            (w.sc u).left > 0))) ∧
      (∀ i, i ≠ cfg.hzd_sched_bit →
        (w'.cpu id).hazard.testBit i = (w.cpu id).hazard.testBit i) := by
  obtain ⟨w', hok, hp⟩ := ready_enqueue_spec cfg id u now w q hinv hv hnl hcur
  refine ⟨w', hok, ?_, ?_⟩
  · rw [hp.hazard]
    split
    · next hc =>
      simp only [HZD_SCHED, hazard_bit, decide_True, Bool.or_true, true_iff]
      rcases hc with hc | ⟨h1, h2, h3⟩
      · exact Or.inr (Or.inl hc)
      · exact Or.inr (Or.inr ⟨h1, h2, Nat.pos_of_ne_zero h3⟩)
    · next hc =>
      constructor
      · exact fun h => Or.inl h
      · intro h
        rcases h with h | h | ⟨h1, h2, h3⟩
        · exact h
        · exact absurd (Or.inl h) hc
        · exact absurd (Or.inr ⟨h1, h2, Nat.pos_iff_ne_zero.mp h3⟩) hc
  · intro i hi
    rw [hp.hazard]
    split
    · rw [HZD_SCHED, hazard_bit]; simp [hi]
    · rfl

/-- C6 at the example machine: enqueuing unit 4 (priority 7) while unit 1
(priority 5) is current sets bit 0 of the hazard word. -/
theorem ready_enqueue_hazard_witness :
    RqInv cfgX 0 worldX qX ∧ ValidUnit cfgX 0 worldX 4 ∧ 4 ∉ qX (worldX.sc 4).prio ∧
      (worldX.cpu 0).current ≠ 0 ∧
      ∃ w', ready_enqueue cfgX 0 4 77 worldX = .ok w' ∧
        (w'.cpu 0).hazard.testBit 0 = true := by
  refine ⟨by decide, by decide, by decide, by decide, ?_⟩
  obtain ⟨w', h1, h2, -⟩ := ready_enqueue_hazard cfgX 0 4 77 worldX qX
    (by decide) (by decide) (by decide) (by decide)
  exact ⟨w', h1, h2.mpr (Or.inr (Or.inl (by decide)))⟩

/-! ## Claims about `schedule` -/

/-- C1. `schedule` selects the highest-priority ready unit: in a state with the
run-queue invariant (ring structure, `prio_top` the highest occupied level, a
current unit that is valid and unlinked unless it suspends, a ready unit when it
suspends) and for either value of `suspend`, the call returns and the new current
unit is the first unit of the highest occupied level of the queues as they stand
after the re-enqueue of the outgoing unit (none when suspending); afterwards no
unit left in the ready lists has a priority greater than the priority of the new
current unit. -/
theorem schedule_selects_highest (cfg : Config) (id : Nat) (suspend : Bool)
    (now_enq now_deq : Nat) (w : World) (q : Nat → List Nat)
    (hinv : RqInv cfg id w q) (hb : TopBound cfg id w q) (ht : TopTight id w q)
    (hcur : (w.cpu id).current ≠ 0)
    (hsus : suspend = true → q (w.cpu id).prio_top ≠ [])
    (hrun : suspend = false →
      ValidUnit cfg id w (w.cpu id).current ∧ (w.sc (w.cpu id).current).prev = 0) :
    ∃ w', schedule cfg id suspend now_enq now_deq w = .ok w' ∧
      sched_q1 id suspend w q (sched_top1 id suspend w) ≠ [] ∧
      (∀ p, p < cfg.priorities → sched_top1 id suspend w < p →
        sched_q1 id suspend w q p = []) ∧
      (w'.cpu id).current =
        (sched_q1 id suspend w q (sched_top1 id suspend w)).head?.getD 0 ∧
      RqInv cfg id w'
        (q_deq (sched_q1 id suspend w q) (sched_top1 id suspend w) (w'.cpu id).current) ∧
      (∀ p, p < cfg.priorities →
        ∀ x ∈ q_deq (sched_q1 id suspend w q) (sched_top1 id suspend w) (w'.cpu id).current p,
          (w'.sc x).prio ≤ (w'.sc (w'.cpu id).current).prio) := by
  obtain ⟨w', hok, hp⟩ := schedule_spec cfg id suspend now_enq now_deq w q hinv hb ht hcur
    hsus hrun
  have hcur' : (w'.cpu id).current = sched_sel id suspend w q := hp.current
  refine ⟨w', hok, List.ne_nil_of_mem hp.sel_mem, hp.bound1, hcur', ?_, ?_⟩
  · rw [hcur']; exact hp.rq
  · intro p hp1 x hx
    rw [hcur'] at hx ⊢
    have hxp : (w'.sc x).prio = p := ((hp.rq.2 p hp1).2 x hx).1
    have hx1 : x ∈ sched_q1 id suspend w q p := by
      unfold q_deq at hx
      by_cases hpe : p = sched_top1 id suspend w
      · subst hpe
        rw [upd_same] at hx
        exact List.mem_of_mem_erase hx
      · rwa [upd_other _ _ _ _ hpe] at hx
    have hle : p ≤ sched_top1 id suspend w := by
      by_contra hlt
      have := hp.bound1 p hp1 (by omega)
      rw [this] at hx1
      simp at hx1
    rw [hxp, hp.prio_eq, hp.sel_prio]
    exact hle

/-- C1 at the example machine: unit 1 is preempted with the timer at 0; it goes
behind units 2 and 3 and unit 2 is selected. -/
theorem schedule_selects_highest_witness :
    RqInv cfgX 0 worldX qX ∧ TopBound cfgX 0 worldX qX ∧ TopTight 0 worldX qX ∧
      (worldX.cpu 0).current ≠ 0 ∧
      (ValidUnit cfgX 0 worldX (worldX.cpu 0).current ∧
        (worldX.sc (worldX.cpu 0).current).prev = 0) ∧
      ∃ w', schedule cfgX 0 false 60 61 worldX = .ok w' ∧ (w'.cpu 0).current = 2 ∧
        RqInv cfgX 0 w' (upd qX 5 [3, 1]) := by
  refine ⟨by decide, by decide, by decide, by decide, by decide, ?_⟩
  obtain ⟨w', h1, -, -, h2, h3, -⟩ := schedule_selects_highest cfgX 0 false 60 61 worldX qX
    (by decide) (by decide) (by decide) (by decide) (by intro h; cases h) (fun _ => by decide)
  have e : (sched_q1 0 false worldX qX (sched_top1 0 false worldX)).head?.getD 0 = 2 := by
    decide
  rw [e] at h2
  rw [h2] at h3
  have e2 : q_deq (sched_q1 0 false worldX qX) (sched_top1 0 false worldX) 2 = upd qX 5 [3, 1] := by
    funext p
    unfold q_deq sched_q1 q_enq sched_top1 upd
    by_cases hp : p = 5
    · subst hp; decide
    · have h5 : ¬ (5 = p) := fun e => hp e.symm
      simp [hp, h5, worldX, cpuX, cpuIdle, scX, qX]
  rw [e2] at h3
  exact ⟨w', h1, h2, h3⟩

/-! ## Claims about the mailbox -/

/-- C10. Mailbox coalescing: let `p0 :: rest` be pushes of distinct valid units with
home CPU `t`, none of them queued, made by `remote_enqueue` from CPUs other than
`t` into the empty mailbox of `t`, with no drain in between. All pushes return;
the first one sends one inter-processor interrupt to `t` and the others send
none. One run of `rrq_handler` on `t` (which has a current unit) then returns with
the mailbox of `t` empty, sends no interrupt, and leaves every pushed unit in the
ready list of its own priority level: the queues are those before the pushes with
the units enqueued in push order. -/
theorem mailbox_coalescing (cfg : Config) (t : Nat) (p0 : Nat × Nat × Nat)
    (rest : List (Nat × Nat × Nat)) (nows : Nat → Nat) (w : World) (q : Nat → List Nat)
    (hinv : RqInv cfg t w q) (hempty : (w.cpu t).rq_queue = 0)
    (hcur : (w.cpu t).current ≠ 0)
    (hnd : ((p0 :: rest).map (·.2.1)).Nodup)
    (hval : ∀ p ∈ p0 :: rest, p.1 ≠ t ∧ ValidUnit cfg t w p.2.1 ∧
      ∀ l, l < cfg.priorities → p.2.1 ∉ q l) :
    ∃ w0, remote_enqueue cfg p0.1 p0.2.1 p0.2.2 w = .ok w0 ∧
      w0.ipi = (t, Vector.VEC_IPI_RRQ) :: w.ipi ∧
      ∃ w1, push_all cfg rest w0 = .ok w1 ∧ w1.ipi = w0.ipi ∧
        ∃ w2, rrq_handler cfg t (rest.length + 1) nows w1 = .ok w2 ∧
          (w2.cpu t).rq_queue = 0 ∧ w2.ipi = w1.ipi ∧
          RqInv cfg t w2 (q_drain w.sc q ((p0 :: rest).map (·.2.1))) ∧
          ∀ u ∈ (p0 :: rest).map (·.2.1),
            u ∈ q_drain w.sc q ((p0 :: rest).map (·.2.1)) (w.sc u).prio ∧
            (w2.sc u).prio = (w.sc u).prio ∧ (w2.sc u).cpu = t := by
  obtain ⟨hp0, hv0, hq0⟩ := hval p0 (by simp)
  have hring : Ring w.sc (w.cpu t).rq_queue [] := by
    rw [hempty]; exact ⟨Cyc.nil _, rfl⟩
  obtain ⟨w0, hok0, hpost0⟩ := remote_enqueue_spec cfg p0.1 p0.2.1 p0.2.2 w [] hv0.1
    (by rw [hv0.2.2.1]; exact hp0) (by rw [hv0.2.2.1]; exact hring) (by simp)
  have hipi0 : w0.ipi = (t, Vector.VEC_IPI_RRQ) :: w.ipi := by
    rw [hpost0.ipi, hv0.2.2.1]; simp
  have hring0 : Ring w0.sc (w0.cpu t).rq_queue [p0.2.1] := by
    have := hpost0.ring
    rw [hv0.2.2.1] at this
    simpa using this
  obtain ⟨w1, hok1, hring1, hipi1, hheap1, hfield1, ⟨rq1, hcpu1⟩, hother1, hoff1⟩ :=
    push_all_spec cfg t rest w0 [p0.2.1] hring0 (by simpa using hnd)
      (fun p hp => by
        obtain ⟨h1, h2, -⟩ := hval p (by simp [hp])
        exact ⟨h1, h2.1, by rw [hpost0.cpu_eq]; exact h2.2.2.1⟩)
  have hus : [p0.2.1] ++ rest.map (·.2.1) = (p0 :: rest).map (·.2.1) := by simp
  rw [hus] at hring1
  have hcpu0 := hpost0.cpu_home
  rw [hv0.2.2.1] at hcpu0
  have hfield : ∀ x, (w1.sc x).prio = (w.sc x).prio ∧ (w1.sc x).cpu = (w.sc x).cpu ∧
      (w1.sc x).left = (w.sc x).left := by
    intro x
    obtain ⟨-, h2, h3, -, h5, -⟩ := hfield1 x
    exact ⟨by rw [h3, hpost0.prio_eq], by rw [h2, hpost0.cpu_eq], by rw [h5, hpost0.left_eq]⟩
  have hsame : ∀ x, x ∉ (p0 :: rest).map (·.2.1) → w1.sc x = w.sc x := by
    intro x hx
    simp only [List.map_cons, List.mem_cons, not_or] at hx
    rw [hheap1 x hx.2 (by simp [hx.1]), hpost0.heap_other x hx.1 (by simp)]
  have hnotq : ∀ l, l < cfg.priorities → ∀ x ∈ q l, x ∉ (p0 :: rest).map (·.2.1) := by
    intro l hl x hx hm
    obtain ⟨p, hp, rfl⟩ := List.mem_map.mp hm
    exact (hval p hp).2.2 l hl hx
  have hinv1 : RqInv cfg t w1 q := by
    apply hinv.same_on_queues
    · rw [hcpu1, hcpu0]
    · rw [hcpu1, hcpu0]
    · intro l hl x hx; exact hsame x (hnotq l hl x hx)
  have hcur1 : (w1.cpu t).current ≠ 0 := by rw [hcpu1, hcpu0]; exact hcur
  obtain ⟨w2, hok2, hpost2⟩ := rrq_loop_spec cfg t ((p0 :: rest).map (·.2.1)) (rest.length + 1)
    (w1.cpu t).rq_queue nows w1 q (by simp) hinv1 hring1
    (fun x hx => by
      obtain ⟨p, hp, rfl⟩ := List.mem_map.mp hx
      obtain ⟨-, ⟨h1, h2, h3, h4⟩, h5⟩ := hval p hp
      exact ⟨⟨h1, h2, by rw [(hfield _).2.1]; exact h3, by rw [(hfield _).1]; exact h4⟩, h5⟩)
    (fun _ => hcur1)
  have hqd : q_drain w1.sc q ((p0 :: rest).map (·.2.1)) =
      q_drain w.sc q ((p0 :: rest).map (·.2.1)) :=
    q_drain_congr _ _ _ _ fun x _ => ⟨(hfield x).1, (hfield x).2.2⟩
  refine ⟨w0, hok0, hipi0, w1, hok1, by rw [hipi1]; simp,
    w2.setCpu t { w2.cpu t with rq_queue := 0 }, ?_, ?_, ?_, ?_, ?_⟩
  · simp only [rrq_handler, hok2, bind, Except.bind]
  · simp
  · simp only [setCpu_ipi]; exact hpost2.ipi
  · rw [← hqd]
    apply hpost2.rq.congr
    · simp
    · simp
    · intro x; simp
  · intro u hu
    refine ⟨mem_q_drain w.sc _ q u hu, ?_, ?_⟩
    · simp only [setCpu_sc]; rw [hpost2.prio_eq, (hfield u).1]
    · simp only [setCpu_sc]; rw [hpost2.cpu_eq, (hfield u).2.1]
      obtain ⟨p, hp, rfl⟩ := List.mem_map.mp hu
      exact (hval p hp).2.1.2.2.1

/-- C10 at the example machine: CPU 1 pushes unit 4 and CPU 2 pushes unit 6 for
CPU 0; one interrupt is logged, and after the drain unit 4 is in level 7 and unit
6 in level 5. -/
theorem mailbox_coalescing_witness :
    RqInv cfgX 0 worldX qX ∧ (worldX.cpu 0).rq_queue = 0 ∧ (worldX.cpu 0).current ≠ 0 ∧
      (([(1, 4, 50), (2, 6, 51)] : List (Nat × Nat × Nat)).map (·.2.1)).Nodup ∧
      (∀ p ∈ ([(1, 4, 50), (2, 6, 51)] : List (Nat × Nat × Nat)),
        p.1 ≠ 0 ∧ ValidUnit cfgX 0 worldX p.2.1 ∧ ∀ l, l < cfgX.priorities → p.2.1 ∉ qX l) ∧
      ∃ w1, push_all cfgX [(1, 4, 50), (2, 6, 51)] worldX = .ok w1 ∧
        w1.ipi = [(0, Vector.VEC_IPI_RRQ)] ∧
        ∃ w2, rrq_handler cfgX 0 2 (fun _ => 60) w1 = .ok w2 ∧ (w2.cpu 0).rq_queue = 0 ∧
          RqInv cfgX 0 w2 (q_drain worldX.sc qX [4, 6]) ∧
          4 ∈ q_drain worldX.sc qX [4, 6] 7 ∧ 6 ∈ q_drain worldX.sc qX [4, 6] 5 := by
  refine ⟨by decide, by decide, by decide, by decide, by decide, ?_⟩
  obtain ⟨w0, h0, hi0, w1, h1, hi1, w2, h2, hq, -, hrq, hmem⟩ :=
    mailbox_coalescing cfgX 0 (1, 4, 50) [(2, 6, 51)] (fun _ => 60) worldX qX
      (by decide) (by decide) (by decide) (by decide) (by decide)
  refine ⟨w1, ?_, by rw [hi1, hi0]; rfl, w2, h2, hq, hrq, (hmem 4 (by decide)).1,
    (hmem 6 (by decide)).1⟩
  simp only [push_all, h0, bind, Except.bind]
  exact h1

/-! ## Claims about the links of a unit -/

/-- C4, as stated, fails: in the example machine unit 2 is dequeued. Afterwards it
is in no ready list of CPU 0 and its `prev` link is null, but its `next` link still
holds its former successor, unit 3: `ready_dequeue` clears `prev` only. -/
theorem link_nullness_counterexample :
    ∃ w', ready_dequeue cfgX 0 2 8 worldX = .ok w' ∧
      RqInv cfgX 0 w' (upd qX 5 [3]) ∧ (∀ p, 2 ∉ upd qX 5 [3] p) ∧
      (w'.sc 2).prev = 0 ∧ (w'.sc 2).next = 3 ∧
      ¬ ((w'.sc 2).prev = 0 ∧ (w'.sc 2).next = 0) := by
  obtain ⟨w', hok, hp⟩ := ready_dequeue_spec cfgX 0 2 8 worldX qX (by decide) (by decide)
    (by decide)
  have hn : (w'.sc 2).next = 3 := by rw [hp.next_kept]; decide
  refine ⟨w', hok, hp.rq, ?_, hp.prev_null, hn, ?_⟩
  · intro p
    by_cases h : p = 5
    · subst h; decide
    · simp [upd_other _ _ _ _ h, qX, h]
  · rw [hn]; simp

/-- C4, amended. Link-nullness invariant: in every state that the machine reaches
from a state with the invariant through `ready_enqueue`, `ready_dequeue`,
`schedule`, `remote_enqueue` and `rrq_handler` (and `rke_handler` and timer
countdown), each called within its preconditions, the `prev` link of a unit is
null exactly when the unit is not queued in a ready list or a mailbox, and both
links of a queued unit are not null; after `ready_dequeue` of a queued unit `u` the
`prev` link of `u` is null and its `next` link, which is not null, still holds the
former successor of `u`. -/
theorem link_nullness (cfg : Config) (w0 w : World) (a0 a : Queues) (h0 : GInv cfg w0 a0)
    (hr : Reach cfg (fun _ _ => True) w0 a0 w a) :
    GInv cfg w a ∧
      (∀ u, u ≠ 0 → ((w.sc u).prev = 0 ↔ ¬ Queued cfg a u)) ∧
      (∀ u, Queued cfg a u → (w.sc u).prev ≠ 0 ∧ (w.sc u).next ≠ 0) ∧
      (∀ id u now w', u ∈ a.q id (w.sc u).prio → ready_dequeue cfg id u now w = .ok w' →
        (w'.sc u).prev = 0 ∧ (w'.sc u).next = (w.sc u).next ∧ (w'.sc u).next ≠ 0 ∧
        ¬ Queued cfg (a.after w (.dequeue id u now)) u) := by
  have h := Reach.inv h0 hr
  refine ⟨h, h.links, ?_, ?_⟩
  · intro u hq
    rcases hq with ⟨id, p, hp, hm⟩ | ⟨id, hm⟩
    · have := (h.rq id).mem_facts hp hm
      exact ⟨this.2.2.2.1, this.2.2.2.2⟩
    · have hc := (h.mbox id).1
      exact ⟨hc.mem_ne_zero (hc.prev_mem hm), hc.mem_ne_zero (hc.next_mem hm)⟩
  · intro id u now w' hm hok
    obtain ⟨hp, h'⟩ := h.dequeue id u now hm hok
    have hu0 : u ≠ 0 := (ready_dequeue_ok cfg id u now w w' hok).1
    refine ⟨hp.prev_null, hp.next_kept, by rw [hp.next_kept]; exact hp.next_ne, ?_⟩
    exact (h'.links u hu0).mp hp.prev_null

/-- C4, amended, at the example machine: after the step that dequeues unit 2 the
`prev` link of unit 2 is null exactly when the unit is not queued. -/
theorem link_nullness_witness :
    GInv cfgX worldX queuesX ∧
      ∃ w', Reach cfgX (fun _ _ => True) worldX queuesX w'
          (queuesX.after worldX (.dequeue 0 2 8)) ∧
        ((w'.sc 2).prev = 0 ↔ ¬ Queued cfgX (queuesX.after worldX (.dequeue 0 2 8)) 2) := by
  refine ⟨ginvX, ?_⟩
  obtain ⟨w', hok, -⟩ := ready_dequeue_spec cfgX 0 2 8 worldX qX (by decide) (by decide)
    (by decide)
  have hr : Reach cfgX (fun _ _ => True) worldX queuesX w'
      (queuesX.after worldX (.dequeue 0 2 8)) :=
    Reach.step (.dequeue 0 2 8) Reach.start (by show 2 ∈ queuesX.q 0 (worldX.sc 2).prio; decide)
      hok trivial
  exact ⟨w', hr, (link_nullness cfgX worldX w' queuesX _ ginvX hr).2.1 2 (by decide)⟩

/-! ## Claims about the quantum -/

/-- C7. Quantum conservation: let `u` be the current unit of CPU `id`, valid and
unlinked and current on no other CPU, and let the timer read `L > 0` when
`schedule(false)` is called. The call returns and `u.left` is `L`; when it selects
`u` again at once it programs the timer with `L`. Otherwise, in every state
reached afterwards by operations called within their preconditions, as long as
`u` is not current, `u.left` is `L`, every further operation keeps `u.left = L`, and
an operation that makes `u` current (a `schedule` that selects it) programs the
timer with exactly `L`. Moreover `ready_enqueue` of a unit leaves `left` alone
unless it was 0 on entry, in which case it becomes `full`. -/
theorem quantum_conservation (cfg : Config) (id now_enq now_deq : Nat) (w : World)
    (a : Queues) (h : GInv cfg w a)
    (hv : ValidUnit cfg id w (w.cpu id).current)
    (hprev : (w.sc (w.cpu id).current).prev = 0)
    (hL : 0 < get_timer (w.cpu id))
    (hone : ∀ j, j ≠ id → (w.cpu j).current ≠ (w.cpu id).current) :
    ∃ w1, schedule cfg id false now_enq now_deq w = .ok w1 ∧
      (w1.sc (w.cpu id).current).left = get_timer (w.cpu id) ∧
      ((w1.cpu id).current = (w.cpu id).current →
        (w1.cpu id).timer = get_timer (w.cpu id)) ∧
      ((w1.cpu id).current ≠ (w.cpu id).current →
        ∀ w2 a2, Reach cfg (fun x _ => ∀ j, (x.cpu j).current ≠ (w.cpu id).current) w1
            (a.after w (.sched id false now_enq now_deq)) w2 a2 →
          (w2.sc (w.cpu id).current).left = get_timer (w.cpu id) ∧
          ∀ op w3, Legal w2 a2 op → exec cfg op w2 = .ok w3 →
            (w3.sc (w.cpu id).current).left = get_timer (w.cpu id) ∧
            ∀ j, (w3.cpu j).current = (w.cpu id).current →
              (w3.cpu j).timer = get_timer (w.cpu id)) ∧
      (∀ v t x x', ready_enqueue cfg id v t x = .ok x' →
        (x'.sc v).left = if (x.sc v).left = 0 then (x.sc v).full else (x.sc v).left) := by
  obtain ⟨w1, hok, hp⟩ := schedule_spec cfg id false now_enq now_deq w (a.q id) (h.rq id)
    (h.bound id) (h.tight id) hv.1 (fun hs => by cases hs) (fun _ => ⟨hv, hprev⟩)
  have hg1 : GInv cfg w1 (a.after w (.sched id false now_enq now_deq)) :=
    h.step (.sched id false now_enq now_deq) trivial hok
  have hL32 := get_timer_lt (w.cpu id)
  have hleft : (w1.sc (w.cpu id).current).left = get_timer (w.cpu id) := by
    rw [hp.left_cur, if_neg]
    intro hc
    omega
  refine ⟨w1, hok, hleft, ?_, ?_, fun v t x x' hx => ready_enqueue_left cfg id v t x x' hx⟩
  · intro hc
    rw [hp.timer, ← hp.current, hc, hleft]
    exact Nat.mod_eq_of_lt hL32
  · intro hc w2 a2 hr
    have hnc : ∀ j, (w1.cpu j).current ≠ (w.cpu id).current := by
      intro j
      by_cases hj : j = id
      · subst hj; exact hc
      · rw [hp.cpu_other j hj]; exact hone j hj
    obtain ⟨hg2, hl2, hc2⟩ := left_reach hg1 hL hL32 hleft hnc hr
    exact ⟨hl2, fun op w3 hleg hok3 => left_step hg2 _ _ hL hL32 hl2 hc2 op hleg hok3⟩

/-- C7 at the example machine with the timer at 7: unit 1 is preempted, keeps 7
ticks, is selected again at once and the timer is programmed with 7. -/
theorem quantum_conservation_witness :
    GInv cfgX worldT queuesX ∧ ValidUnit cfgX 0 worldT (worldT.cpu 0).current ∧
      (worldT.sc (worldT.cpu 0).current).prev = 0 ∧ 0 < get_timer (worldT.cpu 0) ∧
      (∀ j, j ≠ 0 → (worldT.cpu j).current ≠ (worldT.cpu 0).current) ∧
      ∃ w1, schedule cfgX 0 false 60 61 worldT = .ok w1 ∧ (w1.sc 1).left = 7 ∧
        ((w1.cpu 0).current = 1 → (w1.cpu 0).timer = 7) := by
  have hone : ∀ j, j ≠ 0 → (worldT.cpu j).current ≠ (worldT.cpu 0).current := by
    intro j hj
    have : worldT.cpu j = cpuIdle := by
      unfold worldT; rw [setCpu_cpu, if_neg hj]; simp [worldX, hj]
    rw [this]; decide
  refine ⟨ginvT, by decide, by decide, by decide, hone, ?_⟩
  obtain ⟨w1, h1, h2, h3, -⟩ := quantum_conservation cfgX 0 60 61 worldT queuesX ginvT
    (by decide) (by decide) (by decide) hone
  exact ⟨w1, h1, h2, h3⟩

/-- C9. Reinsertion ordering: let `u` be the current unit of CPU `id`, valid and
unlinked, preempted by `schedule(false)` while the timer reads `L > 0`, and let `v`
be a unit waiting in the ready list of the priority level of `u`. The call returns;
after the re-enqueue `u` is the head of its level; the call does not select `v`;
and as long as `u` and `v` both stay queued, in every state reached by operations
called within their preconditions `u` stands before `v` in the list of the level
and no `schedule` call on any CPU selects `v`. -/
theorem reinsertion_ordering (cfg : Config) (id now_enq now_deq v : Nat) (w : World)
    (a : Queues) (h : GInv cfg w a)
    (hv : ValidUnit cfg id w (w.cpu id).current)
    (hprev : (w.sc (w.cpu id).current).prev = 0)
    (hL : 0 < get_timer (w.cpu id))
    (hwait : v ∈ a.q id (w.sc (w.cpu id).current).prio) :
    ∃ w1, schedule cfg id false now_enq now_deq w = .ok w1 ∧
      sched_q1 id false w (a.q id) (w.sc (w.cpu id).current).prio =
        (w.cpu id).current :: a.q id (w.sc (w.cpu id).current).prio ∧
      (w1.cpu id).current ≠ v ∧
      ((w.cpu id).current ∈ (a.after w (.sched id false now_enq now_deq)).q id
          (w.sc (w.cpu id).current).prio →
        ∀ w2 a2,
          Reach cfg (fun _ b => (w.cpu id).current ∈ b.q id (w.sc (w.cpu id).current).prio ∧
              v ∈ b.q id (w.sc (w.cpu id).current).prio) w1
            (a.after w (.sched id false now_enq now_deq)) w2 a2 →
          Before (w.cpu id).current v (a2.q id (w.sc (w.cpu id).current).prio) ∧
          ∀ j s e d w3, schedule cfg j s e d w2 = .ok w3 → (w3.cpu j).current ≠ v) := by
  obtain ⟨w1, hok, hp⟩ := schedule_spec cfg id false now_enq now_deq w (a.q id) (h.rq id)
    (h.bound id) (h.tight id) hv.1 (fun hs => by cases hs) (fun _ => ⟨hv, hprev⟩)
  have hg1 : GInv cfg w1 (a.after w (.sched id false now_enq now_deq)) :=
    h.step (.sched id false now_enq now_deq) trivial hok
  have hP := hv.2.2.2
  have hq1 : sched_q1 id false w (a.q id) (w.sc (w.cpu id).current).prio =
      (w.cpu id).current :: a.q id (w.sc (w.cpu id).current).prio := by
    have hL0 : get_timer (w.cpu id) ≠ 0 := by omega
    simp [sched_q1, q_enq, insertUnit, hL0]
  have hb1 : Before (w.cpu id).current v
      (sched_q1 id false w (a.q id) (w.sc (w.cpu id).current).prio) := by
    rw [hq1]
    obtain ⟨y, z, hyz⟩ := List.append_of_mem hwait
    exact ⟨[], y, z, by rw [hyz]; rfl⟩
  have hsel : (w1.cpu id).current ≠ v :=
    sched_sel_ne h hP hwait id false now_enq now_deq hok (fun _ => hb1)
  refine ⟨w1, hok, hq1, hsel, ?_⟩
  intro hu1 w2 a2 hr
  have hnd1 := sched_q1_nodup false (h.rq id) hP (fun _ => hprev)
  have hvq1 : v ∈ (a.after w (.sched id false now_enq now_deq)).q id
      (w.sc (w.cpu id).current).prio := by
    simp only [Queues.after, upd_same, sched_q]
    apply mem_q_deq_of_ne hb1.mem.2
    rw [← hp.current]; exact hsel.symm
  have hba : Before (w.cpu id).current v
      ((a.after w (.sched id false now_enq now_deq)).q id (w.sc (w.cpu id).current).prio) := by
    simp only [Queues.after, upd_same, sched_q] at hu1 hvq1 ⊢
    exact hb1.q_deq hnd1 _ _ hu1 hvq1
  obtain ⟨hg2, hb2⟩ := before_reach hg1 hP hba hr
  refine ⟨hb2, fun j s e d w3 hok3 => ?_⟩
  exact sched_sel_ne hg2 hP hb2.mem.2 j s e d hok3 (fun _ => hb2.sched_q1 id s w2)

/-- C9 at the example machine with the timer at 7: unit 1 is preempted and goes in
front of the waiting units 2 and 3; unit 3 is not selected. -/
theorem reinsertion_ordering_witness :
    GInv cfgX worldT queuesX ∧ ValidUnit cfgX 0 worldT (worldT.cpu 0).current ∧
      (worldT.sc (worldT.cpu 0).current).prev = 0 ∧ 0 < get_timer (worldT.cpu 0) ∧
      3 ∈ queuesX.q 0 (worldT.sc (worldT.cpu 0).current).prio ∧
      ∃ w1, schedule cfgX 0 false 60 61 worldT = .ok w1 ∧
        sched_q1 0 false worldT (queuesX.q 0) 5 = [1, 2, 3] ∧ (w1.cpu 0).current ≠ 3 := by
  refine ⟨ginvT, by decide, by decide, by decide, by decide, ?_⟩
  obtain ⟨w1, h1, h2, h3, -⟩ := reinsertion_ordering cfgX 0 60 61 3 worldT queuesX ginvT
    (by decide) (by decide) (by decide) (by decide)
  exact ⟨w1, h1, h2, h3⟩

/-- C8, as stated, fails: in the example machine with `left = 3` for the queued
unit 2 (full quantum 10), three units are at level 5, unit 1 running and units 2
and 3 queued. The first of three invocations of `schedule(false)` with the timer at
0 selects unit 2 and gives it `left = 3`, not `full = 10`. -/
theorem round_robin_counterexample :
    RrInv cfgX 0 worldR qX ∧ (qX (worldR.sc (worldR.cpu 0).current).prio).length + 1 = 3 ∧
      (worldR.sc 2).full = 10 ∧
      ∃ sels w', rr_run cfgX 0 3 (fun _ => (60, 61)) worldR = .ok (sels, w') ∧
        sels.head? = some (2, 3) := by
  have hr : RrInv cfgX 0 worldR qX :=
    ⟨by decide, by decide, by decide, by decide, by decide, by decide, by decide⟩
  refine ⟨hr, by decide, by decide, ?_⟩
  obtain ⟨sels, w', l', hok, hfst, hsnd, -⟩ := rr_run_spec cfgX 0 3 (fun _ => (60, 61)) worldR qX
    hr (by decide)
  refine ⟨sels, w', hok, ?_⟩
  have h1 : sels.map (·.1) = [2, 3, 1] := by rw [hfst]; decide
  have h2 : sels.map (·.2) = [3, 10, 10] := by rw [hsnd]; decide
  cases sels with
  | nil => simp at h1
  | cons s t =>
    simp only [List.map_cons, List.cons.injEq] at h1 h2
    simp only [List.head?_cons, Option.some.injEq]
    exact Prod.ext h1.1 h2.1

/-- C8, amended. Round-robin fairness: let `N - 1` units be queued at the level of
the current unit of CPU `id`, which is valid and unlinked, with no unit ready at a
higher level. `N` invocations of `schedule(false)`, each with the timer reading 0
and nothing in between, return and select each of the `N` units exactly once, in
queue order with the unit that was running last; each selected unit is given the
`left` it holds: `full` for the unit that was running, and for a queued unit the
`left` it was queued with, so `left = full` for all when the queued units hold
their full quantum. Afterwards the same unit is current and the same units are
queued in the same order. -/
theorem round_robin (cfg : Config) (id : Nat) (nows : Nat → Nat × Nat) (w : World)
    (q : Nat → List Nat) (h : RrInv cfg id w q) :
    ∃ sels w', rr_run cfg id ((q (w.sc (w.cpu id).current).prio).length + 1) nows w =
        .ok (sels, w') ∧
      sels.map (·.1) = q (w.sc (w.cpu id).current).prio ++ [(w.cpu id).current] ∧
      (q (w.sc (w.cpu id).current).prio ++ [(w.cpu id).current]).Nodup ∧
      sels.map (·.2) = (q (w.sc (w.cpu id).current).prio).map (fun x => (w.sc x).left) ++
        [(w.sc (w.cpu id).current).full] ∧
      ((∀ x ∈ q (w.sc (w.cpu id).current).prio, (w.sc x).left = (w.sc x).full) →
        sels.map (·.2) = sels.map (fun s => (w.sc s.1).full)) ∧
      (w'.cpu id).current = (w.cpu id).current ∧ RrInv cfg id w' q := by
  obtain ⟨sels, w', l', hok, hfst, hsnd, hinv', hrot, -⟩ :=
    rr_run_spec cfg id _ nows w q h (Nat.le_refl _)
  have hlen : (q (w.sc (w.cpu id).current).prio ++ [(w.cpu id).current]).length =
      (q (w.sc (w.cpu id).current).prio).length + 1 := by simp
  have hcn : (w.cpu id).current ∉ q (w.sc (w.cpu id).current).prio :=
    h.rq.not_mem_of_prev h.valid.2.2.2 h.unlinked
  rw [← hlen, List.take_length] at hfst
  rw [← hlen, List.rotate_length] at hrot
  have hsnd' : sels.map (·.2) =
      (q (w.sc (w.cpu id).current).prio).map (fun x => (w.sc x).left) ++
        [(w.sc (w.cpu id).current).full] := by
    rw [hsnd]
    apply List.take_of_length_le
    simp
  obtain ⟨hl', hc'⟩ := List.append_inj' hrot (by simp)
  have hcur' : (w'.cpu id).current = (w.cpu id).current := by simpa using hc'
  refine ⟨sels, w', hok, hfst, ?_, hsnd', ?_, hcur', ?_⟩
  · exact List.nodup_append.mpr ⟨(h.rq.2 _ h.valid.2.2.2).1.1.1, by simp, by
      intro x hx hx'
      simp at hx'
      exact hcn (hx' ▸ hx)⟩
  · intro hfull
    rw [hsnd']
    have : sels.map (fun s => (w.sc s.1).full) =
        (sels.map (·.1)).map (fun x => (w.sc x).full) := by
      rw [List.map_map]; rfl
    rw [this, hfst, List.map_append]
    congr 1
    exact List.map_congr_left hfull
  · rw [hl', upd_self] at hinv'
    exact hinv'

/-- C8, amended, at the example machine: three invocations select units 2, 3 and
1 in this order, each with its full quantum of 10. -/
theorem round_robin_witness :
    RrInv cfgX 0 worldX qX ∧
      ∃ sels w', rr_run cfgX 0 3 (fun _ => (60, 61)) worldX = .ok (sels, w') ∧
        sels.map (·.1) = [2, 3, 1] ∧ sels.map (·.2) = [10, 10, 10] ∧
        (w'.cpu 0).current = 1 := by
  have hr : RrInv cfgX 0 worldX qX :=
    ⟨by decide, by decide, by decide, by decide, by decide, by decide, by decide⟩
  refine ⟨hr, ?_⟩
  obtain ⟨sels, w', hok, h1, -, h2, -, h3, -⟩ := round_robin cfgX 0 (fun _ => (60, 61)) worldX qX hr
  exact ⟨sels, w', hok, h1, h2, h3⟩

/-! ## Claims about one remote wake-up -/

/-- C11, as stated, fails: in the two-CPU example unit 8 (home CPU 1, full quantum
10) holds 3 ticks when CPU 0 pushes it into the empty mailbox of CPU 1. After
`rrq_handler` on CPU 1 the unit is in the ready list of its level 3, but its
`left` is 3, not `full = 10`. -/
theorem remote_wakeup_counterexample :
    (worldW.cpu 1).rq_queue = 0 ∧ (worldW.sc 8).cpu = 1 ∧ (worldW.sc 8).full = 10 ∧
      ∃ w0, remote_enqueue cfgX 0 8 50 worldW = .ok w0 ∧
        ∃ w2, rrq_handler cfgX 1 1 (fun _ => 60) w0 = .ok w2 ∧
          RqInv cfgX 1 w2 (upd (fun _ => []) 3 [8]) ∧ (w2.sc 8).left = 3 ∧
          (w2.sc 8).left ≠ (w2.sc 8).full := by
  obtain ⟨w0, hok0, hp0, w1, -, hp1, hok2, hq⟩ := wakeup_spec cfgX 0 1 8 50 (fun _ => 60) worldW
    (fun _ => []) (by decide) (by decide) (by decide) (by decide) (by decide) (by decide)
  have hleft : (w1.sc 8).left = 3 := by
    rw [hp1.left 8 (by simp), hp0.left_eq, hp0.full_eq]; decide
  have hfull : (w1.sc 8).full = 10 := by
    rw [hp1.full_eq, hp0.full_eq]; decide
  refine ⟨by decide, by decide, by decide, w0, hok0, _, hok2, ?_, ?_, ?_⟩
  · have hrq := hp1.rq
    rw [hq] at hrq
    have e : q_enq (fun _ => []) (worldW.sc 8).prio (worldW.sc 8).left 8 =
        upd (fun _ => []) 3 [8] := by
      funext p
      by_cases hp : p = 3 <;> simp [q_enq, upd, insertUnit, worldW, scW, hp]
    rw [e] at hrq
    apply hrq.congr
    · simp
    · simp
    · intro x; simp
  · simpa using hleft
  · simp only [setCpu_sc, hleft, hfull]; decide

/-- C11, amended. Remote wake-up result: let `u` be a valid unit with home CPU `t`,
in no ready list, pushed by `remote_enqueue` from a CPU `id` other than `t` while
the mailbox of `t` is empty. The push returns and sends one inter-processor
interrupt to `t`; `rrq_handler` on `t` (which has a current unit) then returns,
leaves the mailbox empty and `u` in the ready list of `t` at level `u.prio`: at
the tail with `u.left = u.full` when `u.left` was 0 at the push, at the head with
`u.left` as it was otherwise. -/
theorem remote_wakeup (cfg : Config) (id t u now : Nat) (nows : Nat → Nat) (w : World)
    (q : Nat → List Nat) (hinv : RqInv cfg t w q) (hempty : (w.cpu t).rq_queue = 0)
    (hcur : (w.cpu t).current ≠ 0) (hv : ValidUnit cfg t w u) (hid : id ≠ t)
    (hq : ∀ l, l < cfg.priorities → u ∉ q l) :
    ∃ w0, remote_enqueue cfg id u now w = .ok w0 ∧
      w0.ipi = (t, Vector.VEC_IPI_RRQ) :: w.ipi ∧
      ∃ w2, rrq_handler cfg t 1 nows w0 = .ok w2 ∧
        (w2.cpu t).rq_queue = 0 ∧ w2.ipi = w0.ipi ∧
        RqInv cfg t w2 (upd q (w.sc u).prio
          (if (w.sc u).left = 0 then q (w.sc u).prio ++ [u] else u :: q (w.sc u).prio)) ∧
        (w2.sc u).prio = (w.sc u).prio ∧ (w2.sc u).full = (w.sc u).full ∧
        ((w.sc u).left = 0 → (w2.sc u).left = (w2.sc u).full) ∧
        ((w.sc u).left ≠ 0 → (w2.sc u).left = (w.sc u).left) := by
  obtain ⟨w0, hok0, hp0, w1, -, hp1, hok2, hqd⟩ := wakeup_spec cfg id t u now nows w q hinv hempty
    hcur hv hid hq
  have hleft : (w1.sc u).left = if (w.sc u).left = 0 then (w.sc u).full else (w.sc u).left := by
    rw [hp1.left u (by simp), hp0.left_eq, hp0.full_eq]
  have hfull : (w1.sc u).full = (w.sc u).full := by rw [hp1.full_eq, hp0.full_eq]
  refine ⟨w0, hok0, ?_, _, hok2, by simp, ?_, ?_, ?_, ?_, ?_, ?_⟩
  · rw [hp0.ipi, hv.2.2.1]; simp
  · simp only [setCpu_ipi]; exact hp1.ipi
  · have hrq := hp1.rq
    rw [hqd] at hrq
    apply hrq.congr
    · simp
    · simp
    · intro x; simp
  · simp only [setCpu_sc]; rw [hp1.prio_eq, hp0.prio_eq]
  · simp only [setCpu_sc]; exact hfull
  · intro h0
    simp only [setCpu_sc]
    rw [hleft, hfull, if_pos h0]
  · intro h0
    simp only [setCpu_sc]
    rw [hleft, if_neg h0]

/-- C11, amended, at the two-CPU example: CPU 0 pushes unit 9, whose quantum is
exhausted, for CPU 1; after the drain unit 9 is alone in level 3 of CPU 1 and
holds its full quantum of 10 ticks. -/
theorem remote_wakeup_witness :
    RqInv cfgX 1 worldW (fun _ => []) ∧ (worldW.cpu 1).rq_queue = 0 ∧
      (worldW.cpu 1).current ≠ 0 ∧ ValidUnit cfgX 1 worldW 9 ∧ (0 : Nat) ≠ 1 ∧
      (∀ l, l < cfgX.priorities → 9 ∉ (fun _ => [] : Nat → List Nat) l) ∧
      ∃ w0, remote_enqueue cfgX 0 9 50 worldW = .ok w0 ∧
        w0.ipi = [(1, Vector.VEC_IPI_RRQ)] ∧
        ∃ w2, rrq_handler cfgX 1 1 (fun _ => 60) w0 = .ok w2 ∧
          RqInv cfgX 1 w2 (upd (fun _ => []) 3 [9]) ∧ (w2.sc 9).left = 10 := by
  refine ⟨by decide, by decide, by decide, by decide, by decide, by decide, ?_⟩
  obtain ⟨w0, h0, hi, w2, h2, -, -, hrq, -, hf, hl, -⟩ :=
    remote_wakeup cfgX 0 1 9 50 (fun _ => 60) worldW (fun _ => [])
      (by decide) (by decide) (by decide) (by decide) (by decide) (by decide)
  refine ⟨w0, h0, hi, w2, h2, hrq, ?_⟩
  rw [hl (by decide), hf]; decide

/-! ## Claims about strict priorities -/

/-- C12, as stated, fails: in the mixed-priority scenario (units 1, 2, 3 ready at
priority 5, unit 4 ready at priority 7) two invocations of `schedule(false)`, each
with the timer reading 0, both select unit 4 for 5 ticks. The second one does not
select a unit of priority 5: the re-enqueue puts unit 4 back at level 7, the
highest occupied level. -/
theorem mixed_priority_counterexample :
    AllReady cfgX 0 worldS qS 4 5 ∧ (worldS.sc 4).prio = 7 ∧ (worldS.sc 1).prio = 5 ∧
      ∃ sels w', rr_run cfgX 0 2 (fun _ => (60, 61)) worldS = .ok (sels, w') ∧
        sels = [(4, 5), (4, 5)] ∧ sels.map (fun s => (worldS.sc s.1).prio) = [7, 7] := by
  have h : AllReady cfgX 0 worldS qS 4 5 :=
    ⟨by decide, by decide, by decide, by decide, by decide, by decide, by decide, by decide,
      by decide, by decide, by decide, by decide, by decide, by decide, by decide⟩
  obtain ⟨sels, w', -, hok, hs, -⟩ := all_ready_run cfgX 0 worldS qS 4 5 h 1 (fun _ => (60, 61))
  have hs' : sels = [(4, 5), (4, 5)] := by rw [hs]; decide
  exact ⟨h, by decide, by decide, sels, w', hok, hs', by rw [hs']; decide⟩

/-- C12, amended. Mixed-priority scenario trace: let the unit `H` be ready alone at
its level and the units of the level `P` below it be ready, all with their full
quantum, no other level above `P` occupied, while a unit of priority below `P` is
current. Any number of invocations of `schedule(false)`, each with the timer
reading 0, all select `H` and give it its full quantum. In the state so reached a
`schedule(false)` with any timer reading selects `H` again, so no such call
replaces the running unit `H` by a unit of level `P`. Once `H` gives up the CPU by
`schedule(true)`, that call and the invocations of `schedule(false)` after it (timer
reading 0) select the units of level `P` in round-robin order, each with its full
quantum, repeating. -/
theorem mixed_priority (cfg : Config) (id : Nat) (w : World) (q : Nat → List Nat) (H P : Nat)
    (h : AllReady cfg id w q H P) (n : Nat) (nows : Nat → Nat × Nat) :
    ∃ sels w', rr_run cfg id (n + 1) nows w = .ok (sels, w') ∧
      sels = List.replicate (n + 1) (H, (w.sc H).full) ∧ (w'.cpu id).current = H ∧
      (∀ L e d, ∃ w2, schedule cfg id false e d (timer_reads id L w') = .ok w2 ∧
        (w2.cpu id).current = H) ∧
      (∀ L e d, ∃ w2, schedule cfg id true e d (timer_reads id L w') = .ok w2 ∧
        (w2.cpu id).current = rr_nth (q P) 0 ∧
        (w2.sc (w2.cpu id).current).left = (w.sc (rr_nth (q P) 0)).full ∧
        ∀ m nows2, ∃ sels2 w3, rr_run cfg id m nows2 w2 = .ok (sels2, w3) ∧
          sels2 = (List.range m).map (fun k =>
            (rr_nth (q P) (k + 1), (w.sc (rr_nth (q P) (k + 1))).full))) := by
  obtain ⟨sels, w', q', hok, hs, h', hcur', hqP, hfull', hprio'⟩ :=
    all_ready_run cfg id w q H P h n nows
  refine ⟨sels, w', hok, hs, hcur', ?_, ?_⟩
  · intro L e d
    obtain ⟨w2, hok2, hcur2, -⟩ := high_reselect cfg id e d L w' q' P h'
    exact ⟨w2, hok2, by rw [hcur2, hcur']⟩
  · intro L e d
    obtain ⟨w2, hok2, hcur2, hrr2, hP2, hlefto2, hfull2, hprio2⟩ :=
      high_suspend cfg id e d L w' q' P h'
    obtain ⟨a, t, hat⟩ : ∃ a t, q P = a :: t := by
      cases hl : q P with
      | nil => exact absurd hl h.ne
      | cons a t => exact ⟨a, t, rfl⟩
    have hPlt : P < cfg.priorities := Nat.lt_trans h.hi h.hi_lt
    have hHn : ∀ x ∈ q' P, x ≠ (w'.cpu id).current := by
      intro x hx e0
      exact h'.rr.rq.not_mem_of_prev hPlt h'.rr.unlinked (e0 ▸ hx)
    have hl2 : ∀ x ∈ q' P, (w2.sc x).left = (w.sc x).full := by
      intro x hx
      rw [hlefto2 x (hHn x hx), h'.fresh x hx, hfull']
    rw [hqP, hat] at hcur2 hrr2 hl2
    simp only [List.head?_cons, Option.getD_some, List.tail_cons] at hcur2 hrr2
    rw [hat, rr_nth_zero]
    refine ⟨w2, hok2, hcur2, by rw [hcur2]; exact hl2 a (by simp), ?_⟩
    intro m nows2
    have hq2 : upd q' P t (w2.sc (w2.cpu id).current).prio = t := by rw [hP2, upd_same]
    obtain ⟨sels2, w3, hok3, hs3⟩ := rr_run_cycle cfg id m nows2 w2 _ hrr2 (by
      intro x hx
      rw [hq2] at hx
      rw [hfull2, hfull']
      exact hl2 x (List.mem_cons_of_mem _ hx))
    refine ⟨sels2, w3, hok3, ?_⟩
    rw [hs3, hq2, hcur2]
    apply List.map_congr_left
    intro k _
    simp only [rr_nth_succ, hfull2, hfull']

/-- C12, amended, at the mixed-priority scenario: three invocations select unit 4
for 5 ticks each; when unit 4 then suspends, unit 1 is selected, and four further
invocations select units 2, 3, 1 and 2, each for 10 ticks. -/
theorem mixed_priority_witness :
    AllReady cfgX 0 worldS qS 4 5 ∧
      ∃ sels w', rr_run cfgX 0 3 (fun _ => (60, 61)) worldS = .ok (sels, w') ∧
        sels = [(4, 5), (4, 5), (4, 5)] ∧
        ∃ w2, schedule cfgX 0 true 70 71 (timer_reads 0 2 w') = .ok w2 ∧
          (w2.cpu 0).current = 1 ∧
          ∃ sels2 w3, rr_run cfgX 0 4 (fun _ => (80, 81)) w2 = .ok (sels2, w3) ∧
            sels2 = [(2, 10), (3, 10), (1, 10), (2, 10)] := by
  have h : AllReady cfgX 0 worldS qS 4 5 :=
    ⟨by decide, by decide, by decide, by decide, by decide, by decide, by decide, by decide,
      by decide, by decide, by decide, by decide, by decide, by decide, by decide⟩
  refine ⟨h, ?_⟩
  obtain ⟨sels, w', hok, hs, -, -, hsus⟩ :=
    mixed_priority cfgX 0 worldS qS 4 5 h 2 (fun _ => (60, 61))
  obtain ⟨w2, hok2, hcur2, -, hrun⟩ := hsus 2 70 71
  obtain ⟨sels2, w3, hok3, hs3⟩ := hrun 4 (fun _ => (80, 81))
  exact ⟨sels, w', hok, by rw [hs]; decide, w2, hok2, by rw [hcur2]; decide, sels2, w3, hok3,
    by rw [hs3]; decide⟩

/-! ## Claims about invariants of the run queue -/

/-- C13, as stated, fails: in the example machine unit 1 (priority 5) is current
and no ready unit has a higher priority. `ready_enqueue` of unit 4 (priority 7)
returns; afterwards `prio_top` is 7, unit 1 is still current, and unit 4, of
priority 7, is in the ready list of level 7. -/
theorem priority_invariant_counterexample :
    (∀ p, p < cfgX.priorities → ∀ x ∈ qX p,
        (worldX.sc x).prio ≤ (worldX.sc (worldX.cpu 0).current).prio) ∧
      ∃ w', ready_enqueue cfgX 0 4 77 worldX = .ok w' ∧ RqInv cfgX 0 w' (upd qX 7 [4]) ∧
        0 < (w'.cpu 0).prio_top ∧ (w'.sc (w'.cpu 0).current).prio = 5 ∧
        4 ∈ upd qX 7 [4] 7 ∧ (w'.sc 4).prio = 7 ∧ (w'.cpu 0).list 7 = 4 := by
  obtain ⟨w', hok, hp⟩ := ready_enqueue_spec cfgX 0 4 77 worldX qX (by decide) (by decide)
    (by decide) (by decide)
  refine ⟨by decide, w', hok, hp.rq, ?_, ?_, by simp, ?_, ?_⟩
  · rw [hp.top]; decide
  · rw [hp.current, hp.prio_eq]; decide
  · rw [hp.prio_eq]; decide
  · exact hp.list_head (Or.inl (by decide))

/-- C13, amended. Priority invariant: start from a state with the machine
invariant in which `HZD_SCHED` is set on CPU `id` whenever a ready unit of the CPU
has a priority above that of the current unit. In every state reached through the
operations, called within their preconditions, every unit in the ready list of a
level `p` has priority `p`, and if `HZD_SCHED` is clear on CPU `id`, no unit in the
ready lists of the CPU has a priority above that of the current unit; the same
holds right after every `schedule` on the CPU, whatever the flag was before. -/
theorem priority_invariant (cfg : Config) (id : Nat) (w0 w : World) (a0 a : Queues)
    (h0 : GInv cfg w0 a0) (hz : HazInv cfg id w0 a0)
    (hr : Reach cfg (fun _ _ => True) w0 a0 w a) :
    (∀ p, p < cfg.priorities → ∀ x ∈ a.q id p, (w.sc x).prio = p) ∧
      ((w.cpu id).hazard.testBit cfg.hzd_sched_bit = false →
        ∀ p, p < cfg.priorities → ∀ x ∈ a.q id p,
          (w.sc x).prio ≤ (w.sc (w.cpu id).current).prio) ∧
      (∀ s e d w', schedule cfg id s e d w = .ok w' →
        ∀ p, p < cfg.priorities → ∀ x ∈ (a.after w (.sched id s e d)).q id p,
          (w'.sc x).prio ≤ (w'.sc (w'.cpu id).current).prio) := by
  obtain ⟨hg, hzw⟩ := haz_reach h0 hz hr
  refine ⟨fun p hp1 x hx => ((hg.rq id).mem_facts hp1 hx).2.1, ?_, ?_⟩
  · intro hclear p hp1 x hx
    by_contra hlt
    have := hzw ⟨p, hp1, x, hx, by omega⟩
    rw [hclear] at this
    cases this
  · intro s e d w' hok p hp1 x hx
    obtain ⟨hp, -⟩ := hg.sched id s e d hok
    simp only [Queues.after, upd_same] at hx
    exact sched_no_higher hp p hp1 x hx

/-- C13, amended, at the example machine: `ready_enqueue` of unit 4 (priority 7)
while unit 1 (priority 5) is current leads to `worldE`, where `HZD_SCHED` is set and
unit 4 is ready above the current unit; `schedule(false)` then leads to `worldF`,
where unit 4 is current, `HZD_SCHED` is clear, level 5 holds the units 2, 3, 1, every
ready unit has the priority of its level, and none has a priority above that of
unit 4. -/
theorem priority_invariant_witness :
    GInv cfgX worldX queuesX ∧ HazInv cfgX 0 worldX queuesX ∧
      ready_enqueue cfgX 0 4 77 worldX = .ok worldE ∧
      schedule cfgX 0 false 60 61 worldE = .ok worldF ∧
      Reach cfgX (fun _ _ => True) worldX queuesX worldE
        (queuesX.after worldX (.enqueue 0 4 77)) ∧
      Reach cfgX (fun _ _ => True) worldX queuesX worldF
        ((queuesX.after worldX (.enqueue 0 4 77)).after worldE (.sched 0 false 60 61)) ∧
      (worldE.cpu 0).current = 1 ∧ (worldE.sc 1).prio = 5 ∧ (worldE.sc 4).prio = 7 ∧
      4 ∈ (queuesX.after worldX (.enqueue 0 4 77)).q 0 7 ∧
      (worldE.cpu 0).hazard.testBit cfgX.hzd_sched_bit = true ∧
      (worldF.cpu 0).current = 4 ∧ (worldF.sc 4).prio = 7 ∧
      (worldF.cpu 0).hazard.testBit cfgX.hzd_sched_bit = false ∧
      ((queuesX.after worldX (.enqueue 0 4 77)).after worldE (.sched 0 false 60 61)).q 0 5 =
        [2, 3, 1] ∧
      (∀ p, p < cfgX.priorities →
        ∀ x ∈ ((queuesX.after worldX (.enqueue 0 4 77)).after worldE
            (.sched 0 false 60 61)).q 0 p, (worldF.sc x).prio = p) ∧
      (∀ x ∈ ((queuesX.after worldX (.enqueue 0 4 77)).after worldE
          (.sched 0 false 60 61)).q 0 5,
        (worldF.sc x).prio ≤ (worldF.sc (worldF.cpu 0).current).prio) ∧
      (∀ p, p < cfgX.priorities →
        ∀ x ∈ ((queuesX.after worldX (.enqueue 0 4 77)).after worldE
            (.sched 0 false 60 61)).q 0 p,
          (worldF.sc x).prio ≤ (worldF.sc (worldF.cpu 0).current).prio) := by
  have hz : HazInv cfgX 0 worldX queuesX := by decide
  have hok1 : ready_enqueue cfgX 0 4 77 worldX = .ok worldE := rfl
  have hok2 : schedule cfgX 0 false 60 61 worldE = .ok worldF := rfl
  have hr1 : Reach cfgX (fun _ _ => True) worldX queuesX worldE
      (queuesX.after worldX (.enqueue 0 4 77)) :=
    Reach.step (.enqueue 0 4 77) Reach.start (by show (worldX.sc 4).prev = 0; decide) hok1 trivial
  have hr2 : Reach cfgX (fun _ _ => True) worldX queuesX worldF
      ((queuesX.after worldX (.enqueue 0 4 77)).after worldE (.sched 0 false 60 61)) :=
    Reach.step (.sched 0 false 60 61) hr1 trivial hok2 trivial
  have hclear : (worldF.cpu 0).hazard.testBit cfgX.hzd_sched_bit = false := by decide
  -- the state after `schedule`, reached in two steps: the flag is clear
  obtain ⟨hlevel, hflag, -⟩ := priority_invariant cfgX 0 worldX worldF queuesX _ ginvX hz hr2
  -- the state after `ready_enqueue`, reached in one step: what `schedule` leaves behind
  obtain ⟨-, -, hsched⟩ := priority_invariant cfgX 0 worldX worldE queuesX _ ginvX hz hr1
  exact ⟨ginvX, hz, hok1, hok2, hr1, hr2, by decide, by decide, by decide, by decide, by decide,
    by decide, by decide, hclear, by decide, hlevel, hflag hclear 5 (by decide),
    hsched false 60 61 worldF hok2⟩

/-- C18. The hazard flag tracks priority inversion: start from a state with the
machine invariant in which `HZD_SCHED` is set on CPU `id` whenever a ready unit of
the CPU has a priority above that of the current unit. The same holds in every
state reached through the operations (`ready_enqueue`, `rrq_handler`, `rke_handler`,
`schedule` among them), called within their preconditions. Right after every
`schedule` on the CPU `HZD_SCHED` is clear: the hazard word is the one before the
call with that bit cleared, so the re-enqueue of the outgoing unit has not raised
it, and no ready unit has a priority above that of the new current unit. -/
theorem hazard_tracks_inversion (cfg : Config) (id : Nat) (w0 w : World) (a0 a : Queues)
    (h0 : GInv cfg w0 a0) (hz : HazInv cfg id w0 a0)
    (hr : Reach cfg (fun _ _ => True) w0 a0 w a) :
    ((∃ p, p < cfg.priorities ∧ ∃ x ∈ a.q id p,
          (w.sc (w.cpu id).current).prio < (w.sc x).prio) →
        (w.cpu id).hazard.testBit cfg.hzd_sched_bit = true) ∧
      (∀ s e d w', schedule cfg id s e d w = .ok w' →
        (w'.cpu id).hazard.testBit cfg.hzd_sched_bit = false ∧
        (w'.cpu id).hazard = (w.cpu id).hazard &&& (2 ^ cfg.hazard_bits - 1 - HZD_SCHED cfg) ∧
        ¬ Inversion cfg id w' (a.after w (.sched id s e d))) ∧
      (∀ e w1, ready_enqueue cfg id (w.cpu id).current e (sched_begin cfg id w) = .ok w1 →
        (w1.cpu id).hazard = ((sched_begin cfg id w).cpu id).hazard) := by
  obtain ⟨hg, hzw⟩ := haz_reach h0 hz hr
  refine ⟨hzw, ?_, ?_⟩
  · intro s e d w' hok
    obtain ⟨hp, -⟩ := hg.sched id s e d hok
    refine ⟨by rw [hp.hazard, HZD_SCHED]; exact clear_bit _ _ _, hp.hazard, ?_⟩
    rintro ⟨p, hp1, x, hx, hlt⟩
    simp only [Queues.after, upd_same] at hx
    have := sched_no_higher hp p hp1 x hx
    omega
  · intro e w1 hok
    obtain ⟨-, -, -, hhaz, -, -⟩ := ready_enqueue_cpu cfg id _ e _ w1 hok
    rw [hhaz, if_neg]
    simp

/-- C18 at the example machine: after `ready_enqueue` of unit 4 (priority 7) while
unit 1 (priority 5) is current, `HZD_SCHED` is set on CPU 0. -/
theorem hazard_tracks_inversion_witness :
    GInv cfgX worldX queuesX ∧ HazInv cfgX 0 worldX queuesX ∧
      ∃ w', Reach cfgX (fun _ _ => True) worldX queuesX w'
          (queuesX.after worldX (.enqueue 0 4 77)) ∧
        (w'.cpu 0).hazard.testBit cfgX.hzd_sched_bit = true := by
  refine ⟨ginvX, by decide, ?_⟩
  obtain ⟨w', hok, hp⟩ := ready_enqueue_spec cfgX 0 4 77 worldX qX (by decide) (by decide)
    (by decide) (by decide)
  have hr : Reach cfgX (fun _ _ => True) worldX queuesX w'
      (queuesX.after worldX (.enqueue 0 4 77)) :=
    Reach.step (.enqueue 0 4 77) Reach.start (by show (worldX.sc 4).prev = 0; decide) hok trivial
  refine ⟨w', hr, ?_⟩
  apply (hazard_tracks_inversion cfgX 0 worldX w' queuesX _ ginvX (by decide) hr).1
  refine ⟨7, by decide, 4, ?_, ?_⟩
  · show 4 ∈ upd queuesX.q 0 (q_enq (queuesX.q 0) (worldX.sc 4).prio (worldX.sc 4).left 4) 0 7
    decide
  · rw [hp.current, hp.prio_eq, hp.prio_eq]; decide

/-- C14. `prio_top` is the highest occupied level: if on CPU `id` every level above
`prio_top` has an empty list and the list at `prio_top` is not empty unless
`prio_top` is 0, then the same holds in every state reached through calls of
`ready_enqueue` and `ready_dequeue` that return. When `prio_top` is a level of the
array, it stays one, every occupied level is at or below `prio_top`, and `prio_top` is
0 when all lists are empty. -/
theorem prio_top_highest (cfg : Config) (id : Nat) (w0 w : World) (h0 : TopPtr cfg id w0)
    (hr : ReachRq cfg w0 w) :
    (∀ p, p < cfg.priorities → (w.cpu id).prio_top < p → (w.cpu id).list p = 0) ∧
      ((w.cpu id).list (w.cpu id).prio_top ≠ 0 ∨ (w.cpu id).prio_top = 0) ∧
      ((w0.cpu id).prio_top < cfg.priorities →
        (w.cpu id).prio_top < cfg.priorities ∧
        (∀ p, p < cfg.priorities → (w.cpu id).list p ≠ 0 → p ≤ (w.cpu id).prio_top) ∧
        ((∀ p, p < cfg.priorities → (w.cpu id).list p = 0) → (w.cpu id).prio_top = 0)) := by
  obtain ⟨⟨hb, ht⟩, hlt⟩ := h0.reach hr
  refine ⟨hb, ht, fun h => ⟨hlt h, ?_, ?_⟩⟩
  · intro p hp1 hne
    by_contra hc
    exact hne (hb p hp1 (by omega))
  · intro hall
    rcases ht with ht | ht
    · exact absurd (hall _ (hlt h)) ht
    · exact ht

/-- C14 at the example machine: after `ready_enqueue` of unit 4 (priority 7)
`prio_top` is 7 and it is the highest occupied level. -/
theorem prio_top_highest_witness :
    TopPtr cfgX 0 worldX ∧
      ∃ w', ReachRq cfgX worldX w' ∧ (w'.cpu 0).prio_top = 7 ∧ (w'.cpu 0).list 7 ≠ 0 ∧
        ∀ p, p < cfgX.priorities → 7 < p → (w'.cpu 0).list p = 0 := by
  refine ⟨by decide, ?_⟩
  obtain ⟨w', hok, hp⟩ := ready_enqueue_spec cfgX 0 4 77 worldX qX (by decide) (by decide)
    (by decide) (by decide)
  have hr : ReachRq cfgX worldX w' := ReachRq.enqueue 0 4 77 ReachRq.start hok
  have htop : (w'.cpu 0).prio_top = 7 := by rw [hp.top]; decide
  obtain ⟨hb, ht, -⟩ := prio_top_highest cfgX 0 worldX w' (by decide) hr
  rw [htop] at hb ht
  refine ⟨w', hr, htop, ?_, hb⟩
  rcases ht with ht | ht
  · exact ht
  · cases ht

/-! ## Claims about failed preconditions -/

/-- C15, as stated, fails: in the example machine unit 2 is linked in the ready
list of level 5 (its `prev` is unit 3). `ready_enqueue` of unit 2 does not abort: it
returns, and afterwards both links of unit 2 point at unit 2 itself while unit 3
still points at unit 2, so the ring of level 5 no longer holds unit 3. -/
theorem double_link_counterexample :
    RqInv cfgX 0 worldX qX ∧ 2 ∈ qX (worldX.sc 2).prio ∧ (worldX.sc 2).prev = 3 ∧
      (worldX.sc 2).next = 3 ∧
      ∃ w', ready_enqueue cfgX 0 2 77 worldX = .ok w' ∧ (w'.sc 2).prev = 2 ∧
        (w'.sc 2).next = 2 ∧ (w'.sc 3).next = 2 ∧ (w'.sc 3).prev = 2 ∧
        (w'.cpu 0).list 5 = 2 := by
  refine ⟨by decide, by decide, by decide, by decide, _, rfl, ?_⟩
  decide

/-- C15, amended. Double-linking is fatal where `schedule` guards it: for a valid
unit `u` that is linked in the ready list of its level on its home CPU `id`,
`schedule(false)` with `u` as the current unit aborts by the assertion
`suspend || !current->prev`, which stands before every write to a ready list, to
`prio_top` or to a link. `ready_enqueue` itself has no linkage assertion: called for
`u` it returns, and whenever it stops short, for any unit, the cause is a null
pointer or one of its three assertions (`prio < priorities`, `cpu == Cpu::id`,
`this != ~0ul`). -/
theorem double_link_guard (cfg : Config) (id u now e d : Nat) (w : World) (q : Nat → List Nat)
    (hinv : RqInv cfg id w q) (hv : ValidUnit cfg id w u) (hl : u ∈ q (w.sc u).prio)
    (hcur : (w.cpu id).current ≠ 0) :
    (w.sc u).prev ≠ 0 ∧
      ((w.cpu id).current = u → schedule cfg id false e d w = .error .assert_unlinked) ∧
      (∃ w', ready_enqueue cfg id u now w = .ok w') ∧
      (∀ v t f, ready_enqueue cfg id v t w = .error f →
        f = .null_deref ∨ (f = .assert_prio ∧ ¬ (w.sc v).prio < cfg.priorities) ∨
          (f = .assert_cpu ∧ (w.sc v).cpu ≠ id) ∨
          (f = .assert_this ∧ v = 2 ^ cfg.long_bits - 1)) := by
  have hprev : (w.sc u).prev ≠ 0 := (hinv.mem_facts hv.2.2.2 hl).2.2.2.1
  refine ⟨hprev, ?_, ready_enqueue_linked cfg id u now w q hinv hv hl hcur,
    fun v t f h => ready_enqueue_faults cfg id v t w f h⟩
  intro hc
  rw [schedule_eq, if_neg hcur, if_pos]
  rw [hc]
  simp [hprev]

/-- C15, amended, at the example machine with the linked unit 2 current on CPU 0:
`schedule(false)` stops at the assertion. -/
theorem double_link_guard_witness :
    RqInv cfgX 0 worldD qX ∧ ValidUnit cfgX 0 worldD 2 ∧ 2 ∈ qX (worldD.sc 2).prio ∧
      (worldD.cpu 0).current ≠ 0 ∧
      schedule cfgX 0 false 60 61 worldD = .error .assert_unlinked := by
  refine ⟨by decide, by decide, by decide, by decide, ?_⟩
  exact (double_link_guard cfgX 0 2 77 60 61 worldD qX (by decide) (by decide) (by decide)
    (by decide)).2.1 (by decide)

/-! ## Claims about ACPI register access -/

/-- C16, as stated, fails: a descriptor of width 0 is not supported (its width is
not 8, 16 or 32; in the second descriptor the address space is not I/O either),
yet `hw_read` returns 0 and `hw_write` returns, both without a panic and without a
port access. Here `Acpi_gas::IO` is 1 and the address is `0x608`. -/
theorem hw_access_counterexample :
    ¬ Acpi.supported 1 ⟨1, 0, 0x608⟩ ∧ ¬ Acpi.supported 1 ⟨0, 0, 0x608⟩ ∧
      Acpi.hw_read 1 (fun _ _ => 0xff) ⟨1, 0, 0x608⟩ = .ok (0, []) ∧
      Acpi.hw_write 1 ⟨1, 0, 0x608⟩ 5 = .ok [] ∧
      Acpi.hw_read 1 (fun _ _ => 0xff) ⟨0, 0, 0x608⟩ = .ok (0, []) ∧
      Acpi.hw_write 1 ⟨0, 0, 0x608⟩ 5 = .ok [] := by
  refine ⟨by decide, by decide, rfl, rfl, rfl, rfl⟩

/-- C16, amended. Register descriptors: a descriptor of width 0 names a register
that is not implemented; `hw_read` returns 0 for it and `hw_write` does nothing,
with no port access. For every other descriptor `hw_read` and `hw_write` halt with
a panic whenever the address space is not I/O or the width is not 8, 16 or 32;
otherwise they make exactly one port access of that width at the port
`static_cast<unsigned>(gas.addr)`, which is `gas.addr` when it fits 32 bits;
`hw_read` returns the value read and `hw_write` writes `val` truncated to the
width. -/
theorem hw_access (asid_io : Nat) (port_in : Nat → Nat → Nat) (gas : Acpi_gas) (val : Nat) :
    (gas.bits = 0 →
        Acpi.hw_read asid_io port_in gas = .ok (0, []) ∧ Acpi.hw_write asid_io gas val = .ok []) ∧
      (gas.bits ≠ 0 → ¬ Acpi.supported asid_io gas →
        Acpi.hw_read asid_io port_in gas = .error (.panic gas.asid) ∧
        Acpi.hw_write asid_io gas val = .error (.panic gas.asid)) ∧
      (Acpi.supported asid_io gas →
        Acpi.hw_read asid_io port_in gas =
          .ok (port_in gas.bits (gas.addr % 2 ^ 32) % 2 ^ gas.bits,
            [.inp gas.bits (gas.addr % 2 ^ 32)]) ∧
        Acpi.hw_write asid_io gas val =
          .ok [.out gas.bits (gas.addr % 2 ^ 32) (val % 2 ^ gas.bits)] ∧
        (gas.addr < 2 ^ 32 → gas.addr % 2 ^ 32 = gas.addr)) := by
  refine ⟨?_, ?_, ?_⟩
  · intro h0
    simp [Acpi.hw_read, Acpi.hw_write, h0]
  · intro h0 hs
    unfold Acpi.supported at hs
    by_cases ha : gas.asid = asid_io
    · have hb : ¬ (gas.bits = 8 ∨ gas.bits = 16 ∨ gas.bits = 32) := fun hb => hs ⟨ha, hb⟩
      simp only [not_or] at hb
      obtain ⟨h8, h16, h32⟩ := hb
      constructor
      · unfold Acpi.hw_read
        rw [if_neg h0, if_pos ha]
        split
        · next e => exact absurd e h8
        · next e => exact absurd e h16
        · next e => exact absurd e h32
        · rfl
      · unfold Acpi.hw_write
        rw [if_neg h0, if_pos ha]
        split
        · next e => exact absurd e h8
        · next e => exact absurd e h16
        · next e => exact absurd e h32
        · rfl
    · simp [Acpi.hw_read, Acpi.hw_write, h0, ha]
  · rintro ⟨ha, hb⟩
    refine ⟨?_, ?_, fun h => Nat.mod_eq_of_lt h⟩
    · rcases hb with hb | hb | hb <;> simp [Acpi.hw_read, ha, hb]
    · rcases hb with hb | hb | hb <;> simp [Acpi.hw_write, ha, hb]

/-- C16, amended, at concrete descriptors with `Acpi_gas::IO = 1`: a 16-bit I/O
register at `0x608` is read and written with one port access each; a 64-bit I/O
register and a 16-bit register in memory space (address space 0) panic. -/
theorem hw_access_witness :
    Acpi.hw_read 1 (fun _ p => p + 0x10000) ⟨1, 16, 0x608⟩ = .ok (0x608, [.inp 16 0x608]) ∧
      Acpi.hw_write 1 ⟨1, 16, 0x608⟩ 0x12345 = .ok [.out 16 0x608 0x2345] ∧
      Acpi.hw_read 1 (fun _ p => p) ⟨1, 64, 0x608⟩ = .error (.panic 1) ∧
      Acpi.hw_write 1 ⟨0, 16, 0x608⟩ 7 = .error (.panic 0) := by
  have h1 := (hw_access 1 (fun _ p => p + 0x10000) ⟨1, 16, 0x608⟩ 0x12345).2.2 (by decide)
  have h2 := (hw_access 1 (fun _ p => p) ⟨1, 64, 0x608⟩ 0).2.1 (by decide) (by decide)
  have h3 := (hw_access 1 (fun _ p => p) ⟨0, 16, 0x608⟩ 7).2.1 (by decide) (by decide)
  exact ⟨h1.1, h1.2.1, h2.1, h3.2⟩

/-! ## Claims about the rings -/

/-- C17. Ring well-formedness is preserved: let every level list of CPU `id` be a
well-formed circular doubly-linked ring whose members have the level index as
priority (the run-queue invariant with the members `q`; in terms of the links:
`x.next.prev = x`, `x.prev.next = x`, every member reached from the head). Then
`ready_enqueue` of a valid unlinked unit, `ready_dequeue` of a unit linked in its
level, and `rrq_handler` on a well-formed mailbox ring of valid units that are in no
ready list all return, and afterwards every level list is again such a ring. -/
theorem ring_preserved (cfg : Config) (id : Nat) (w : World) (q : Nat → List Nat)
    (hinv : RqInv cfg id w q) :
    (∀ p, p < cfg.priorities → WellFormed w id p (q p)) ∧
      (∀ u now, ValidUnit cfg id w u → (w.sc u).prev = 0 → (w.cpu id).current ≠ 0 →
        ∃ w', ready_enqueue cfg id u now w = .ok w' ∧
          RqInv cfg id w' (q_enq q (w.sc u).prio (w.sc u).left u) ∧
          ∀ p, p < cfg.priorities →
            WellFormed w' id p (q_enq q (w.sc u).prio (w.sc u).left u p)) ∧
      (∀ u now, (w.sc u).prio < cfg.priorities → u ∈ q (w.sc u).prio →
        ∃ w', ready_dequeue cfg id u now w = .ok w' ∧
          RqInv cfg id w' (q_deq q (w.sc u).prio u) ∧
          ∀ p, p < cfg.priorities → WellFormed w' id p (q_deq q (w.sc u).prio u p)) ∧
      (∀ m nows, Ring w.sc (w.cpu id).rq_queue m →
        (∀ x ∈ m, ValidUnit cfg id w x ∧ ∀ p, p < cfg.priorities → x ∉ q p) →
        (m ≠ [] → (w.cpu id).current ≠ 0) →
        ∃ w', rrq_handler cfg id m.length nows w = .ok w' ∧ (w'.cpu id).rq_queue = 0 ∧
          RqInv cfg id w' (q_drain w.sc q m) ∧
          ∀ p, p < cfg.priorities → WellFormed w' id p (q_drain w.sc q m p)) := by
  refine ⟨hinv.well_formed, ?_, ?_, ?_⟩
  · intro u now hv hprev hcur
    obtain ⟨w', hok, hp⟩ := ready_enqueue_spec cfg id u now w q hinv hv
      (hinv.not_mem_of_prev hv.2.2.2 hprev) hcur
    exact ⟨w', hok, hp.rq, hp.rq.well_formed⟩
  · intro u now hprio hmem
    obtain ⟨w', hok, hp⟩ := ready_dequeue_spec cfg id u now w q hinv hprio hmem
    exact ⟨w', hok, hp.rq, hp.rq.well_formed⟩
  · intro m nows hring hval hcur
    obtain ⟨w1, hok1, hp⟩ := rrq_loop_spec cfg id m m.length (w.cpu id).rq_queue nows w q
      (Nat.le_refl _) hinv hring hval hcur
    have hrq : RqInv cfg id (w1.setCpu id { w1.cpu id with rq_queue := 0 }) (q_drain w.sc q m) := by
      apply hp.rq.congr
      · simp
      · simp
      · intro x; simp
    refine ⟨_, ?_, ?_, hrq, hrq.well_formed⟩
    · simp only [rrq_handler, hok1, bind, Except.bind]
    · simp

/-- C17 at the example machine: the ring of units 2 and 3 at level 5 is well formed,
and after `ready_enqueue` of unit 1 the level is the well-formed ring of units 2, 3
and 1. -/
theorem ring_preserved_witness :
    RqInv cfgX 0 worldX qX ∧ WellFormed worldX 0 5 [2, 3] ∧
      ∃ w', ready_enqueue cfgX 0 1 77 worldX = .ok w' ∧ WellFormed w' 0 5 [2, 3, 1] := by
  obtain ⟨h1, h2, -⟩ := ring_preserved cfgX 0 worldX qX (by decide)
  obtain ⟨w', hok, -, hwf⟩ := h2 1 77 (by decide) (by decide) (by decide)
  exact ⟨by decide, h1 5 (by decide), w', hok, hwf 5 (by decide)⟩

/-! ## Claims about the assertions of `schedule` -/

/-- C19. `schedule` finds a unit when the caller stays runnable: in a state with the
run-queue invariant and `prio_top` the highest occupied level, with a valid
unlinked current unit, `schedule(false)` returns, so neither its assertion that the
selected unit exists nor an assertion of the `ready_enqueue` and `ready_dequeue` it
calls fails; `schedule(true)` fails the assertion that the selected unit exists
exactly when all ready lists of the CPU are empty, and returns otherwise. -/
theorem schedule_finds_unit (cfg : Config) (id e d : Nat) (w : World) (q : Nat → List Nat)
    (hinv : RqInv cfg id w q) (hb : TopBound cfg id w q) (ht : TopTight id w q)
    (hv : ValidUnit cfg id w (w.cpu id).current)
    (hprev : (w.sc (w.cpu id).current).prev = 0) :
    (∃ w', schedule cfg id false e d w = .ok w' ∧ (w'.cpu id).current ≠ 0) ∧
      (schedule cfg id true e d w = .error .assert_sc ↔
        ∀ p, p < cfg.priorities → (w.cpu id).list p = 0) ∧
      ((∃ p, p < cfg.priorities ∧ (w.cpu id).list p ≠ 0) →
        ∃ w', schedule cfg id true e d w = .ok w' ∧ (w'.cpu id).current ≠ 0) := by
  have hsel0 : ∀ s w', SchedPost cfg id s e d w q w' → (w'.cpu id).current ≠ 0 := by
    intro s w' hp
    rw [hp.current]
    rcases mem_sched_q1 hp.sel_mem with hm | ⟨-, hm⟩
    · have hlt : sched_top1 id s w < cfg.priorities := by
        unfold sched_top1
        split
        · exact hinv.1
        · exact max_lt hinv.1 hv.2.2.2
      exact (hinv.mem_facts hlt hm).1
    · rw [hm]; exact hv.1
  have hsus : (∃ p, p < cfg.priorities ∧ (w.cpu id).list p ≠ 0) →
      ∃ w', schedule cfg id true e d w = .ok w' ∧ (w'.cpu id).current ≠ 0 := by
    rintro ⟨p, hp1, hp2⟩
    have hne : q p ≠ [] := fun he => hp2 ((hinv.2 p hp1).1.nil_iff.mpr he)
    obtain ⟨w', hok, hp⟩ := schedule_spec cfg id true e d w q hinv hb ht hv.1
      (fun _ => top_occupied hb ht hp1 hne) (fun hs => by cases hs)
    exact ⟨w', hok, hsel0 true w' hp⟩
  refine ⟨?_, ⟨?_, ?_⟩, hsus⟩
  · obtain ⟨w', hok, hp⟩ := schedule_spec cfg id false e d w q hinv hb ht hv.1
      (fun hs => by cases hs) (fun _ => ⟨hv, hprev⟩)
    exact ⟨w', hok, hsel0 false w' hp⟩
  · intro herr p hp1
    by_contra hne
    obtain ⟨w', hok, -⟩ := hsus ⟨p, hp1, hne⟩
    rw [herr] at hok
    cases hok
  · intro hall
    exact schedule_suspend_empty cfg id e d w hv.1 (hall _ hinv.1)

/-- C19 at the example machine: `schedule(false)` returns, and so does
`schedule(true)`, since level 5 is occupied. -/
theorem schedule_finds_unit_witness :
    RqInv cfgX 0 worldX qX ∧ TopBound cfgX 0 worldX qX ∧ TopTight 0 worldX qX ∧
      ValidUnit cfgX 0 worldX (worldX.cpu 0).current ∧
      (worldX.sc (worldX.cpu 0).current).prev = 0 ∧
      (∃ w', schedule cfgX 0 false 60 61 worldX = .ok w') ∧
      ∃ w', schedule cfgX 0 true 60 61 worldX = .ok w' := by
  obtain ⟨⟨w1, h1, -⟩, -, h3⟩ := schedule_finds_unit cfgX 0 60 61 worldX qX (by decide)
    (by decide) (by decide) (by decide) (by decide)
  obtain ⟨w2, h2, -⟩ := h3 ⟨5, by decide, by decide⟩
  exact ⟨by decide, by decide, by decide, by decide, by decide, ⟨w1, h1⟩, ⟨w2, h2⟩⟩

/-! ## Claims about the drain of the mailbox -/

/-- C20. The mailbox drain terminates in push order: let the mailbox of CPU `id` be
a well-formed ring of the units `r` (any number, from the head on), valid units that
are in no ready list. A push by `remote_enqueue` puts a unit behind the last one,
so `r` is the order of the pushes. The loop of `rrq_handler` returns after
`r.length` iterations and not before; it calls `ready_enqueue` once for each unit of
`r`, in the order of `r`; and the units of `r` of a priority `P`, when all of them
have `left = 0`, stand behind the units that were in level `P` before, in the order
of `r`. -/
theorem drain_push_order (cfg : Config) (id : Nat) (nows : Nat → Nat) (w : World)
    (q : Nat → List Nat) (r : List Nat) (hinv : RqInv cfg id w q)
    (hring : Ring w.sc (w.cpu id).rq_queue r)
    (hval : ∀ x ∈ r, ValidUnit cfg id w x ∧ ∀ p, p < cfg.priorities → x ∉ q p)
    (hcur : r ≠ [] → (w.cpu id).current ≠ 0) :
    r.Nodup ∧
      (∃ w', rrq_loop_log cfg id r.length (w.cpu id).rq_queue nows w = .ok (r, w') ∧
        rrq_handler cfg id r.length nows w =
          .ok (w'.setCpu id { w'.cpu id with rq_queue := 0 }) ∧
        RqInv cfg id w' (q_drain w.sc q r)) ∧
      (∀ fuel log w1, rrq_loop_log cfg id fuel (w.cpu id).rq_queue nows w = .ok (log, w1) →
        log = r ∧ r.length ≤ fuel) ∧
      (∀ P, (∀ x ∈ r, (w.sc x).prio = P → (w.sc x).left = 0) →
        q_drain w.sc q r P = q P ++ r.filter (fun x => decide ((w.sc x).prio = P))) ∧
      (∀ j u now, u ≠ 0 → (w.sc u).cpu = id → j ≠ id → u ∉ r →
        ∃ w1, remote_enqueue cfg j u now w = .ok w1 ∧
          Ring w1.sc (w1.cpu id).rq_queue (r ++ [u])) := by
  have hdis : ∀ x ∈ r, (w.sc x).cpu = id ∧ ∀ p, p < cfg.priorities → x ∉ q p :=
    fun x hx => ⟨(hval x hx).1.2.2.1, (hval x hx).2⟩
  obtain ⟨w', hok, hp⟩ := rrq_loop_spec cfg id r r.length (w.cpu id).rq_queue nows w q
    (Nat.le_refl _) hinv hring hval hcur
  have hlog := rrq_loop_log_eq cfg id r r.length _ nows w w' q hinv hring hdis hok
  refine ⟨hring.1.1, ⟨w', hlog, ?_, hp.rq⟩, ?_, fun P h => q_drain_level w.sc P r q h, ?_⟩
  · simp only [rrq_handler, hok, bind, Except.bind]
  · intro fuel log w1 h1
    have h2 : rrq_loop cfg id fuel (w.cpu id).rq_queue nows w = .ok w1 := by
      rw [← rrq_loop_log_snd, h1]; rfl
    have h3 := rrq_loop_log_eq cfg id r fuel _ nows w w1 q hinv hring hdis h2
    rw [h1] at h3
    injection h3 with h3
    injection h3 with h4 h5
    refine ⟨h4, ?_⟩
    have := rrq_loop_log_length cfg id fuel _ nows w log w1 h1
    rw [h4] at this
    exact this
  · intro j u now hu0 hcpu hj hur
    obtain ⟨w1, hok1, hp1⟩ := remote_enqueue_spec cfg j u now w r hu0 (by rw [hcpu]; exact hj)
      (by rw [hcpu]; exact hring) hur
    refine ⟨w1, hok1, ?_⟩
    have := hp1.ring
    rwa [hcpu] at this

/-- C20 at the example machine with units 6 and 7 in the mailbox of CPU 0: the
loop runs twice and calls `ready_enqueue` for unit 6, then for unit 7; afterwards
level 5 holds the units 2, 3, 6, 7 in this order. -/
theorem drain_push_order_witness :
    RqInv cfgX 0 worldM qX ∧ Ring worldM.sc (worldM.cpu 0).rq_queue [6, 7] ∧
      (∀ x ∈ [6, 7], ValidUnit cfgX 0 worldM x ∧ ∀ p, p < cfgX.priorities → x ∉ qX p) ∧
      (worldM.cpu 0).current ≠ 0 ∧
      ∃ w', rrq_loop_log cfgX 0 2 6 (fun _ => 60) worldM = .ok ([6, 7], w') ∧
        RqInv cfgX 0 w' (q_drain worldM.sc qX [6, 7]) ∧
        q_drain worldM.sc qX [6, 7] 5 = [2, 3, 6, 7] := by
  have h1 : RqInv cfgX 0 worldM qX := by decide
  have h2 : Ring worldM.sc (worldM.cpu 0).rq_queue [6, 7] := by decide
  have h3 : ∀ x ∈ [6, 7], ValidUnit cfgX 0 worldM x ∧ ∀ p, p < cfgX.priorities → x ∉ qX p := by
    decide
  have h4 : (worldM.cpu 0).current ≠ 0 := by decide
  obtain ⟨-, ⟨w', hlog, -, hrq⟩, -, hlev, -⟩ :=
    drain_push_order cfgX 0 (fun _ => 60) worldM qX [6, 7] h1 h2 h3 (fun _ => h4)
  exact ⟨h1, h2, h3, h4, w', hlog, hrq, by rw [hlev 5 (by decide)]; decide⟩

end Nova
